import Mathlib

/-!
# Sorbet source file registry (`core/Files.cc`)

A shallow embedding of the directive scanners, the `File` entity and the `FileRef`
dereference of `core/Files.cc`, followed by the properties proved about them.

Conventions of the embedding.

* A source text or path (`std::string_view`, `std::string`) is a `List Char`, one
  element per byte; `size_t` values are natural numbers.
* A function that can stop abnormally returns an `Outcome`: a failed `ENFORCE`
  is `Failure.contract`, an unchecked read outside a container (or through a null
  pointer) is `Failure.outOfRange`, a `std::out_of_range` thrown by `substr` is
  `Failure.exception`, and a loop that did not finish within its iteration budget is
  `Failure.fuel`.
* Narrowing conversions written in the source (`static_cast<uint32_t>`, the `int`
  returned by `lineCount`, `int` compared with or passed as `size_t`) are explicit
  (`% 2 ^ 32`, `toInt32`, `toSizeT`).
* Declarations that live in headers which are not part of the translated sources
  are collected in `Header` or modelled from the specification, and say so.
-/

namespace Sorbet

/-- A byte string: source text or path. -/
abbrev Text := List Char

/-- The ways in which a call can stop without a result. -/
inductive Failure where
  | contract
  | outOfRange
  | exception
  | fuel
  deriving DecidableEq, Repr

/-- Result of a call that may stop abnormally. -/
inductive Outcome (α : Type) where
  | ok (a : α)
  | fail (e : Failure)
  deriving DecidableEq, Repr

/-- Sequencing of calls: the first failure is the failure of the whole. -/
def Outcome.bind {α β : Type} (x : Outcome α) (k : α → Outcome β) : Outcome β :=
  match x with
  | .ok a => k a
  | .fail e => .fail e

/-- Modelled from the spec: `ENFORCE` is defined in a header that is not among the sources;
the specification makes a violated check a fatal contract failure. `ENFORCE c k` runs `k`
when the condition holds. -/
def ENFORCE {α : Type} (c : Bool) (k : Outcome α) : Outcome α :=
  if c then k else .fail .contract

/-! ## String primitives -/

/-- Search of `findFrom`: `rest` is the text from offset `i` on. -/
def findAux (kw : Text) : Text → Nat → Option Nat
  | [], i => if kw.isEmpty then some i else none
  | c :: cs, i => if kw.isPrefixOf (c :: cs) then some i else findAux kw cs (i + 1)

/-- The call `s.find(kw, pos)` of `std::string_view`: the least offset `i ≥ pos` at which `kw`
occurs in `s`, `none` standing for `npos`. -/
def find (s kw : Text) (pos : Nat) : Option Nat :=
  if pos ≤ s.length then findAux kw (s.drop pos) pos else none

/-- Downward search of `rfind`, from offset `n`. -/
def rfindFrom (s kw : Text) : Nat → Option Nat
  | 0 => if kw.isPrefixOf s then some 0 else none
  | n + 1 => if kw.isPrefixOf (s.drop (n + 1)) then some (n + 1) else rfindFrom s kw n

/-- The call `s.rfind(kw)`: the greatest offset at which `kw` occurs in `s`. -/
def rfind (s kw : Text) : Option Nat :=
  if kw.length ≤ s.length then rfindFrom s kw (s.length - kw.length) else none

/-- The call `s.substr(pos, count)` for `pos ≤ s.size()`. -/
def substr (s : Text) (pos count : Nat) : Text :=
  (s.drop pos).take count

/-- The call `s.substr(pos, count)` in general: it throws when `pos > s.size()`. -/
def substrChecked (s : Text) (pos count : Nat) : Outcome Text :=
  if pos ≤ s.length then .ok (substr s pos count) else .fail .exception

/-- The call `absl::EndsWith(s, suffix)`. -/
def endsWith (s suffix : Text) : Bool :=
  suffix.isSuffixOf s

/-- The call `absl::StartsWith(s, pre)`. -/
def startsWith (s pre : Text) : Bool :=
  pre.isPrefixOf s

/-- The call `absl::StrContains(s, needle)`. -/
def strContains (s needle : Text) : Bool :=
  (find s needle 0).isSome

/-- The loop `while (i < s.size() && p(s[i])) ++i;`: the first offset from `i` on that is past
the end of the text or whose character fails `p`. -/
def advanceWhile (p : Char → Bool) (s : Text) (i : Nat) : Nat :=
  i + ((s.drop i).takeWhile p).length

/-! ## Levels and locations -/

/-- The levels of `StrictLevel` that `Files.cc` names. -/
inductive StrictLevel where
  | None
  | Ignore
  | False
  | True
  | Strict
  | Strong
  | Autogenerated
  | Stdlib
  deriving DecidableEq, Repr

/-- Levels of the `# compiled:` directive. -/
inductive CompiledLevel where
  | None
  | False
  | True
  deriving DecidableEq, Repr

/-- Levels of the `# packaged:` directive. -/
inductive PackagedLevel where
  | None
  | False
  | True
  deriving DecidableEq, Repr

/-- Modelled from the spec: `LocOffsets` is declared in `core/Loc.h`, which is not among the
sources. The specification distinguishes the empty location (`LocOffsets::none()`) from a
byte-offset span; the two fields of a span are `uint32_t`. -/
inductive LocOffsets where
  | none
  | span (beginPos endPos : Nat)
  deriving DecidableEq, Repr

/-- The result of the strictness scan. -/
structure SigilInfo where
  loc : LocOffsets
  strictLevel : StrictLevel
  deriving DecidableEq, Repr

/-! ## Directive scanners -/

/-- The backward walk of the comment test:
`while (comment_start > 0) { --comment_start; if (source[comment_start] == ' ') continue; else break; }`
started at `comment_start = n`. -/
def commentStart (s : Text) : Nat → Outcome Nat
  | 0 => .ok 0
  | n + 1 =>
    match s[n]? with
    | Option.none => .fail .outOfRange
    | some c => if c = ' ' then commentStart s n else .ok n

/-- Token capture: `end = start + 1`, advance `end` to the next space, newline or the end of the
text, then step back over one carriage return at `source[end - 1]`. -/
def tokenEnd (s : Text) (start : Nat) : Outcome Nat :=
  let e := advanceWhile (fun c => c != ' ' && c != '\n') s (start + 1)
  match s[e - 1]? with
  | Option.none => .fail .outOfRange
  | some c => .ok (if c = '\r' then e - 1 else e)

/-- What a scan has in hand when it accepts a directive: the mapped level, the offset of the
accepted keyword occurrence, and the offsets `start` and `end` of the token. -/
structure Directive (α : Type) where
  level : α
  kwPos : Nat
  tokBegin : Nat
  tokEnd : Nat
  deriving DecidableEq, Repr

/-- What one iteration of the scan loop decides: `done r` is `return r`, with `none` for the
absent result, and `next start` is `continue` with the cursor moved to `start`. -/
inductive Step (α : Type) where
  | done (r : Option (Directive α))
  | next (start : Nat)
  deriving DecidableEq, Repr

/-- The body of the `while (true)` loop shared, up to the keyword, its length and the
vocabulary, by `strictSigilInfo`, `File::fileCompiledSigil` and `File::filePackagedSigil`,
run with the cursor at `start`. -/
def scanStep {α : Type} (kw : Text) (skip : Nat) (vocab : Text → Option α) (s : Text)
    (start : Nat) : Outcome (Step α) :=
  match find s kw start with
  | Option.none => .ok (Step.done Option.none)
  | some st =>
    match commentStart s st with
    | .fail e => .fail e
    | .ok cs =>
      match s[cs]? with
      | Option.none => .fail .outOfRange
      | some c =>
        if c ≠ '#' then .ok (Step.next (st + 1))
        else
          let st2 := advanceWhile (fun c => c == ' ') s (st + skip)
          if st2 ≥ s.length then .ok (Step.done Option.none)
          else
            match tokenEnd s st2 with
            | .fail e => .fail e
            | .ok e =>
              match vocab (substr s st2 (e - st2)) with
              | some l => .ok (Step.done (some ⟨l, st, st2, e⟩))
              | Option.none => .ok (Step.next e)

/-- The `while (true)` loop: `start` is the scan cursor and the first argument bounds the number
of iterations. -/
def scanLoop {α : Type} (kw : Text) (skip : Nat) (vocab : Text → Option α) (s : Text) :
    Nat → Nat → Outcome (Option (Directive α))
  | 0, _ => .fail .fuel
  | fuel + 1, start =>
    match scanStep kw skip vocab s start with
    | .fail e => .fail e
    | .ok (Step.done r) => .ok r
    | .ok (Step.next start') => scanLoop kw skip vocab s fuel start'

/-- A scan from offset 0 with an iteration budget of one more than the length of the text. -/
def scanDirective {α : Type} (kw : Text) (skip : Nat) (vocab : Text → Option α) (s : Text) :
    Outcome (Option (Directive α)) :=
  scanLoop kw skip vocab s (s.length + 1) 0

/-- The keyword of the strictness directive. -/
def typedKw : Text := "typed:".toList

/-- The keyword of the compiled-mode directive. -/
def compiledKw : Text := "compiled:".toList

/-- The keyword of the packaging directive. -/
def packagedKw : Text := "packaged:".toList

/-- The `if (suffix == ...)` chain of `strictSigilInfo`. -/
def strictVocab (suffix : Text) : Option StrictLevel :=
  if suffix = "ignore".toList then some .Ignore
  else if suffix = "false".toList then some .False
  else if suffix = "true".toList then some .True
  else if suffix = "strict".toList then some .Strict
  else if suffix = "strong".toList then some .Strong
  else if suffix = "autogenerated".toList then some .Autogenerated
  else if suffix = "__STDLIB_INTERNAL".toList then some .Stdlib
  else Option.none

/-- The `if (suffix == ...)` chain of `File::fileCompiledSigil`. -/
def compiledVocab (suffix : Text) : Option CompiledLevel :=
  if suffix = "false".toList then some .False
  else if suffix = "true".toList then some .True
  else Option.none

/-- The `if (suffix == ...)` chain of `File::filePackagedSigil`. -/
def packagedVocab (suffix : Text) : Option PackagedLevel :=
  if suffix = "false".toList then some .False
  else if suffix = "true".toList then some .True
  else Option.none

/-- The accepted directive of the strictness scan, if any. -/
def strictDirective (source : Text) : Outcome (Option (Directive StrictLevel)) :=
  scanDirective typedKw 6 strictVocab source

/-- The accepted directive of the compiled-mode scan, if any. -/
def compiledDirective (source : Text) : Outcome (Option (Directive CompiledLevel)) :=
  scanDirective compiledKw 9 compiledVocab source

/-- The accepted directive of the packaging scan, if any. -/
def packagedDirective (source : Text) : Outcome (Option (Directive PackagedLevel)) :=
  scanDirective packagedKw 9 packagedVocab source

/-- The function `strictSigilInfo`: keyword `typed:`, `start += 6`, and
`LocOffsets loc{static_cast<uint32_t>(start), static_cast<uint32_t>(end)}`. -/
def strictSigilInfo (source : Text) : Outcome SigilInfo :=
  match strictDirective source with
  | .fail e => .fail e
  | .ok Option.none => .ok ⟨LocOffsets.none, StrictLevel.None⟩
  | .ok (some d) => .ok ⟨LocOffsets.span (d.tokBegin % 2 ^ 32) (d.tokEnd % 2 ^ 32), d.level⟩

/-- The function `File::fileStrictSigil`. -/
def fileStrictSigil (source : Text) : Outcome StrictLevel :=
  (strictSigilInfo source).bind fun i => .ok i.strictLevel

/-- The function `File::locStrictSigil`. -/
def locStrictSigil (source : Text) : Outcome LocOffsets :=
  (strictSigilInfo source).bind fun i => .ok i.loc

/-- The function `File::fileCompiledSigil`: keyword `compiled:`, `start += 9`. -/
def fileCompiledSigil (source : Text) : Outcome CompiledLevel :=
  match compiledDirective source with
  | .fail e => .fail e
  | .ok Option.none => .ok CompiledLevel.None
  | .ok (some d) => .ok d.level

/-- The function `File::filePackagedSigil`: keyword `packaged:`, `start += 9`. -/
def filePackagedSigil (source : Text) : Outcome PackagedLevel :=
  match packagedDirective source with
  | .fail e => .fail e
  | .ok Option.none => .ok PackagedLevel.None
  | .ok (some d) => .ok d.level

/-! ## Path classifiers -/

/-- The function `isTestPath`. -/
def isTestPath (path : Text) : Bool :=
  endsWith path ".test.rb".toList || strContains path "/test/".toList

/-- The function `isPackageRBIPath`. -/
def isPackageRBIPath (path : Text) : Bool :=
  endsWith path ".package.rbi".toList

/-- The function `isPackagePath`. -/
def isPackagePath (path : Text) : Bool :=
  match rfind path "/".toList with
  | some pos => decide (path.drop (pos + 1) = "__package.rb".toList)
  | Option.none => decide (path = "__package.rb".toList)

/-! ## The file entity -/

/-- The enumeration `File::Type` (lifecycle state). -/
inductive FileType where
  | NotYetRead
  | PayloadGeneration
  | Payload
  | Normal
  | TombStone
  deriving DecidableEq, Repr

/-- The bit field `File::Flags`. -/
structure Flags where
  cached : Bool
  hasParseErrors : Bool
  isPackagedTest : Bool
  isPackageRBI : Bool
  isPackage : Bool
  isOpenInClient : Bool
  deriving DecidableEq, Repr

/-- The constructor `File::Flags::Flags(string_view path)`. -/
def Flags.new (path : Text) : Flags :=
  { cached := false, hasParseErrors := false, isPackagedTest := isTestPath path,
    isPackageRBI := isPackageRBIPath path, isPackage := isPackagePath path,
    isOpenInClient := false }

/-- Modelled from the spec: `core::FileHash` is declared in `core/FileHash.h`, which is not among
the sources. `Files.cc` only stores and returns the object; `digest` identifies it. -/
structure FileHash where
  digest : Nat
  deriving DecidableEq, Repr

/-- What `Files.cc` uses from headers that are not among the sources:
`File::findLineBreaks`, the default member initialiser of `minErrorLevel_`, and the
constant `URL_PREFIX`. -/
structure Header where
  findLineBreaks : Text → List Int
  minErrorLevelInit : StrictLevel
  URL_PREFIX : Text

/-- The members of `File` that `Files.cc` reads or writes. A null `hash_` or `lineBreaks_`
pointer is `none`. -/
structure File where
  epoch : Nat
  sourceType : FileType
  flags : Flags
  packagedLevel : PackagedLevel
  path_ : Text
  source_ : Text
  originalSigil : StrictLevel
  strictLevel : StrictLevel
  compiledLevel : CompiledLevel
  hash_ : Option FileHash
  lineBreaks_ : Option (List Int)
  minErrorLevel_ : StrictLevel
  deriving DecidableEq, Repr

/-- The constructor `File::File(path_, source_, sourceType, epoch)`. The members it does not
mention start from their default initialisers: null `hash_` and `lineBreaks_`, and the
header's initial `minErrorLevel_`. -/
def File.new (H : Header) (path source : Text) (sourceType : FileType) (epoch : Nat) :
    Outcome File :=
  (filePackagedSigil source).bind fun packaged =>
  (fileStrictSigil source).bind fun sigil =>
  (fileCompiledSigil source).bind fun compiled =>
  .ok { epoch := epoch, sourceType := sourceType, flags := Flags.new path,
        packagedLevel := packaged, path_ := path, source_ := source,
        originalSigil := sigil, strictLevel := sigil, compiledLevel := compiled,
        hash_ := Option.none, lineBreaks_ := Option.none,
        minErrorLevel_ := H.minErrorLevelInit }

/-- The function `File::setFileHash`; a null argument is `none`. -/
def File.setFileHash (f : File) (hash : Option FileHash) : File :=
  if f.hash_ = Option.none then
    { f with flags := { f.flags with cached := false }, hash_ := hash }
  else f

/-- The function `File::getFileHash`. -/
def File.getFileHash (f : File) : Option FileHash :=
  f.hash_

/-- The function `File::path`. -/
def File.path (f : File) : Text :=
  f.path_

/-- The function `File::source`. -/
def File.source (f : File) : Outcome Text :=
  ENFORCE (f.sourceType != FileType.TombStone) <|
  ENFORCE (f.sourceType != FileType.NotYetRead) <|
  .ok f.source_

/-- The function `File::minErrorLevel`. -/
def File.minErrorLevel (f : File) : StrictLevel :=
  f.minErrorLevel_

/-- The function `File::isPayload`. -/
def File.isPayload (f : File) : Bool :=
  f.sourceType == FileType.PayloadGeneration || f.sourceType == FileType.Payload

/-- The function `File::isRBI`. -/
def File.isRBI (f : File) : Bool :=
  endsWith f.path ".rbi".toList

/-- The function `File::isStdlib`. -/
def File.isStdlib (f : File) : Bool :=
  f.originalSigil == StrictLevel.Stdlib

/-- The function `File::isPackage`. -/
def File.isPackage (f : File) : Bool :=
  f.flags.isPackage

/-- The function `File::setIsPackage`. -/
def File.setIsPackage (f : File) (isPackage : Bool) : File :=
  { f with flags := { f.flags with isPackage := isPackage } }

/-- The function `File::isOpenInClient`. -/
def File.isOpenInClient (f : File) : Bool :=
  f.flags.isOpenInClient

/-- The function `File::setIsOpenInClient`. -/
def File.setIsOpenInClient (f : File) (isOpenInClient : Bool) : File :=
  { f with flags := { f.flags with isOpenInClient := isOpenInClient } }

/-- The function `File::isPackagedTest`. -/
def File.isPackagedTest (f : File) : Bool :=
  f.flags.isPackagedTest

/-- The function `File::isPackageRBI`. -/
def File.isPackageRBI (f : File) : Bool :=
  f.flags.isPackageRBI

/-- The function `File::hasParseErrors`. -/
def File.hasParseErrors (f : File) : Bool :=
  f.flags.hasParseErrors

/-- The function `File::setHasParseErrors`. -/
def File.setHasParseErrors (f : File) (value : Bool) : File :=
  { f with flags := { f.flags with hasParseErrors := value } }

/-- The function `File::cached`. -/
def File.cached (f : File) : Bool :=
  f.flags.cached

/-- The function `File::setCached`. -/
def File.setCached (f : File) (value : Bool) : File :=
  { f with flags := { f.flags with cached := value } }

/-- The function `File::isPackaged`. -/
def File.isPackaged (f : File) : Bool :=
  match f.packagedLevel with
  | PackagedLevel.False => false
  | PackagedLevel.True => true
  | PackagedLevel.None => true

/-! ## Line index -/

/-- Conversion of an `int` to `size_t` (64 bits). -/
def toSizeT (x : Int) : Nat :=
  (x % 2 ^ 64).toNat

/-- Conversion of a `size_t` to `int` (32 bits, two's complement). -/
def toInt32 (n : Nat) : Int :=
  if n % 2 ^ 32 < 2 ^ 31 then ((n % 2 ^ 32 : Nat) : Int) else ((n % 2 ^ 32 : Nat) : Int) - 2 ^ 32

/-- The calls of `File::lineBreaks`, the first argument bounding the depth of the recursion
`return lineBreaks();`. The file returned is the file after the call: the compare-and-exchange
on an empty `lineBreaks_` publishes the freshly computed index (one thread, no spurious
failure), and the recursive call then reads it. -/
def File.lineBreaksAux (H : Header) : Nat → File → Outcome (File × List Int)
  | 0, _ => .fail .fuel
  | depth + 1, f =>
    ENFORCE (f.sourceType != FileType.TombStone) <|
    ENFORCE (f.sourceType != FileType.NotYetRead) <|
    match f.lineBreaks_ with
    | some ptr => .ok (f, ptr)
    | Option.none =>
      File.lineBreaksAux H depth { f with lineBreaks_ := some (H.findLineBreaks f.source_) }

/-- The function `File::lineBreaks`. -/
def File.lineBreaks (H : Header) (f : File) : Outcome (File × List Int) :=
  File.lineBreaksAux H 2 f

/-- The function `File::lineCount`: `lineBreaks().size() - 1` computed in `size_t` and returned
as `int`. -/
def File.lineCount (H : Header) (f : File) : Outcome (File × Int) :=
  (f.lineBreaks H).bind fun r =>
  .ok (r.1, toInt32 ((r.2.length + (2 ^ 64 - 1)) % 2 ^ 64))

/-- The function `File::getLine`. The comparison `i < lineBreaks.size()` converts `i` to
`size_t`; `start` and `end - start` are `int` values converted to `size_t` by `substr`. -/
def File.getLine (H : Header) (f : File) (i : Int) : Outcome (File × Text) :=
  (f.lineBreaks H).bind fun r =>
  ENFORCE (decide (toSizeT i < r.2.length)) <|
  ENFORCE (decide (i > 0)) <|
  match r.2[toSizeT (i - 1)]?, r.2[toSizeT i]? with
  | some a, some b =>
    let start := a + 1
    let stop := b
    (r.1.source).bind fun src =>
    (substrChecked src (toSizeT start) (toSizeT (stop - start))).bind fun line =>
    .ok (r.1, line)
  | _, _ => .fail .outOfRange

/-! ## Arena and handles -/

/-- The part of `GlobalState` that `Files.cc` uses: the vector `files` of shared pointers,
a null pointer being `none`. -/
structure GlobalState where
  files : List (Option File)
  deriving Repr

/-- Modelled from the spec: `GlobalState::filesUsed` is defined in `core/GlobalState.cc`, which
is not among the sources; the specification calls it the arena's current size. -/
def GlobalState.filesUsed (gs : GlobalState) : Nat :=
  gs.files.length

/-- The function `File::deepCopy`. -/
def File.deepCopy (H : Header) (_gs : GlobalState) (f : File) : Outcome File :=
  (File.new H f.path_ f.source_ f.sourceType f.epoch).bind fun ret =>
  .ok { ret with lineBreaks_ := f.lineBreaks_, minErrorLevel_ := f.minErrorLevel_,
                 strictLevel := f.strictLevel }

/-- The handle `FileRef`. -/
structure FileRef where
  _id : Nat
  deriving DecidableEq, Repr

/-- The function `FileRef::dataAllowingUnsafe`. Dereferencing a null slot, like indexing
`files` outside its bounds, is an unchecked access. -/
def FileRef.dataAllowingUnsafe (r : FileRef) (gs : GlobalState) : Outcome File :=
  ENFORCE (decide (r._id < gs.filesUsed)) <|
  match gs.files[r._id]? with
  | some (some f) => .ok f
  | _ => .fail .outOfRange

/-- The function `FileRef::data`: `gs.files[_id]` is read, unchecked, by the first `ENFORCE`. -/
def FileRef.data (r : FileRef) (gs : GlobalState) : Outcome File :=
  match gs.files[r._id]? with
  | Option.none => .fail .outOfRange
  | some slot =>
    ENFORCE slot.isSome <|
    match slot with
    | Option.none => .fail .outOfRange
    | some f =>
      ENFORCE (f.sourceType != FileType.TombStone) <|
      ENFORCE (f.sourceType != FileType.NotYetRead) <|
      r.dataAllowingUnsafe gs

/-! ## Reachable file states -/

/-- The states a `File` can be in: built by the constructor, then changed by the operations of
`Files.cc` and by the assignments other components make to `strictLevel` and
`minErrorLevel_`. -/
inductive File.Reachable (H : Header) : File → Prop where
  | construct {path source : Text} {t : FileType} {epoch : Nat} {f : File} :
      File.new H path source t epoch = .ok f → File.Reachable H f
  | setFileHash {f : File} (hash : Option FileHash) :
      File.Reachable H f → File.Reachable H (f.setFileHash hash)
  | setIsPackage {f : File} (b : Bool) :
      File.Reachable H f → File.Reachable H (f.setIsPackage b)
  | setIsOpenInClient {f : File} (b : Bool) :
      File.Reachable H f → File.Reachable H (f.setIsOpenInClient b)
  | setHasParseErrors {f : File} (b : Bool) :
      File.Reachable H f → File.Reachable H (f.setHasParseErrors b)
  | setCached {f : File} (b : Bool) :
      File.Reachable H f → File.Reachable H (f.setCached b)
  | overrideStrictLevel {f : File} (l : StrictLevel) :
      File.Reachable H f → File.Reachable H { f with strictLevel := l }
  | raiseMinErrorLevel {f : File} (l : StrictLevel) :
      File.Reachable H f → File.Reachable H { f with minErrorLevel_ := l }
  | lineBreaks {f g : File} {v : List Int} :
      File.Reachable H f → f.lineBreaks H = .ok (g, v) → File.Reachable H g
  | lineCount {f g : File} {n : Int} :
      File.Reachable H f → f.lineCount H = .ok (g, n) → File.Reachable H g
  | getLine {f g : File} {i : Int} {line : Text} :
      File.Reachable H f → f.getLine H i = .ok (g, line) → File.Reachable H g
  | deepCopy {f g : File} (gs : GlobalState) :
      File.Reachable H f → f.deepCopy H gs = .ok g → File.Reachable H g

/-! ## Vocabulary of the specification -/

/-- A captured token without its trailing carriage return, if it has one. -/
def stripCR (tok : Text) : Text :=
  if tok.getLast? = some '\r' then tok.dropLast else tok

/-- The fixed mapping from the words of the strictness vocabulary to levels, as the
specification lists it. -/
def strictWords : List (Text × StrictLevel) :=
  [("ignore".toList, StrictLevel.Ignore), ("false".toList, StrictLevel.False),
   ("true".toList, StrictLevel.True), ("strict".toList, StrictLevel.Strict),
   ("strong".toList, StrictLevel.Strong), ("autogenerated".toList, StrictLevel.Autogenerated),
   ("__STDLIB_INTERNAL".toList, StrictLevel.Stdlib)]

/-- The mapping of the `compiled:` vocabulary. -/
def compiledWords : List (Text × CompiledLevel) :=
  [("false".toList, CompiledLevel.False), ("true".toList, CompiledLevel.True)]

/-- The mapping of the `packaged:` vocabulary. -/
def packagedWords : List (Text × PackagedLevel) :=
  [("false".toList, PackagedLevel.False), ("true".toList, PackagedLevel.True)]

/-- What may follow the word of a well-formed directive: nothing, a space or a newline, or a
carriage return that is itself followed by nothing, a space or a newline. -/
def DirectiveEnd (post : Text) : Prop :=
  post = [] ∨ post.head? = some ' ' ∨ post.head? = some '\n' ∨
    ∃ r, post = '\r' :: r ∧ (r = [] ∨ r.head? = some ' ' ∨ r.head? = some '\n')

/-- A word without space or newline that does not end in a carriage return. -/
def PlainWord (w : Text) : Prop :=
  w ≠ [] ∧ (∀ c ∈ w, c ≠ ' ' ∧ c ≠ '\n') ∧ w.getLast? ≠ some '\r'

instance (w : Text) : Decidable (PlainWord w) := by
  unfold PlainWord; infer_instance

/-- The text `pre`, `#`, `n` spaces, the keyword, `m` spaces, the value `w`, `post`. -/
def directiveText (pre : Text) (n : Nat) (kw : Text) (m : Nat) (w post : Text) : Text :=
  pre ++ '#' :: (List.replicate n ' ' ++ (kw ++ (List.replicate m ' ' ++ (w ++ post))))

/-- The positions of an accepted directive `d` in the text `s`: the text before the token is some
`pre`, a `#`, `n` spaces, the keyword and `m` spaces; the keyword starts at `d.kwPos`, the token
runs from `d.tokBegin` to `d.tokEnd` inside the text and is a word that `vocab` maps to
`d.level`. -/
def Accepted {α : Type} (kw : Text) (vocab : Text → Option α) (s : Text) (d : Directive α) :
    Prop :=
  ∃ (pre : Text) (n m : Nat),
    s.take d.tokBegin = pre ++ '#' :: (List.replicate n ' ' ++ (kw ++ List.replicate m ' ')) ∧
    d.kwPos = pre.length + 1 + n ∧
    d.tokBegin = d.kwPos + kw.length + m ∧
    d.tokBegin < s.length ∧ d.tokBegin ≤ d.tokEnd ∧ d.tokEnd ≤ s.length ∧
    vocab (substr s d.tokBegin (d.tokEnd - d.tokBegin)) = some d.level

/-- The offset at which the line of `s` that contains offset `i` begins. -/
def lineStart (s : Text) (i : Nat) : Nat :=
  i - ((s.take i).reverse.takeWhile (fun c => c != '\n')).length

/-- The first character that is not a space on the line of `s` that contains offset `i`. -/
def firstNonSpaceOfLine (s : Text) (i : Nat) : Option Char :=
  ((s.drop (lineStart s i)).dropWhile (fun c => c == ' ')).head?

/-- A file whose text may be read: neither `TombStone` nor `NotYetRead`. -/
def File.Readable (f : File) : Prop :=
  f.sourceType ≠ FileType.TombStone ∧ f.sourceType ≠ FileType.NotYetRead

instance (f : File) : Decidable f.Readable := by
  unfold File.Readable; infer_instance

/-- The text `t[a..b)` of the specification, for offsets given as integers. -/
def slice (t : Text) (a b : Int) : Text :=
  (t.drop a.toNat).take (b - a).toNat

/-- What the specification says of a line index `offsets` of the text `t`: an ordered sequence
of offsets, none before the leading sentinel `-1` and none past the end of `t`, each of which
fits in an `int`. -/
def IsLineIndex (t : Text) (offsets : List Int) : Prop :=
  offsets.Pairwise (fun a b => a < b) ∧ ∀ o ∈ offsets, -1 ≤ o ∧ o ≤ t.length ∧ o < 2 ^ 31

instance (t : Text) (offsets : List Int) : Decidable (IsLineIndex t offsets) := by
  unfold IsLineIndex; infer_instance

/-- The offsets of the newlines of a text whose first byte is at offset `i`. -/
def newlineOffsets : Text → Nat → List Int
  | [], _ => []
  | c :: cs, i => if c = '\n' then (i : Int) :: newlineOffsets cs (i + 1)
                  else newlineOffsets cs (i + 1)

/-- Modelled from the spec: `File::findLineBreaks` is not among the sources. The specification
describes its result as the ordered sequence of the newline byte-offsets of the text with a
leading sentinel for the virtual boundary before line 1. This is the sequence as section 4.2
words it, without an entry for the end of the last line; `findLineBreaksClosed` has that
entry. -/
def findLineBreaksSpec (t : Text) : List Int :=
  -1 :: newlineOffsets t 0

/-- A header whose `findLineBreaks` is the one the specification describes; used in examples. -/
def specHeader : Header :=
  { findLineBreaks := findLineBreaksSpec, minErrorLevelInit := StrictLevel.None,
    URL_PREFIX := "https://".toList }

/-- An example file with the path `a.rb`, the given text and lifecycle state, no directive,
no hash and no line index. -/
def plainFile (source : Text) (t : FileType) : File :=
  { epoch := 0, sourceType := t, flags := Flags.new "a.rb".toList,
    packagedLevel := PackagedLevel.None, path_ := "a.rb".toList, source_ := source,
    originalSigil := StrictLevel.None, strictLevel := StrictLevel.None,
    compiledLevel := CompiledLevel.None, hash_ := Option.none, lineBreaks_ := Option.none,
    minErrorLevel_ := StrictLevel.None }

/-- A text of `2 ^ 31` newlines. -/
def manyNewlines : Text :=
  List.replicate (2 ^ 31) '\n'

/-- The contract of the strictness scan on the text `s`: the absent result, or a level other
than `None` with a span inside the text that covers exactly the word of that level and is
preceded by `#`, spaces, `typed:` and spaces. -/
def SpanContract (s : Text) : Prop :=
  strictSigilInfo s = .ok ⟨LocOffsets.none, StrictLevel.None⟩ ∨
  ∃ (L : StrictLevel) (b e : Nat) (w pre : Text) (n m : Nat),
    strictSigilInfo s = .ok ⟨LocOffsets.span b e, L⟩ ∧ L ≠ StrictLevel.None ∧
    b < e ∧ e ≤ s.length ∧ (w, L) ∈ strictWords ∧ (s.drop b).take (e - b) = w ∧
    s.take b = pre ++ '#' :: (List.replicate n ' ' ++ (typedKw ++ List.replicate m ' '))

/-- A text of more than `2 ^ 32` bytes: `2 ^ 32` spaces followed by a strictness directive. -/
def hugeText : Text :=
  List.replicate (2 ^ 32) ' ' ++ "# typed: true".toList

/-- The final segment of a path: what follows its last `/`, the whole path when it has none. -/
def lastSegment (p : Text) : Text :=
  (p.reverse.takeWhile (fun c => c != '/')).reverse

/-- The fields that the specification calls immutable have in `g` the values they have in `f`:
path, source text, lifecycle state, `originalSigil`, `compiledLevel` and `packagedLevel`. -/
def File.SameCore (f g : File) : Prop :=
  g.path_ = f.path_ ∧ g.source_ = f.source_ ∧ g.sourceType = f.sourceType ∧
  g.originalSigil = f.originalSigil ∧ g.compiledLevel = f.compiledLevel ∧
  g.packagedLevel = f.packagedLevel

instance (f g : File) : Decidable (File.SameCore f g) := by
  unfold File.SameCore; infer_instance

/-! ## Snapshot path censoring -/

/-- The constant `EXTERNAL_PREFIX`. -/
def EXTERNAL_PREFIX : Text := "external/com_stripe_ruby_typer/".toList

/-- The function `File::censorFilePathForSnapshotTests`; `URL_PREFIX` comes from the header. -/
def File.censorFilePathForSnapshotTests (H : Header) (orig : Text) : Text :=
  let result := orig
  let result :=
    if startsWith result EXTERNAL_PREFIX then result.drop EXTERNAL_PREFIX.length else result
  let result :=
    if startsWith result H.URL_PREFIX then
      let result := result.drop H.URL_PREFIX.length
      if startsWith result EXTERNAL_PREFIX then result.drop EXTERNAL_PREFIX.length else result
    else result
  if startsWith orig H.URL_PREFIX then H.URL_PREFIX ++ result else result

/-- The path `p` without one leading `pre`, if it starts with `pre`. -/
def dropLeading (pre p : Text) : Text :=
  if pre <+: p then p.drop pre.length else p

/-- The censored path as the specification states it: one leading external-sandbox prefix is
removed; if what remains starts with `URL_PREFIX`, that prefix is stripped, one external-sandbox
prefix that follows is removed, and `URL_PREFIX` is put back in front. -/
def censoredAsSpecified (H : Header) (p : Text) : Text :=
  if H.URL_PREFIX <+: dropLeading EXTERNAL_PREFIX p then
    H.URL_PREFIX ++
      dropLeading EXTERNAL_PREFIX ((dropLeading EXTERNAL_PREFIX p).drop H.URL_PREFIX.length)
  else dropLeading EXTERNAL_PREFIX p

/-! ## Progress and safety of the scan loop, as stated -/

/-- Progress of the scanner with keyword `kw`, skip `skip` and vocabulary `vocab`: whenever an
iteration that starts with the cursor at `start` continues with the cursor at `start'`, the
search found an occurrence `st` of the keyword with `start ≤ st`; the new cursor is `st + 1`
when the character that the backward walk stops at is not `#`, and at least `st + |kw|`
otherwise; in both cases it is greater than `start` and at most the length of the text. -/
def ScanProgress {α : Type} (kw : Text) (skip : Nat) (vocab : Text → Option α) : Prop :=
  ∀ (s : Text) (start start' : Nat),
    scanStep kw skip vocab s start = .ok (Step.next start') →
      ∃ st cs, find s kw start = some st ∧ start ≤ st ∧ commentStart s st = .ok cs ∧
        (s[cs]? ≠ some '#' → start' = st + 1) ∧
        (s[cs]? = some '#' → st + kw.length ≤ start') ∧
        start < start' ∧ start' ≤ s.length

/-- Iteration bound of the scanner: the scan returns a result `r`, and the loop run from
offset 0 returns `r` with every iteration budget that is at least one and at least the
length of the text. -/
def ScanBounded {α : Type} (kw : Text) (skip : Nat) (vocab : Text → Option α) : Prop :=
  ∀ s : Text, ∃ r, scanDirective kw skip vocab s = .ok r ∧
    ∀ n, 1 ≤ n → s.length ≤ n → scanLoop kw skip vocab s n 0 = .ok r

/-- Safety of one iteration of the scanner with keyword `kw`, skip `skip` and vocabulary
`vocab`: the iteration does not fail, whatever the text and the cursor, and the offsets it
reads at lie in the text. For an occurrence `st` found by the search: `st` is an offset of the
text, the backward walk ends at an offset `cs ≤ st` of the text (so `source[comment_start]`
is read in bounds), the cursor `st2` left by the loop over spaces is at most the length of
the text, and when `st2` is less than it, the end `e0` left by the token loop satisfies
`st2 + 1 ≤ e0 ≤ |s|` (so `source[end - 1]` is read in bounds) and the final `end` is reached
with `st2 ≤ end ≤ |s|` (so `end - start` is not negative). -/
def ScanSafe {α : Type} (kw : Text) (skip : Nat) (vocab : Text → Option α) : Prop :=
  ∀ (s : Text) (start : Nat),
    (∃ r, scanStep kw skip vocab s start = .ok r) ∧
    ∀ st, find s kw start = some st →
      st < s.length ∧
      (∃ cs, commentStart s st = .ok cs ∧ cs ≤ st ∧ cs < s.length ∧ (s[cs]?).isSome) ∧
      advanceWhile (fun c => c == ' ') s (st + skip) ≤ s.length ∧
      (advanceWhile (fun c => c == ' ') s (st + skip) < s.length →
        advanceWhile (fun c => c == ' ') s (st + skip) + 1 ≤
          advanceWhile (fun c => c != ' ' && c != '\n') s
            (advanceWhile (fun c => c == ' ') s (st + skip) + 1) ∧
        advanceWhile (fun c => c != ' ' && c != '\n') s
            (advanceWhile (fun c => c == ' ') s (st + skip) + 1) ≤ s.length ∧
        (s[advanceWhile (fun c => c != ' ' && c != '\n') s
            (advanceWhile (fun c => c == ' ') s (st + skip) + 1) - 1]?).isSome ∧
        ∃ e, tokenEnd s (advanceWhile (fun c => c == ' ') s (st + skip)) = .ok e ∧
          advanceWhile (fun c => c == ' ') s (st + skip) ≤ e ∧ e ≤ s.length)

/-! ## The DSL builder (`dsl/DSLBuilder.cc`) -/

/-- The declarations of `ast/`, `core/` and `dsl/util.h` that `DSLBuilder::replaceDSL` uses.
None of them is among the sources, so the node types, the names and the functions are
parameters. `Expression` stands for `unique_ptr<ast::Expression>` and `Reference` for
`unique_ptr<ast::Reference>`; a `cast_tree` gives `none` for the null pointer; the flags of
`ast::MethodDef` are numbers joined by bitwise or. `getHashValue` is given the hash through
a pointer, so it returns the hash it leaves behind next to what it found, and
`enterNameUTF8` returns the context with the name entered. -/
structure DSLEnv where
  Ctx : Type
  Loc : Type
  NameRef : Type
  SymbolRef : Type
  Expression : Type
  Reference : Type
  Literal : Type
  ConstantLit : Type
  Hash : Type
  ARGS_store : Type
  nameEq : DecidableEq NameRef
  dslOptional : NameRef
  dslRequired : NameRef
  default_ : NameRef
  implied : NameRef
  untyped : NameRef
  NilClass : SymbolRef
  T : SymbolRef
  castLiteral : Expression → Option Literal
  castConstantLit : Expression → Option ConstantLit
  castHash : Expression → Option Hash
  isSymbol : Literal → Ctx → Bool
  asSymbol : Literal → Ctx → NameRef
  dupType : Expression → Expression
  getHashValue : Ctx → Hash → NameRef → Option Expression × Hash
  toString : NameRef → Ctx → Text
  enterNameUTF8 : Ctx → Text → NameRef × Ctx
  Sig1 : Loc → Expression → Expression → Expression → Expression
  Sig0 : Loc → Expression → Expression
  Symbol : Loc → NameRef → Expression
  Ident : Loc → SymbolRef → Expression
  Local : Loc → NameRef → Reference
  Send0 : Loc → Expression → NameRef → Expression
  OptionalArg : Loc → Reference → Expression → Reference
  Method1 : Loc → NameRef → Reference → Expression → Nat → Expression
  Method : Loc → NameRef → ARGS_store → Expression → Nat → Expression
  EmptyTree : Loc → Expression
  Unsafe : Loc → Expression → Expression
  Nil : Loc → Expression
  noArgs : ARGS_store
  SelfMethod : Nat
  DSLSynthesized : Nat

instance (E : DSLEnv) : DecidableEq E.NameRef := E.nameEq

/-- The fields of `ast::Send` that `replaceDSL` reads. -/
structure Send (E : DSLEnv) where
  loc : E.Loc
  fun_ : E.NameRef
  args : List E.Expression

/-- The two local flags of `replaceDSL`. -/
structure DSLFlags where
  nilable : Bool
  implied : Bool
  deriving DecidableEq, Repr

/-- The function `DSLBuilder::replaceDSL`. The result is the returned vector together with the
context after `enterNameUTF8`. The pattern `a0 :: a1 :: rest` is `send->args.size() >= 2`,
and `rest` is non-empty exactly when `send->args.size() > 2`. -/
def DSLBuilder.replaceDSL (E : DSLEnv) (ctx : E.Ctx) (send : Send E) :
    List E.Expression × E.Ctx :=
  let empty : List E.Expression := []
  let init : DSLFlags := ⟨false, false⟩
  let afterFun : Option DSLFlags :=
    if send.fun_ = E.dslOptional then some { init with nilable := true }
    else if send.fun_ = E.dslRequired then some init
    else none
  match afterFun with
  | none => (empty, ctx)
  | some flags =>
    match send.args with
    | a0 :: a1 :: rest =>
      match E.castLiteral a0 with
      | none => (empty, ctx)
      | some sym =>
        if !E.isSymbol sym ctx then (empty, ctx)
        else
          let name := E.asSymbol sym ctx
          match E.castConstantLit a1 with
          | none => (empty, ctx)
          | some _ =>
            let type := E.dupType a1
            let opts : Option E.Hash :=
              match rest with
              | a2 :: _ => E.castHash a2
              | [] => none
            let flags : DSLFlags :=
              match opts with
              | none => flags
              | some h =>
                let d := E.getHashValue ctx h E.default_
                let flags := if d.1.isSome then { flags with nilable := false } else flags
                let i := E.getHashValue ctx d.2 E.implied
                if i.1.isSome then { flags with implied := true } else flags
            let loc := send.loc
            let sig1 :=
              E.Sig1 loc (E.Symbol loc name) (E.dupType type) (E.Ident loc E.NilClass)
            let arg := E.Local loc name
            let arg :=
              if flags.implied then
                E.OptionalArg loc arg (E.Send0 loc (E.Ident loc E.T) E.untyped)
              else arg
            let method1 :=
              E.Method1 loc name arg (E.EmptyTree loc) (E.SelfMethod ||| E.DSLSynthesized)
            let getName := E.enterNameUTF8 ctx ("get_".toList ++ E.toString name ctx)
            let sig2 := E.Sig0 loc (E.dupType type)
            let method2 :=
              E.Method loc getName.1 E.noArgs (E.Unsafe loc (E.Nil loc))
                (E.SelfMethod ||| E.DSLSynthesized)
            let sig3 := E.Sig0 loc (E.dupType type)
            let method3 :=
              E.Method loc name E.noArgs (E.Unsafe loc (E.Nil loc)) E.DSLSynthesized
            ([sig1, method1, sig2, method2, sig3, method3], getName.2)
    | _ => (empty, ctx)

/-- Whether `replaceDSL` finds the key `implied` in the options hash `h`: the look-up of
`implied` comes after the look-up of `default`, on the hash that one leaves behind. -/
def DSLBuilder.hasImplied (E : DSLEnv) (ctx : E.Ctx) (h : E.Hash) : Bool :=
  (E.getHashValue ctx (E.getHashValue ctx h E.default_).2 E.implied).1.isSome

/-- An instance of `DSLEnv` for examples: every node is the text of a Ruby expression, a name
is its text and the context is the list of entered names. An expression is a literal when it
starts with `:`, a constant when it starts with an upper-case letter and a hash when it
starts with an opening brace; a hash has a key when it contains the key followed by `:`. -/
def textDSL : DSLEnv where
  Ctx := List Text
  Loc := Nat
  NameRef := Text
  SymbolRef := Text
  Expression := Text
  Reference := Text
  Literal := Text
  ConstantLit := Text
  Hash := Text
  ARGS_store := Text
  nameEq := fun a b => inferInstanceAs (Decidable (a = b))
  dslOptional := "dsl_optional".toList
  dslRequired := "dsl_required".toList
  default_ := "default".toList
  implied := "implied".toList
  untyped := "untyped".toList
  NilClass := "NilClass".toList
  T := "T".toList
  castLiteral := fun e => if e.head? = some ':' then some e else none
  castConstantLit := fun e => if e.head?.map Char.isUpper = some true then some e else none
  castHash := fun e => if e.head? = some '\x7b' then some e else none
  isSymbol := fun _ _ => true
  asSymbol := fun l _ => l.drop 1
  dupType := fun e => e
  getHashValue := fun _ h k =>
    (if strContains h (k ++ ":".toList) then some k else none, h)
  toString := fun n _ => n
  enterNameUTF8 := fun c str => (str, str :: c)
  Sig1 := fun _ k v r => "sig(".toList ++ k ++ ": ".toList ++ v ++ "): ".toList ++ r
  Sig0 := fun _ r => "sig(): ".toList ++ r
  Symbol := fun _ n => ':' :: n
  Ident := fun _ s => s
  Local := fun _ n => n
  Send0 := fun _ r f => r ++ ".".toList ++ f
  OptionalArg := fun _ a d => a ++ " = ".toList ++ d
  Method1 := fun _ n a _ fl =>
    (if fl % 2 = 1 then "def self.".toList else "def ".toList) ++ n ++ "(".toList ++ a ++
      ")".toList
  Method := fun _ n _ b fl =>
    (if fl % 2 = 1 then "def self.".toList else "def ".toList) ++ n ++ "() ".toList ++ b
  EmptyTree := fun _ => []
  Unsafe := fun _ e => "T.unsafe(".toList ++ e ++ ")".toList
  Nil := fun _ => "nil".toList
  noArgs := []
  SelfMethod := 1
  DSLSynthesized := 2

/-- The call `dsl_optional :foo, String, \x7bdefault: 1\x7d` as a send node of `textDSL`. -/
def sampleSend : Send textDSL :=
  ⟨(0 : Nat), "dsl_optional".toList,
    [":foo".toList, "String".toList, "\x7bdefault: 1\x7d".toList]⟩

/-- The offset at which the first line of `t` ends: the offset of the first newline of `t`, or
`|t|` when `t` has no newline. -/
def firstLineEnd (t : Text) : Nat :=
  (t.takeWhile (fun c => c != '\n')).length

theorem findAux_some {kw : Text} : ∀ (rest : Text) (i k : Nat), findAux kw rest i = some k →
    i ≤ k ∧ k - i ≤ rest.length ∧ kw <+: rest.drop (k - i) ∧
      ∀ d, d < k - i → ¬ kw <+: rest.drop d
  | [], i, k, h => by
    unfold findAux at h
    split at h
    · rename_i hk
      simp only [Option.some.injEq] at h
      subst h
      simp_all [List.isEmpty_iff]
    · simp at h
  | c :: cs, i, k, h => by
    unfold findAux at h
    split at h
    · rename_i hp
      simp only [Option.some.injEq] at h
      subst h
      simp_all [List.isPrefixOf_iff_prefix]
    · rename_i hp
      obtain ⟨h1, h2, h3, h4⟩ := findAux_some cs (i + 1) k h
      have hk : k - i = (k - (i + 1)) + 1 := by omega
      refine ⟨by omega, ?_, ?_, ?_⟩
      · rw [hk]; simp; omega
      · rw [hk]; simpa using h3
      · intro d hd
        cases d with
        | zero => simpa [List.isPrefixOf_iff_prefix] using hp
        | succ d => simpa using h4 d (by omega)

theorem findAux_none {kw : Text} (hkw : kw ≠ []) : ∀ (rest : Text) (i : Nat),
    findAux kw rest i = none → ∀ d, ¬ kw <+: rest.drop d
  | [], i, _, d => by
    simp only [List.drop_nil, List.prefix_nil]
    exact hkw
  | c :: cs, i, h, d => by
    unfold findAux at h
    split at h
    · simp at h
    · rename_i hp
      cases d with
      | zero => simpa [List.isPrefixOf_iff_prefix] using hp
      | succ d => simpa using findAux_none hkw cs (i + 1) h d

theorem find_some {s kw : Text} {pos i : Nat} (h : find s kw pos = some i) :
    pos ≤ i ∧ i ≤ s.length ∧ kw <+: s.drop i ∧ ∀ j, pos ≤ j → j < i → ¬ kw <+: s.drop j := by
  unfold find at h
  split at h
  · rename_i hp
    obtain ⟨h1, h2, h3, h4⟩ := findAux_some _ _ _ h
    simp only [List.length_drop, List.drop_drop] at h2 h3 h4
    refine ⟨h1, by omega, ?_, ?_⟩
    · have : pos + (i - pos) = i := by omega
      rwa [this] at h3
    · intro j hj hji
      have := h4 (j - pos) (by omega)
      rwa [show pos + (j - pos) = j by omega] at this
  · simp at h

theorem find_none {s kw : Text} {pos : Nat} (hkw : kw ≠ []) (h : find s kw pos = none) :
    ∀ j, pos ≤ j → ¬ kw <+: s.drop j := by
  intro j hj
  unfold find at h
  split at h
  · have := findAux_none hkw _ _ h (j - pos)
    simp only [List.drop_drop] at this
    rwa [show pos + (j - pos) = j by omega] at this
  · rename_i hp
    rw [List.drop_eq_nil_of_le (by omega)]
    simpa using hkw

theorem find_eq_some {s kw : Text} {pos i : Nat} (hkw : kw ≠ []) (hpos : pos ≤ i)
    (hocc : kw <+: s.drop i) (hfirst : ∀ j, pos ≤ j → j < i → ¬ kw <+: s.drop j) :
    find s kw pos = some i := by
  cases h : find s kw pos with
  | none => exact absurd hocc (find_none hkw h i hpos)
  | some k =>
    obtain ⟨h1, h2, h3, h4⟩ := find_some h
    rcases Nat.lt_trichotomy k i with hlt | heq | hgt
    · exact absurd h3 (hfirst k h1 hlt)
    · rw [heq]
    · exact absurd hocc (h4 i hpos hgt)

theorem find_eq_none {s kw : Text} {pos : Nat} (h : ∀ j, pos ≤ j → ¬ kw <+: s.drop j) :
    find s kw pos = none := by
  cases hf : find s kw pos with
  | none => rfl
  | some k =>
    obtain ⟨h1, _, h3, _⟩ := find_some hf
    exact absurd h3 (h k h1)

/-! ### The comment test and the character loops -/

theorem commentStart_total (s : Text) : ∀ n, n ≤ s.length →
    ∃ cs, commentStart s n = .ok cs ∧ cs ≤ n ∧
      (s.drop (cs + 1)).take (n - (cs + 1)) = List.replicate (n - (cs + 1)) ' '
  | 0, _ => ⟨0, rfl, le_refl _, by simp⟩
  | n + 1, hn => by
    have hlt : n < s.length := by omega
    unfold commentStart
    rw [List.getElem?_eq_getElem hlt]
    by_cases hc : s[n] = ' '
    · simp only [hc, if_true]
      obtain ⟨cs, h1, h2, h3⟩ := commentStart_total s n (by omega)
      refine ⟨cs, h1, by omega, ?_⟩
      rcases Nat.lt_or_ge cs n with hlt2 | hge
      · have e1 : n + 1 - (cs + 1) = (n - (cs + 1)) + 1 := by omega
        rw [e1, List.replicate_succ', ← h3, List.take_succ, List.getElem?_drop]
        have e2 : cs + 1 + (n - (cs + 1)) = n := by omega
        rw [e2, List.getElem?_eq_getElem hlt, hc]
        rfl
      · have : cs = n := by omega
        subst this
        simp
    · simp only [hc, if_false]
      exact ⟨n, rfl, by omega, by simp⟩

theorem commentStart_eq (pre rest : Text) (c : Char) (n : Nat) (hc : c ≠ ' ') :
    commentStart (pre ++ c :: (List.replicate n ' ' ++ rest)) (pre.length + 1 + n) =
      .ok pre.length := by
  induction n generalizing rest with
  | zero =>
    have hget : (pre ++ c :: ([] ++ rest))[pre.length]? = some c := by
      rw [List.getElem?_append_right (le_refl _)]
      simp
    show commentStart (pre ++ c :: ([] ++ rest)) (pre.length + 1) = _
    rw [commentStart, hget]
    simp [hc]
  | succ n ih =>
    have := ih (' ' :: rest)
    rw [show pre.length + 1 + (n + 1) = (pre.length + 1 + n) + 1 by omega]
    have hget : (pre ++ c :: (List.replicate (n + 1) ' ' ++ rest))[pre.length + 1 + n]? =
        some ' ' := by
      rw [List.getElem?_append_right (by omega)]
      rw [show pre.length + 1 + n - pre.length = n + 1 by omega]
      simp only [List.getElem?_cons_succ]
      rw [List.getElem?_append_left (by simp)]
      simp
    rw [commentStart, hget]
    simp only [if_true]
    rw [show (List.replicate (n + 1) ' ' ++ rest) = List.replicate n ' ' ++ (' ' :: rest) by
      rw [List.replicate_succ']; simp]
    exact this

theorem take_length_takeWhile (p : Char → Bool) : ∀ l : Text,
    l.take (l.takeWhile p).length = l.takeWhile p
  | [] => rfl
  | x :: xs => by
    by_cases hx : p x = true
    · simp [List.takeWhile_cons, hx, take_length_takeWhile p xs]
    · simp [List.takeWhile_cons, hx]

theorem getElem?_length_takeWhile (p : Char → Bool) : ∀ (l : Text) (c : Char),
    l[(l.takeWhile p).length]? = some c → p c = false
  | [], c, h => by simp at h
  | x :: xs, c, h => by
    by_cases hx : p x = true
    · simp only [List.takeWhile_cons, hx, if_true, List.length_cons,
        List.getElem?_cons_succ] at h
      exact getElem?_length_takeWhile p xs c h
    · simp only [List.takeWhile_cons, hx, List.length_nil] at h
      simp at h
      subst h
      simpa using hx

theorem le_advanceWhile (p : Char → Bool) (s : Text) (i : Nat) : i ≤ advanceWhile p s i := by
  unfold advanceWhile; omega

theorem advanceWhile_le (p : Char → Bool) (s : Text) (i : Nat) (h : i ≤ s.length) :
    advanceWhile p s i ≤ s.length := by
  unfold advanceWhile
  have hp : List.takeWhile p (s.drop i) <+: s.drop i := List.takeWhile_prefix p
  have := hp.length_le
  simp only [List.length_drop] at this
  omega

theorem advanceWhile_eq (p : Char → Bool) (a b c : Text) (hb : ∀ x ∈ b, p x = true)
    (hc : ∀ x, c.head? = some x → p x = false) :
    advanceWhile p (a ++ (b ++ c)) a.length = a.length + b.length := by
  unfold advanceWhile
  rw [List.drop_left, List.takeWhile_append_of_pos hb]
  cases c with
  | nil => simp
  | cons x xs =>
    have := hc x rfl
    simp [List.takeWhile_cons, this]

theorem advanceWhile_segment (p : Char → Bool) (s : Text) (i : Nat) :
    (s.drop i).take (advanceWhile p s i - i) = (s.drop i).takeWhile p := by
  unfold advanceWhile
  rw [Nat.add_sub_cancel_left]
  exact take_length_takeWhile p _

theorem advanceWhile_stop (p : Char → Bool) (s : Text) (i : Nat) (c : Char)
    (h : s[advanceWhile p s i]? = some c) : p c = false := by
  unfold advanceWhile at h
  rw [← List.getElem?_drop] at h
  exact getElem?_length_takeWhile p _ c h

/-! ### Token capture -/

theorem stripCR_isPrefixOf (tok : Text) : stripCR tok <+: tok := by
  unfold stripCR
  split
  · exact List.dropLast_prefix tok
  · exact List.prefix_refl tok

theorem tokenEnd_total (s : Text) (start : Nat) (h : start < s.length) :
    ∃ e, tokenEnd s start = .ok e ∧ start ≤ e ∧ e ≤ s.length := by
  unfold tokenEnd
  have h1 := le_advanceWhile (fun c => c != ' ' && c != '\n') s (start + 1)
  have h2 := advanceWhile_le (fun c => c != ' ' && c != '\n') s (start + 1) (by omega)
  generalize advanceWhile (fun c => c != ' ' && c != '\n') s (start + 1) = e0 at h1 h2
  have hlt : e0 - 1 < s.length := by omega
  simp only [List.getElem?_eq_getElem hlt]
  by_cases hc : s[e0 - 1] = '\r'
  · exact ⟨e0 - 1, by simp [hc], by omega, by omega⟩
  · exact ⟨e0, by simp [hc], by omega, by omega⟩

theorem tokenEnd_eq (a tok post : Text) (htok : tok ≠ [])
    (htl : ∀ c ∈ tok.tail, c ≠ ' ' ∧ c ≠ '\n')
    (hpost : ∀ x, post.head? = some x → x = ' ' ∨ x = '\n') :
    tokenEnd (a ++ (tok ++ post)) a.length = .ok (a.length + (stripCR tok).length) := by
  obtain ⟨t0, tl, rfl⟩ := List.exists_cons_of_ne_nil htok
  have e1 : a ++ (t0 :: tl ++ post) = (a ++ [t0]) ++ (tl ++ post) := by simp
  have hadv : advanceWhile (fun c => c != ' ' && c != '\n') (a ++ (t0 :: tl ++ post))
      (a.length + 1) = a.length + 1 + tl.length := by
    rw [e1]
    have := advanceWhile_eq (fun c => c != ' ' && c != '\n') (a ++ [t0]) tl post
      (by intro x hx; have := htl x (by simpa using hx); simp [this.1, this.2])
      (by intro x hx; rcases hpost x hx with h | h <;> simp [h])
    simpa using this
  unfold tokenEnd
  simp only [hadv]
  have hlast : (a ++ (t0 :: tl ++ post))[a.length + 1 + tl.length - 1]? =
      (t0 :: tl).getLast? := by
    rw [show a.length + 1 + tl.length - 1 = a.length + tl.length by omega]
    rw [List.getElem?_append_right (by omega)]
    rw [show a.length + tl.length - a.length = tl.length by omega]
    rw [List.getElem?_append_left (by simp)]
    rw [List.getLast?_eq_getElem?]
    simp
  rw [hlast]
  have hsome : (t0 :: tl).getLast? = some ((t0 :: tl).getLast (by simp)) :=
    List.getLast?_eq_getLast _ _
  rw [hsome]
  simp only
  unfold stripCR
  rw [hsome]
  by_cases hc : (t0 :: tl).getLast (by simp) = '\r'
  · simp only [hc, if_true, List.length_dropLast, List.length_cons]
    congr 1
    omega
  · simp only [hc, if_false, List.length_cons, Option.some.injEq]
    congr 1
    omega

theorem substr_token (a tok post : Text) :
    substr (a ++ (tok ++ post)) a.length (stripCR tok).length = stripCR tok := by
  unfold substr
  rw [List.drop_left]
  obtain ⟨r, hr⟩ := stripCR_isPrefixOf tok
  generalize stripCR tok = w at hr
  subst hr
  rw [List.append_assoc, List.take_left]

/-! ### The scan loop: termination and soundness -/

theorem prefix_drop_lt {s kw : Text} {i : Nat} (hkw : kw ≠ []) (h : kw <+: s.drop i) :
    i + kw.length ≤ s.length ∧ i < s.length := by
  have h1 := h.length_le
  simp only [List.length_drop] at h1
  have h2 : 0 < kw.length := List.length_pos.mpr hkw
  omega

theorem scanStep_total {α : Type} (kw : Text) (skip : Nat) (vocab : Text → Option α)
    (s : Text) (hkw : kw ≠ []) (hskip : 0 < skip) (start : Nat) :
    ∃ r, scanStep kw skip vocab s start = .ok r ∧
      (∀ start', r = Step.next start' → start < start') ∧
      (s.length ≤ start → r = Step.done Option.none) := by
  unfold scanStep
  cases hf : find s kw start with
  | none => exact ⟨_, rfl, (fun _ h => by cases h), (fun _ => rfl)⟩
  | some st =>
    obtain ⟨h1, _, h3, _⟩ := find_some hf
    have hst := (prefix_drop_lt hkw h3).2
    obtain ⟨cs, hcs, hle, _⟩ := commentStart_total s st (by omega)
    have hget : s[cs]? = some s[cs] := List.getElem?_eq_getElem (by omega)
    have hno : ∀ r : Step α, s.length ≤ start → r = Step.done Option.none := by
      intro r h; omega
    simp only [hcs, hget]
    split
    · refine ⟨_, rfl, ?_, hno _⟩
      intro start' h
      simp only [Step.next.injEq] at h
      omega
    · have h2 := le_advanceWhile (fun c => c == ' ') s (st + skip)
      generalize advanceWhile (fun c => c == ' ') s (st + skip) = st2 at h2
      split
      · exact ⟨_, rfl, (fun _ h => by cases h), hno _⟩
      · rename_i hlt
        obtain ⟨e, he, hle1, _⟩ := tokenEnd_total s st2 (by omega)
        simp only [he]
        split
        · exact ⟨_, rfl, (fun _ h => by cases h), hno _⟩
        · refine ⟨_, rfl, ?_, hno _⟩
          intro start' h
          simp only [Step.next.injEq] at h
          omega

theorem scanLoop_total {α : Type} (kw : Text) (skip : Nat) (vocab : Text → Option α) (s : Text)
    (hkw : kw ≠ []) (hskip : 0 < skip) : ∀ fuel start, s.length ≤ fuel + start →
    ∃ r, scanLoop kw skip vocab s (fuel + 1) start = .ok r := by
  intro fuel
  induction fuel with
  | zero =>
    intro start h
    obtain ⟨r, hr, -, hdone⟩ := scanStep_total kw skip vocab s hkw hskip start
    rw [scanLoop, hr, hdone (by omega)]
    exact ⟨_, rfl⟩
  | succ fuel ih =>
    intro start h
    obtain ⟨r, hr, hnext, -⟩ := scanStep_total kw skip vocab s hkw hskip start
    rw [scanLoop, hr]
    cases r with
    | done r => exact ⟨_, rfl⟩
    | next start' =>
      have := hnext start' rfl
      exact ih start' (by omega)

theorem takeWhile_space_eq (l : Text) :
    l.takeWhile (fun c => c == ' ') = List.replicate (l.takeWhile (fun c => c == ' ')).length ' ' := by
  rw [List.eq_replicate_iff]
  refine ⟨rfl, ?_⟩
  intro b hb
  have := List.mem_takeWhile_imp hb
  simpa using this

theorem take_commentStart {s : Text} {st cs : Nat} (hst : st ≤ s.length) (hlt : cs < st)
    (hsp : (s.drop (cs + 1)).take (st - (cs + 1)) = List.replicate (st - (cs + 1)) ' ')
    (hc : s[cs]? = some '#') :
    s.take st = s.take cs ++ '#' :: List.replicate (st - (cs + 1)) ' ' := by
  have h1 : s.take st = s.take cs ++ (s.drop cs).take (st - cs) := by
    conv_lhs => rw [show st = cs + (st - cs) by omega]
    rw [List.take_add]
  have h2 : s.drop cs = '#' :: s.drop (cs + 1) := by
    have hlt2 : cs < s.length := by omega
    rw [List.getElem?_eq_getElem hlt2] at hc
    simp only [Option.some.injEq] at hc
    rw [← hc]
    exact List.drop_eq_getElem_cons hlt2
  rw [h1, h2, show st - cs = (st - (cs + 1)) + 1 by omega, List.take_succ_cons, hsp]

theorem scanStep_sound {α : Type} (kw : Text) (vocab : Text → Option α) (s : Text)
    (hkw : kw ≠ []) (hhash : kw.head? ≠ some '#') (start : Nat) (d : Directive α)
    (h : scanStep kw kw.length vocab s start = .ok (Step.done (some d))) :
    Accepted kw vocab s d := by
    unfold scanStep at h
    cases hf : find s kw start with
    | none => simp [hf] at h
    | some st =>
      obtain ⟨h1, _, h3, _⟩ := find_some hf
      obtain ⟨hst1, hst⟩ := prefix_drop_lt hkw h3
      obtain ⟨cs, hcs, hle, hsp⟩ := commentStart_total s st (by omega)
      have hget : s[cs]? = some s[cs] := List.getElem?_eq_getElem (by omega)
      simp only [hf, hcs, hget] at h
      split at h
      · simp at h
      · rename_i hc
        simp only [ne_eq, Decidable.not_not] at hc
        have h2 := le_advanceWhile (fun c => c == ' ') s (st + kw.length)
        have h2' := advanceWhile_le (fun c => c == ' ') s (st + kw.length) hst1
        have hseg := advanceWhile_segment (fun c => c == ' ') s (st + kw.length)
        generalize advanceWhile (fun c => c == ' ') s (st + kw.length) = st2 at h h2 h2' hseg
        split at h
        · simp at h
        · rename_i hlt
          obtain ⟨e, he, hle1, hle2⟩ := tokenEnd_total s st2 (by omega)
          simp only [he] at h
          split at h
          · rename_i l hv
            simp only [Outcome.ok.injEq, Step.done.injEq, Option.some.injEq] at h
            subst h
            -- the keyword occurrence lies after the '#'
            have hcs_lt : cs < st := by
              rcases Nat.lt_or_ge cs st with hh | hh
              · exact hh
              · exfalso
                have hcs_eq : cs = st := by omega
                subst hcs_eq
                obtain ⟨r, hr⟩ := h3
                obtain ⟨k0, kt, rfl⟩ := List.exists_cons_of_ne_nil hkw
                have : (s.drop cs)[0]? = some k0 := by rw [← hr]; simp
                rw [List.getElem?_drop, Nat.add_zero, hget, hc] at this
                simp only [Option.some.injEq] at this
                apply hhash
                simp [← this]
            have htake := take_commentStart (by omega) hcs_lt hsp (by rw [hget, hc])
            refine ⟨s.take cs, st - (cs + 1), st2 - (st + kw.length), ?_, ?_, ?_, ?_, hle1, hle2, hv⟩
            · show s.take st2 = _
              have e1 : s.take st2 = s.take st ++ (s.drop st).take (st2 - st) := by
                conv_lhs => rw [show st2 = st + (st2 - st) by omega]
                rw [List.take_add]
              obtain ⟨r, hr⟩ := h3
              have e2 : s.drop (st + kw.length) = r := by
                rw [← List.drop_drop, ← hr, List.drop_left]
              have e3 : (s.drop st).take (st2 - st) =
                  kw ++ List.replicate (st2 - (st + kw.length)) ' ' := by
                have hlen : ((s.drop (st + kw.length)).takeWhile (fun c => c == ' ')).length =
                    st2 - (st + kw.length) := by
                  rw [← hseg, List.length_take, List.length_drop]
                  omega
                rw [← hr, show st2 - st = kw.length + (st2 - (st + kw.length)) by omega,
                  List.take_append, ← e2, hseg, takeWhile_space_eq, hlen]
              rw [e1, htake, e3]
              simp
            · show st = _
              simp only [List.length_take]
              omega
            · show st2 = st + kw.length + (st2 - (st + kw.length))
              omega
            · show st2 < _
              omega
          · simp at h

theorem scanLoop_sound {α : Type} (kw : Text) (vocab : Text → Option α) (s : Text)
    (hkw : kw ≠ []) (hhash : kw.head? ≠ some '#') : ∀ fuel start d,
    scanLoop kw kw.length vocab s fuel start = .ok (some d) → Accepted kw vocab s d := by
  intro fuel
  induction fuel with
  | zero => intro start d h; simp [scanLoop] at h
  | succ fuel ih =>
    intro start d h
    rw [scanLoop] at h
    cases hs : scanStep kw kw.length vocab s start with
    | fail e => rw [hs] at h; cases h
    | ok r =>
      rw [hs] at h
      cases r with
      | done r =>
        simp only [Outcome.ok.injEq] at h
        subst h
        exact scanStep_sound kw vocab s hkw hhash start d hs
      | next start' => exact ih _ _ h

/-! ### The scan loop: one iteration on a directive -/

theorem scanStep_eq {α : Type} (kw : Text) (vocab : Text → Option α) (A tok post : Text)
    (n m start : Nat) (hkw : kw ≠ [])
    (hstart : start ≤ A.length + 1 + n)
    (hfirst : ∀ j, start ≤ j → j < A.length + 1 + n →
      ¬ kw <+: (A ++ '#' :: (List.replicate n ' ' ++
        (kw ++ (List.replicate m ' ' ++ (tok ++ post))))).drop j)
    (htok : tok ≠ []) (hhead : tok.head? ≠ some ' ')
    (htl : ∀ c ∈ tok.tail, c ≠ ' ' ∧ c ≠ '\n')
    (hpost : ∀ x, post.head? = some x → x = ' ' ∨ x = '\n') :
    scanStep kw kw.length vocab
        (A ++ '#' :: (List.replicate n ' ' ++ (kw ++ (List.replicate m ' ' ++ (tok ++ post)))))
        start =
      match vocab (stripCR tok) with
      | some l => .ok (Step.done (some ⟨l, A.length + 1 + n, A.length + 1 + n + kw.length + m,
          A.length + 1 + n + kw.length + m + (stripCR tok).length⟩))
      | Option.none =>
        .ok (Step.next (A.length + 1 + n + kw.length + m + (stripCR tok).length)) := by
  generalize hs : A ++ '#' :: (List.replicate n ' ' ++
    (kw ++ (List.replicate m ' ' ++ (tok ++ post)))) = s at hfirst ⊢
  have hs1 : s = (A ++ '#' :: List.replicate n ' ') ++ (kw ++ (List.replicate m ' ' ++ (tok ++ post))) := by
    rw [← hs]; simp
  have hs2 : s = (A ++ '#' :: List.replicate n ' ' ++ kw) ++ (List.replicate m ' ' ++ (tok ++ post)) := by
    rw [← hs]; simp
  have hs3 : s = (A ++ '#' :: List.replicate n ' ' ++ kw ++ List.replicate m ' ') ++ (tok ++ post) := by
    rw [← hs]; simp
  have hl1 : (A ++ '#' :: List.replicate n ' ').length = A.length + 1 + n := by
    simp; omega
  have hl2 : (A ++ '#' :: List.replicate n ' ' ++ kw).length = A.length + 1 + n + kw.length := by
    simp; omega
  have hl3 : (A ++ '#' :: List.replicate n ' ' ++ kw ++ List.replicate m ' ').length =
      A.length + 1 + n + kw.length + m := by
    simp; omega
  have htl0 : 0 < tok.length := List.length_pos.mpr htok
  have hlen : s.length = A.length + 1 + n + kw.length + m + tok.length + post.length := by
    rw [hs3, List.length_append, hl3, List.length_append]; omega
  have hfind : find s kw start = some (A.length + 1 + n) := by
    apply find_eq_some hkw hstart _ hfirst
    rw [hs1, ← hl1, List.drop_left]
    exact List.prefix_append _ _
  have hcs : commentStart s (A.length + 1 + n) = .ok A.length := by
    rw [← hs]
    exact commentStart_eq A _ '#' n (by decide)
  have hget : s[A.length]? = some '#' := by
    rw [← hs, List.getElem?_append_right (le_refl _)]
    simp
  have hadv : advanceWhile (fun c => c == ' ') s (A.length + 1 + n + kw.length) =
      A.length + 1 + n + kw.length + m := by
    have := advanceWhile_eq (fun c => c == ' ') (A ++ '#' :: List.replicate n ' ' ++ kw)
      (List.replicate m ' ') (tok ++ post)
      (by intro x hx; simp [List.eq_of_mem_replicate hx])
      (by
        intro x hx
        obtain ⟨t0, tl, rfl⟩ := List.exists_cons_of_ne_nil htok
        simp only [List.cons_append, List.head?_cons, Option.some.injEq] at hx
        subst hx
        simpa using hhead)
    rw [← hs2, hl2, List.length_replicate] at this
    exact this
  have htoken : tokenEnd s (A.length + 1 + n + kw.length + m) =
      .ok (A.length + 1 + n + kw.length + m + (stripCR tok).length) := by
    have := tokenEnd_eq (A ++ '#' :: List.replicate n ' ' ++ kw ++ List.replicate m ' ')
      tok post htok htl hpost
    rw [← hs3, hl3] at this
    exact this
  have hsub : substr s (A.length + 1 + n + kw.length + m) (stripCR tok).length = stripCR tok := by
    have := substr_token (A ++ '#' :: List.replicate n ' ' ++ kw ++ List.replicate m ' ')
      tok post
    rw [← hs3, hl3] at this
    exact this
  unfold scanStep
  simp only [hfind, hcs, hget, hadv, htoken, Nat.add_sub_cancel_left, hsub]
  have hge : ¬ (A.length + 1 + n + kw.length + m ≥ s.length) := by omega
  simp only [ne_eq, not_true_eq_false, if_false, hge]

theorem scanLoop_step {α : Type} (kw : Text) (vocab : Text → Option α) (A tok post : Text)
    (n m fuel start : Nat) (hkw : kw ≠ [])
    (hstart : start ≤ A.length + 1 + n)
    (hfirst : ∀ j, start ≤ j → j < A.length + 1 + n →
      ¬ kw <+: (A ++ '#' :: (List.replicate n ' ' ++
        (kw ++ (List.replicate m ' ' ++ (tok ++ post))))).drop j)
    (htok : tok ≠ []) (hhead : tok.head? ≠ some ' ')
    (htl : ∀ c ∈ tok.tail, c ≠ ' ' ∧ c ≠ '\n')
    (hpost : ∀ x, post.head? = some x → x = ' ' ∨ x = '\n') :
    scanLoop kw kw.length vocab
        (A ++ '#' :: (List.replicate n ' ' ++ (kw ++ (List.replicate m ' ' ++ (tok ++ post)))))
        (fuel + 1) start =
      match vocab (stripCR tok) with
      | some l => .ok (some ⟨l, A.length + 1 + n, A.length + 1 + n + kw.length + m,
          A.length + 1 + n + kw.length + m + (stripCR tok).length⟩)
      | Option.none => scanLoop kw kw.length vocab
          (A ++ '#' :: (List.replicate n ' ' ++ (kw ++ (List.replicate m ' ' ++ (tok ++ post)))))
          fuel (A.length + 1 + n + kw.length + m + (stripCR tok).length) := by
  rw [scanLoop, scanStep_eq kw vocab A tok post n m start hkw hstart hfirst htok hhead htl hpost]
  cases vocab (stripCR tok) <;> rfl

theorem not_prefix_drop_of_getElem? {s kw : Text} {j : Nat} (hkw : kw ≠ [])
    (h : s[j]? ≠ kw.head?) : ¬ kw <+: s.drop j := by
  rintro ⟨r, hr⟩
  obtain ⟨k0, kt, rfl⟩ := List.exists_cons_of_ne_nil hkw
  apply h
  have : (s.drop j)[0]? = some k0 := by rw [← hr]; simp
  rw [List.getElem?_drop, Nat.add_zero] at this
  rw [this]; rfl

theorem prefix_of_prefix_append_cons {kw A R : Text} {x : Char} (hx : x ∉ kw)
    (h : kw <+: A ++ x :: R) : kw <+: A := by
  induction kw generalizing A with
  | nil => exact List.nil_prefix
  | cons k ks ih =>
    cases A with
    | nil =>
      simp only [List.nil_append] at h
      have := List.cons_prefix_cons.mp h
      simp only [List.mem_cons, not_or] at hx
      exact absurd this.1.symm hx.1
    | cons a as =>
      simp only [List.cons_append] at h
      have := List.cons_prefix_cons.mp h
      simp only [List.mem_cons, not_or] at hx
      exact List.cons_prefix_cons.mpr ⟨this.1, ih hx.2 this.2⟩

/-! ### The strictness scan and its span (C1) -/

theorem no_occurrence_in_region (kw P region Y : Text) (hkw : kw ≠ [])
    (hreg : ∀ c ∈ region, some c ≠ kw.head?) (j : Nat) (h1 : P.length ≤ j)
    (h2 : j < P.length + region.length) : ¬ kw <+: (P ++ (region ++ Y)).drop j := by
  apply not_prefix_drop_of_getElem? hkw
  rw [List.getElem?_append_right h1, List.getElem?_append_left (by omega)]
  have hlt : j - P.length < region.length := by omega
  rw [List.getElem?_eq_getElem hlt]
  exact hreg _ (List.getElem_mem _)

theorem not_prefix_drop_of_not_infix {kw s : Text} (h : ¬ kw <:+: s) (j : Nat) :
    ¬ kw <+: s.drop j := by
  intro hp
  apply h
  exact List.infix_iff_prefix_suffix.mpr ⟨s.drop j, hp, List.drop_suffix j s⟩

theorem strictVocab_some {w : Text} {L : StrictLevel} (h : strictVocab w = some L) :
    (w, L) ∈ strictWords ∧ L ≠ StrictLevel.None ∧ w ≠ [] := by
  unfold strictVocab at h
  split_ifs at h with h1 h2 h3 h4 h5 h6 h7 <;>
    simp only [Option.some.injEq] at h <;> subst h <;>
    first
      | (subst h1; decide)
      | (subst h2; decide)
      | (subst h3; decide)
      | (subst h4; decide)
      | (subst h5; decide)
      | (subst h6; decide)
      | (subst h7; decide)

theorem strictDirective_total (s : Text) : ∃ r, strictDirective s = .ok r :=
  scanLoop_total typedKw 6 strictVocab s (by decide) (by decide) s.length 0 (by omega)

theorem strictDirective_sound {s : Text} {d : Directive StrictLevel}
    (h : strictDirective s = .ok (some d)) : Accepted typedKw strictVocab s d :=
  scanLoop_sound typedKw strictVocab s (by decide) (by decide) (s.length + 1) 0 d h

theorem spanContract_of_lt (s : Text) (hs : s.length < 2 ^ 32) : SpanContract s := by
  obtain ⟨r, hr⟩ := strictDirective_total s
  cases r with
  | none =>
    left
    simp [strictSigilInfo, hr]
  | some d =>
    right
    obtain ⟨pre, n, m, h1, h2, h3, h4, h5, h6, h7⟩ := strictDirective_sound hr
    obtain ⟨hmem, hne, hnil⟩ := strictVocab_some h7
    have hb : d.tokBegin % 2 ^ 32 = d.tokBegin := Nat.mod_eq_of_lt (by omega)
    have he : d.tokEnd % 2 ^ 32 = d.tokEnd := Nat.mod_eq_of_lt (by omega)
    refine ⟨d.level, d.tokBegin, d.tokEnd, substr s d.tokBegin (d.tokEnd - d.tokBegin), pre, n, m,
      ?_, hne, ?_, h6, hmem, rfl, h1⟩
    · simp only [strictSigilInfo, hr, hb, he]
    · have hlen := List.length_pos.mpr hnil
      simp only [substr, List.length_take, List.length_drop] at hlen
      omega

theorem strictDirective_padded (N : Nat) :
    strictDirective (List.replicate N ' ' ++ "# typed: true".toList) =
      .ok (some ⟨StrictLevel.True, N + 2, N + 9, N + 13⟩) := by
  have hform : List.replicate N ' ' ++ "# typed: true".toList =
      List.replicate N ' ' ++ '#' :: (List.replicate 1 ' ' ++ (typedKw ++
        (List.replicate 1 ' ' ++ ("true".toList ++ [])))) := by
    congr 1
  have hstep := scanLoop_step typedKw strictVocab (List.replicate N ' ') "true".toList [] 1 1
    (List.replicate N ' ' ++ "# typed: true".toList).length 0 (by decide) (by omega)
    (by
      intro j _ hj
      have := no_occurrence_in_region typedKw [] (List.replicate N ' ' ++ ['#', ' '])
        (typedKw ++ (List.replicate 1 ' ' ++ ("true".toList ++ []))) (by decide)
        (by
          intro c hc
          simp only [List.mem_append, List.mem_cons, List.mem_singleton, List.not_mem_nil,
            or_false] at hc
          rcases hc with hc | hc | hc
          · rw [List.eq_of_mem_replicate hc]; decide
          · rw [hc]; decide
          · rw [hc]; decide)
        j (by simp) (by simp at hj ⊢; omega)
      simpa using this)
    (by decide) (by decide) (by decide) (by simp)
  rw [← hform] at hstep
  simp only [List.length_replicate] at hstep
  unfold strictDirective scanDirective
  rw [show typedKw.length = 6 by decide] at hstep
  rw [hstep]
  rw [show stripCR "true".toList = "true".toList by decide]
  rw [show strictVocab "true".toList = some StrictLevel.True by decide]
  rfl

theorem strictSigilInfo_of_directive {s : Text} {d : Directive StrictLevel}
    (h : strictDirective s = .ok (some d)) :
    strictSigilInfo s =
      .ok ⟨LocOffsets.span (d.tokBegin % 2 ^ 32) (d.tokEnd % 2 ^ 32), d.level⟩ := by
  simp only [strictSigilInfo, h]

theorem strictSigilInfo_hugeText :
    strictSigilInfo hugeText = .ok ⟨LocOffsets.span 9 13, StrictLevel.True⟩ := by
  have h : strictDirective hugeText = _ := strictDirective_padded (2 ^ 32)
  have e1 : (2 ^ 32 + 9) % 2 ^ 32 = 9 := by
    rw [Nat.add_mod_left]; exact Nat.mod_eq_of_lt (by norm_num)
  have e2 : (2 ^ 32 + 13) % 2 ^ 32 = 13 := by
    rw [Nat.add_mod_left]; exact Nat.mod_eq_of_lt (by norm_num)
  rw [strictSigilInfo_of_directive h]
  simp only [e1, e2]

theorem hugeText_slice : (hugeText.drop 9).take (13 - 9) = List.replicate 4 ' ' := by
  unfold hugeText
  rw [List.drop_append_of_le_length (by rw [List.length_replicate]; norm_num),
    List.drop_replicate, List.take_append_of_le_length (by rw [List.length_replicate]; norm_num),
    List.take_replicate]
  congr 1

/-- C1, as stated, fails on a text of more than `2 ^ 32` bytes: on `hugeText` the scan returns
`True` with the span `[9, 13)`, the offsets of the word reduced modulo `2 ^ 32`, and the four
bytes of the text at that span are spaces. -/
theorem spanContract_hugeText_fails : ¬ SpanContract hugeText := by
  intro h
  have hval := strictSigilInfo_hugeText
  rcases h with h | ⟨L, b, e, w, pre, n, m, h1, h2, h3, h4, h5, h6, h7⟩
  · rw [hval] at h
    simp at h
  · rw [hval] at h1
    simp only [Outcome.ok.injEq, SigilInfo.mk.injEq, LocOffsets.span.injEq] at h1
    obtain ⟨⟨rfl, rfl⟩, rfl⟩ := h1
    rw [hugeText_slice] at h6
    subst h6
    revert h5
    decide

/-- C1 (amended to texts shorter than `2 ^ 32` bytes). The strictness scan returns a result on
every text, and `File::fileStrictSigil` and `File::locStrictSigil` return its two components.
On a text shorter than `2 ^ 32` bytes the result is either `(None, no location)` or a level
`L ≠ None` with a span `[b, e)`, `b < e ≤ |s|`, such that `s[b..e)` is the vocabulary word of
`L` and `s[0..b)` ends with `#`, spaces, `typed:`, spaces (`SpanContract`). A text without an
occurrence of `typed:`, such as `x = 1`, gives `None` and no location, and
`# typed: true\nx = 1` gives `True` with the span of `true`. -/
theorem strictSigilInfo_contract (s : Text) :
    (∃ i, strictSigilInfo s = .ok i ∧ fileStrictSigil s = .ok i.strictLevel ∧
      locStrictSigil s = .ok i.loc) ∧
    (s.length < 2 ^ 32 → SpanContract s) ∧
    (¬ typedKw <:+: s → strictSigilInfo s = .ok ⟨LocOffsets.none, StrictLevel.None⟩) ∧
    strictSigilInfo "x = 1".toList = .ok ⟨LocOffsets.none, StrictLevel.None⟩ ∧
    strictSigilInfo "# typed: true\nx = 1".toList =
      .ok ⟨LocOffsets.span 9 13, StrictLevel.True⟩ ∧
    substr "# typed: true\nx = 1".toList 9 (13 - 9) = "true".toList := by
  refine ⟨?_, spanContract_of_lt s, ?_, by decide, by decide, by decide⟩
  · obtain ⟨r, hr⟩ := strictDirective_total s
    cases r with
    | none =>
      refine ⟨⟨LocOffsets.none, StrictLevel.None⟩, ?_, ?_, ?_⟩ <;>
        simp only [fileStrictSigil, locStrictSigil, strictSigilInfo, hr, Outcome.bind]
    | some d =>
      refine ⟨⟨LocOffsets.span (d.tokBegin % 2 ^ 32) (d.tokEnd % 2 ^ 32), d.level⟩, ?_, ?_, ?_⟩ <;>
        simp only [fileStrictSigil, locStrictSigil, strictSigilInfo, hr, Outcome.bind]
  · intro hno
    have hfind : find s typedKw 0 = none :=
      find_eq_none fun j _ => not_prefix_drop_of_not_infix hno j
    simp only [strictSigilInfo, strictDirective, scanDirective, scanLoop, scanStep, hfind]

/-- Witness of C1 on the texts `# typed: strict` and `y = 2`. -/
theorem strictSigilInfo_contract_witness :
    SpanContract "# typed: strict".toList ∧
    strictSigilInfo "y = 2".toList = .ok ⟨LocOffsets.none, StrictLevel.None⟩ :=
  ⟨(strictSigilInfo_contract "# typed: strict".toList).2.1 (by decide),
   (strictSigilInfo_contract "y = 2".toList).2.2.1 (by decide)⟩

/-! ### The first well-formed directive (C2) -/

theorem stripCR_of_getLast {w : Text} (h : w.getLast? ≠ some '\r') : stripCR w = w := by
  unfold stripCR
  simp [h]

theorem stripCR_append_cr (w : Text) : stripCR (w ++ ['\r']) = w := by
  unfold stripCR
  simp

theorem scanLoop_first {α : Type} (kw : Text) (vocab : Text → Option α) (pre w post : Text)
    (n m fuel : Nat) (L : α) (hkw : kw ≠ []) (hhash : '#' ∉ kw) (hsp : ' ' ∉ kw)
    (hpre : ¬ kw <:+: pre) (hw : PlainWord w) (hv : vocab w = some L)
    (hpost : DirectiveEnd post) :
    scanLoop kw kw.length vocab
        (pre ++ '#' :: (List.replicate n ' ' ++ (kw ++ (List.replicate m ' ' ++ (w ++ post)))))
        (fuel + 1) 0 =
      .ok (some ⟨L, pre.length + 1 + n, pre.length + 1 + n + kw.length + m,
        pre.length + 1 + n + kw.length + m + w.length⟩) := by
  obtain ⟨hw1, hw2, hw3⟩ := hw
  obtain ⟨k0, kt, hk⟩ := List.exists_cons_of_ne_nil hkw
  have hfirst : ∀ (Y : Text) (j : Nat), 0 ≤ j → j < pre.length + 1 + n →
      ¬ kw <+: (pre ++ '#' :: (List.replicate n ' ' ++ Y)).drop j := by
    intro Y j _ hj
    rcases Nat.lt_or_ge j pre.length with hlt | hge
    · intro hp
      rw [List.drop_append_of_le_length (by omega)] at hp
      exact not_prefix_drop_of_not_infix hpre j (prefix_of_prefix_append_cons hhash hp)
    · have := no_occurrence_in_region kw pre ('#' :: List.replicate n ' ') Y hkw
        (by
          intro c hc
          simp only [List.mem_cons] at hc
          rw [hk]
          simp only [List.head?_cons, ne_eq, Option.some.injEq]
          rcases hc with hc | hc
          · rintro rfl; subst hc; apply hhash; rw [hk]; simp
          · rintro rfl
            have hcs := List.eq_of_mem_replicate hc
            apply hsp; rw [hk, ← hcs]; simp)
        j hge (by simp; omega)
      simpa using this
  have hhead : ∀ t : Text, (w ++ t).head? ≠ some ' ' := by
    intro t
    obtain ⟨w0, wt, rfl⟩ := List.exists_cons_of_ne_nil hw1
    simp only [List.cons_append, List.head?_cons, ne_eq, Option.some.injEq]
    exact (hw2 w0 (by simp)).1
  rcases hpost with rfl | hp | hp | ⟨r, rfl, hr⟩
  · have := scanLoop_step kw vocab pre w [] n m fuel 0 hkw (by omega) (hfirst _) hw1
      (by simpa using hhead []) (fun c hc => hw2 c (List.mem_of_mem_tail hc)) (by simp)
    rw [this, stripCR_of_getLast hw3, hv]
  · have := scanLoop_step kw vocab pre w post n m fuel 0 hkw (by omega) (hfirst _) hw1
      (by simpa using hhead []) (fun c hc => hw2 c (List.mem_of_mem_tail hc))
      (by intro x hx; rw [hp] at hx; left; simpa using hx.symm)
    rw [this, stripCR_of_getLast hw3, hv]
  · have := scanLoop_step kw vocab pre w post n m fuel 0 hkw (by omega) (hfirst _) hw1
      (by simpa using hhead []) (fun c hc => hw2 c (List.mem_of_mem_tail hc))
      (by intro x hx; rw [hp] at hx; right; simpa using hx.symm)
    rw [this, stripCR_of_getLast hw3, hv]
  · have e1 : w ++ '\r' :: r = (w ++ ['\r']) ++ r := by simp
    rw [e1]
    have := scanLoop_step kw vocab pre (w ++ ['\r']) r n m fuel 0 hkw (by omega)
      (by rw [← e1]; exact hfirst _) (by simp)
      (by simpa using hhead ['\r'])
      (by
        intro c hc
        have hc' := List.mem_of_mem_tail hc
        simp only [List.mem_append, List.mem_singleton] at hc'
        rcases hc' with hc' | hc'
        · exact hw2 c hc'
        · subst hc'; decide)
      (by
        intro x hx
        rcases hr with rfl | hr | hr
        · simp at hx
        · rw [hr] at hx; left; simpa using hx.symm
        · rw [hr] at hx; right; simpa using hx.symm)
    rw [this, stripCR_append_cr, hv]

theorem strictWords_plain {w : Text} {L : StrictLevel} (h : (w, L) ∈ strictWords) :
    PlainWord w ∧ strictVocab w = some L := by
  simp only [strictWords, List.mem_cons, Prod.mk.injEq, List.mem_singleton, List.not_mem_nil,
    or_false] at h
  rcases h with ⟨rfl, rfl⟩ | ⟨rfl, rfl⟩ | ⟨rfl, rfl⟩ | ⟨rfl, rfl⟩ | ⟨rfl, rfl⟩ | ⟨rfl, rfl⟩ |
    ⟨rfl, rfl⟩ <;> exact ⟨by decide, by decide⟩

theorem compiledWords_plain {w : Text} {L : CompiledLevel} (h : (w, L) ∈ compiledWords) :
    PlainWord w ∧ compiledVocab w = some L := by
  simp only [compiledWords, List.mem_cons, Prod.mk.injEq, List.mem_singleton, List.not_mem_nil,
    or_false] at h
  rcases h with ⟨rfl, rfl⟩ | ⟨rfl, rfl⟩ <;> exact ⟨by decide, by decide⟩

theorem packagedWords_plain {w : Text} {L : PackagedLevel} (h : (w, L) ∈ packagedWords) :
    PlainWord w ∧ packagedVocab w = some L := by
  simp only [packagedWords, List.mem_cons, Prod.mk.injEq, List.mem_singleton, List.not_mem_nil,
    or_false] at h
  rcases h with ⟨rfl, rfl⟩ | ⟨rfl, rfl⟩ <;> exact ⟨by decide, by decide⟩

theorem strictDirective_first (pre w post : Text) (n m : Nat) (L : StrictLevel)
    (hpre : ¬ typedKw <:+: pre) (hw : (w, L) ∈ strictWords) (hpost : DirectiveEnd post) :
    strictDirective (directiveText pre n typedKw m w post) =
      .ok (some ⟨L, pre.length + 1 + n, pre.length + 1 + n + 6 + m,
        pre.length + 1 + n + 6 + m + w.length⟩) :=
  scanLoop_first typedKw strictVocab pre w post n m _ L (by decide) (by decide) (by decide)
    hpre (strictWords_plain hw).1 (strictWords_plain hw).2 hpost

theorem compiledDirective_first (pre w post : Text) (n m : Nat) (L : CompiledLevel)
    (hpre : ¬ compiledKw <:+: pre) (hw : (w, L) ∈ compiledWords) (hpost : DirectiveEnd post) :
    compiledDirective (directiveText pre n compiledKw m w post) =
      .ok (some ⟨L, pre.length + 1 + n, pre.length + 1 + n + 9 + m,
        pre.length + 1 + n + 9 + m + w.length⟩) :=
  scanLoop_first compiledKw compiledVocab pre w post n m _ L (by decide) (by decide) (by decide)
    hpre (compiledWords_plain hw).1 (compiledWords_plain hw).2 hpost

theorem packagedDirective_first (pre w post : Text) (n m : Nat) (L : PackagedLevel)
    (hpre : ¬ packagedKw <:+: pre) (hw : (w, L) ∈ packagedWords) (hpost : DirectiveEnd post) :
    packagedDirective (directiveText pre n packagedKw m w post) =
      .ok (some ⟨L, pre.length + 1 + n, pre.length + 1 + n + 9 + m,
        pre.length + 1 + n + 9 + m + w.length⟩) :=
  scanLoop_first packagedKw packagedVocab pre w post n m _ L (by decide) (by decide) (by decide)
    hpre (packagedWords_plain hw).1 (packagedWords_plain hw).2 hpost

theorem directiveText_length (pre : Text) (n : Nat) (kw : Text) (m : Nat) (w post : Text) :
    (directiveText pre n kw m w post).length =
      pre.length + 1 + n + kw.length + m + w.length + post.length := by
  simp [directiveText]; omega

theorem directiveText_substr (pre : Text) (n : Nat) (kw : Text) (m : Nat) (w post : Text) :
    substr (directiveText pre n kw m w post) (pre.length + 1 + n + kw.length + m) w.length =
      w := by
  have e : directiveText pre n kw m w post =
      (pre ++ '#' :: List.replicate n ' ' ++ kw ++ List.replicate m ' ') ++ (w ++ post) := by
    simp [directiveText]
  have hl : (pre ++ '#' :: List.replicate n ' ' ++ kw ++ List.replicate m ' ').length =
      pre.length + 1 + n + kw.length + m := by
    simp; omega
  unfold substr
  rw [e, ← hl, List.drop_left, List.take_left]

/-- C2 (amended: the span is exact for texts shorter than `2 ^ 32` bytes). In a text made of
`pre` without occurrence of the keyword, `#`, `n` spaces, the keyword, `m` spaces, a
vocabulary word `w` and a `post` that is empty, starts with a space or a newline, or is a
carriage return followed by the end of the text, a space or a newline, each scanner returns the
level mapped from `w`. The strictness scan returns the offsets of `w` reduced modulo `2 ^ 32`;
when the text is shorter than `2 ^ 32` bytes these are the offsets of `w`, and the bytes of the
text between them are `w`, without the carriage return. -/
theorem first_directive_decides (pre post w : Text) (n m : Nat) (hpost : DirectiveEnd post) :
    (∀ L, ¬ typedKw <:+: pre → (w, L) ∈ strictWords →
      fileStrictSigil (directiveText pre n typedKw m w post) = .ok L ∧
      locStrictSigil (directiveText pre n typedKw m w post) =
        .ok (LocOffsets.span ((pre.length + 1 + n + 6 + m) % 2 ^ 32)
          ((pre.length + 1 + n + 6 + m + w.length) % 2 ^ 32)) ∧
      ((directiveText pre n typedKw m w post).length < 2 ^ 32 →
        locStrictSigil (directiveText pre n typedKw m w post) =
          .ok (LocOffsets.span (pre.length + 1 + n + 6 + m)
            (pre.length + 1 + n + 6 + m + w.length))) ∧
      substr (directiveText pre n typedKw m w post) (pre.length + 1 + n + 6 + m) w.length = w) ∧
    (∀ L, ¬ compiledKw <:+: pre → (w, L) ∈ compiledWords →
      fileCompiledSigil (directiveText pre n compiledKw m w post) = .ok L) ∧
    (∀ L, ¬ packagedKw <:+: pre → (w, L) ∈ packagedWords →
      filePackagedSigil (directiveText pre n packagedKw m w post) = .ok L) := by
  refine ⟨?_, ?_, ?_⟩
  · intro L hpre hw
    have hd := strictDirective_first pre w post n m L hpre hw hpost
    have hloc : locStrictSigil (directiveText pre n typedKw m w post) =
        .ok (LocOffsets.span ((pre.length + 1 + n + 6 + m) % 2 ^ 32)
          ((pre.length + 1 + n + 6 + m + w.length) % 2 ^ 32)) := by
      simp only [locStrictSigil, strictSigilInfo, hd, Outcome.bind]
    refine ⟨by simp only [fileStrictSigil, strictSigilInfo, hd, Outcome.bind], hloc, ?_, ?_⟩
    · intro hlen
      rw [directiveText_length, show typedKw.length = 6 by decide] at hlen
      rw [hloc, Nat.mod_eq_of_lt (by omega), Nat.mod_eq_of_lt (by omega)]
    · exact directiveText_substr pre n typedKw m w post
  · intro L hpre hw
    simp only [fileCompiledSigil, compiledDirective_first pre w post n m L hpre hw hpost]
  · intro L hpre hw
    simp only [filePackagedSigil, packagedDirective_first pre w post n m L hpre hw hpost]

theorem directiveEnd_crlf : DirectiveEnd "\r\n".toList :=
  Or.inr (Or.inr (Or.inr ⟨"\n".toList, rfl, Or.inr (Or.inr rfl)⟩))

/-- Witness of C2: the directives `# typed:  strict`, `# compiled:  true` and
`# packaged:  false`, each after the line `x = 1` and before a carriage return and a newline. -/
theorem first_directive_decides_witness :
    DirectiveEnd "\r\n".toList ∧ ¬ typedKw <:+: "x = 1\n".toList ∧
    ("strict".toList, StrictLevel.Strict) ∈ strictWords ∧
    fileStrictSigil (directiveText "x = 1\n".toList 1 typedKw 2 "strict".toList "\r\n".toList) =
      .ok StrictLevel.Strict ∧
    locStrictSigil (directiveText "x = 1\n".toList 1 typedKw 2 "strict".toList "\r\n".toList) =
      .ok (LocOffsets.span 16 22) ∧
    fileCompiledSigil (directiveText "x = 1\n".toList 1 compiledKw 2 "true".toList "\r\n".toList) =
      .ok CompiledLevel.True ∧
    filePackagedSigil (directiveText "x = 1\n".toList 1 packagedKw 2 "false".toList "\r\n".toList) =
      .ok PackagedLevel.False :=
  ⟨directiveEnd_crlf, by decide, by decide,
   ((first_directive_decides "x = 1\n".toList "\r\n".toList "strict".toList 1 2
      directiveEnd_crlf).1 StrictLevel.Strict (by decide) (by decide)).1,
   ((first_directive_decides "x = 1\n".toList "\r\n".toList "strict".toList 1 2
      directiveEnd_crlf).1 StrictLevel.Strict (by decide) (by decide)).2.2.1 (by decide),
   (first_directive_decides "x = 1\n".toList "\r\n".toList "true".toList 1 2
      directiveEnd_crlf).2.1 CompiledLevel.True (by decide) (by decide),
   (first_directive_decides "x = 1\n".toList "\r\n".toList "false".toList 1 2
      directiveEnd_crlf).2.2 PackagedLevel.False (by decide) (by decide)⟩

theorem fileStrictSigil_of_directive {s : Text} {d : Directive StrictLevel}
    (h : strictDirective s = .ok (some d)) : fileStrictSigil s = .ok d.level := by
  simp only [fileStrictSigil, strictSigilInfo, h, Outcome.bind]

theorem locStrictSigil_of_directive {s : Text} {d : Directive StrictLevel}
    (h : strictDirective s = .ok (some d)) :
    locStrictSigil s = .ok (LocOffsets.span (d.tokBegin % 2 ^ 32) (d.tokEnd % 2 ^ 32)) := by
  simp only [locStrictSigil, strictSigilInfo, h, Outcome.bind]

theorem not_infix_replicate_space {kw : Text} (c : Char) (hc : c ∈ kw) (hne : c ≠ ' ')
    (N : Nat) : ¬ kw <:+: List.replicate N ' ' := by
  intro h
  exact hne (List.eq_of_mem_replicate (h.subset hc))

/-- C2, as stated, fails for the strictness span on a text of more than `2 ^ 32` bytes: after
`2 ^ 32` spaces, in `#typed:strict` followed by a carriage return, the level is `Strict` but
the span returned is `[7, 13)`, and the six bytes of the text at that span are spaces. -/
theorem first_directive_span_wraps :
    ¬ typedKw <:+: List.replicate (2 ^ 32) ' ' ∧
    ("strict".toList, StrictLevel.Strict) ∈ strictWords ∧ DirectiveEnd ['\r'] ∧
    fileStrictSigil (directiveText (List.replicate (2 ^ 32) ' ') 0 typedKw 0 "strict".toList
      ['\r']) = .ok StrictLevel.Strict ∧
    locStrictSigil (directiveText (List.replicate (2 ^ 32) ' ') 0 typedKw 0 "strict".toList
      ['\r']) = .ok (LocOffsets.span 7 13) ∧
    substr (directiveText (List.replicate (2 ^ 32) ' ') 0 typedKw 0 "strict".toList ['\r'])
      7 (13 - 7) = List.replicate 6 ' ' := by
  have hpre : ¬ typedKw <:+: List.replicate (2 ^ 32) ' ' :=
    not_infix_replicate_space 't' (by decide) (by decide) _
  have hend : DirectiveEnd ['\r'] := Or.inr (Or.inr (Or.inr ⟨[], rfl, Or.inl rfl⟩))
  have hd := strictDirective_first (List.replicate (2 ^ 32) ' ') "strict".toList ['\r'] 0 0
    StrictLevel.Strict hpre (by decide) hend
  simp only [List.length_replicate] at hd
  have e1 : (2 ^ 32 + 1 + 0 + 6 + 0) % 2 ^ 32 = 7 := by norm_num
  have e2 : (2 ^ 32 + 1 + 0 + 6 + 0 + ("strict".toList).length) % 2 ^ 32 = 13 := by
    rw [show ("strict".toList).length = 6 by decide]; norm_num
  refine ⟨hpre, by decide, hend, ?_, ?_, ?_⟩
  · rw [fileStrictSigil_of_directive hd]
  · rw [locStrictSigil_of_directive hd]
    simp only [e1, e2]
  · unfold substr directiveText
    rw [List.drop_append_of_le_length (by rw [List.length_replicate]; norm_num),
      List.drop_replicate,
      List.take_append_of_le_length (by rw [List.length_replicate]; norm_num),
      List.take_replicate]
    congr 1

/-! ### A malformed directive before a well-formed one (C3) -/

theorem stripCR_split (v : Text) : ∃ v2, v = stripCR v ++ v2 ∧ ∀ c ∈ v2, c = '\r' := by
  unfold stripCR
  split
  · rename_i h
    exact ⟨['\r'], (List.dropLast_append_getLast? _ (by simpa using h)).symm, by simp⟩
  · exact ⟨[], by simp, by simp⟩

theorem scanLoop_skips {α : Type} (kw : Text) (vocab : Text → Option α) (n1 m1 n2 m2 : Nat)
    (v w : Text) (L : α) (fuel : Nat) (hkw : kw ≠ [])
    (hchars : ∀ c ∈ ['#', ' ', '\n', '\r'], some c ≠ kw.head?)
    (hv1 : v ≠ []) (hv2 : ∀ c ∈ v, c ≠ ' ' ∧ c ≠ '\n') (hv3 : vocab (stripCR v) = none)
    (hw : PlainWord w) (hvw : vocab w = some L) :
    scanLoop kw kw.length vocab
        (directiveText [] n1 kw m1 v ('\n' :: directiveText [] n2 kw m2 w []))
        (fuel + 2) 0 =
      .ok (some ⟨L, 1 + n1 + kw.length + m1 + v.length + 1 + 1 + n2,
        1 + n1 + kw.length + m1 + v.length + 1 + 1 + n2 + kw.length + m2,
        1 + n1 + kw.length + m1 + v.length + 1 + 1 + n2 + kw.length + m2 + w.length⟩) := by
  obtain ⟨hw1, hw2, hw3⟩ := hw
  obtain ⟨v2, hsplit, hcr⟩ := stripCR_split v
  have hvlen : v.length = (stripCR v).length + v2.length := by
    conv_lhs => rw [hsplit]
    simp
  have hheadv : v.head? ≠ some ' ' := by
    obtain ⟨v0, vt, rfl⟩ := List.exists_cons_of_ne_nil hv1
    simp only [List.head?_cons, ne_eq, Option.some.injEq]
    exact (hv2 v0 (by simp)).1
  have hheadw : w.head? ≠ some ' ' := by
    obtain ⟨w0, wt, rfl⟩ := List.exists_cons_of_ne_nil hw1
    simp only [List.head?_cons, ne_eq, Option.some.injEq]
    exact (hw2 w0 (by simp)).1
  -- first iteration: the malformed directive
  have step1 := scanLoop_step kw vocab [] v ('\n' :: directiveText [] n2 kw m2 w []) n1 m1
    (fuel + 1) 0 hkw (by omega)
    (by
      intro j _ hj
      have := no_occurrence_in_region kw [] ('#' :: List.replicate n1 ' ')
        (kw ++ (List.replicate m1 ' ' ++ (v ++ '\n' :: directiveText [] n2 kw m2 w []))) hkw
        (by
          intro c hc
          simp only [List.mem_cons] at hc
          rcases hc with hc | hc
          · subst hc; exact hchars _ (by simp)
          · rw [List.eq_of_mem_replicate hc]; exact hchars _ (by simp))
        j (by simp) (by simp at hj ⊢; omega)
      simpa using this)
    hv1 hheadv (fun c hc => hv2 c (List.mem_of_mem_tail hc)) (by simp)
  rw [hv3] at step1
  simp only [List.length_nil, Nat.zero_add] at step1
  -- second iteration: the well-formed directive
  have hform : directiveText [] n1 kw m1 v ('\n' :: directiveText [] n2 kw m2 w []) =
      ('#' :: List.replicate n1 ' ' ++ kw ++ List.replicate m1 ' ' ++ v ++ ['\n']) ++
        '#' :: (List.replicate n2 ' ' ++ (kw ++ (List.replicate m2 ' ' ++ (w ++ [])))) := by
    simp [directiveText]
  have hform2 : directiveText [] n1 kw m1 v ('\n' :: directiveText [] n2 kw m2 w []) =
      ('#' :: List.replicate n1 ' ' ++ kw ++ List.replicate m1 ' ' ++ stripCR v) ++
        ((v2 ++ '\n' :: '#' :: List.replicate n2 ' ') ++
          (kw ++ (List.replicate m2 ' ' ++ (w ++ [])))) := by
    unfold directiveText
    conv_lhs => rw [hsplit]
    simp
  have hlenA : ('#' :: List.replicate n1 ' ' ++ kw ++ List.replicate m1 ' ' ++ v ++ ['\n']).length
      = 1 + n1 + kw.length + m1 + v.length + 1 := by
    simp; omega
  have step2 := scanLoop_step kw vocab
    ('#' :: List.replicate n1 ' ' ++ kw ++ List.replicate m1 ' ' ++ v ++ ['\n']) w [] n2 m2
    fuel (1 + n1 + kw.length + m1 + (stripCR v).length) hkw (by rw [hlenA]; omega)
    (by
      intro j hj1 hj2
      rw [← hform, hform2]
      apply no_occurrence_in_region _ _ _ _ hkw
      · intro c hc
        simp only [List.mem_append, List.mem_cons] at hc
        rcases hc with hc | hc | hc | hc
        · rw [hcr c hc]; exact hchars _ (by simp)
        · subst hc; exact hchars _ (by simp)
        · subst hc; exact hchars _ (by simp)
        · rw [List.eq_of_mem_replicate hc]; exact hchars _ (by simp)
      · simp; omega
      · rw [hlenA] at hj2
        simp
        omega)
    hw1 hheadw (fun c hc => hw2 c (List.mem_of_mem_tail hc)) (by simp)
  rw [← hform, stripCR_of_getLast hw3, hvw, hlenA] at step2
  have step1' : scanLoop kw kw.length vocab
      (directiveText [] n1 kw m1 v ('\n' :: directiveText [] n2 kw m2 w [])) (fuel + 2) 0 =
      scanLoop kw kw.length vocab
        (directiveText [] n1 kw m1 v ('\n' :: directiveText [] n2 kw m2 w [])) (fuel + 1)
        (1 + n1 + kw.length + m1 + (stripCR v).length) := step1
  rw [step1', step2]

/-- C3, as stated, fails in two ways. A value that is a vocabulary word followed by a carriage
return is not in the vocabulary, yet it is accepted: `# typed: true\r` before
`# typed: strict` gives `True`. And a missing value makes the token start at the newline and
run over the next line: `# typed:` before `#typed: strict` gives `None`. -/
theorem malformed_directive_not_skipped :
    (strictVocab "true\r".toList = Option.none ∧
      fileStrictSigil "# typed: true\r\n# typed: strict".toList = .ok StrictLevel.True) ∧
    fileStrictSigil "# typed:\n#typed: strict".toList = .ok StrictLevel.None := by
  decide

/-- C3 (amended: the value is not empty and is not a vocabulary word followed by a carriage
return). When the first line is `#`, spaces, `typed:`, spaces and a non-empty value `v` without
space or newline which, without its trailing carriage return if it has one, is not in the
strictness vocabulary, and the second line is `#`, spaces, `typed:`, spaces and a vocabulary
word `w`, `File::fileStrictSigil` returns the level of `w`. -/
theorem malformed_directive_skipped (n1 m1 n2 m2 : Nat) (v w : Text) (L : StrictLevel)
    (hv1 : v ≠ []) (hv2 : ∀ c ∈ v, c ≠ ' ' ∧ c ≠ '\n')
    (hv3 : strictVocab (stripCR v) = Option.none) (hw : (w, L) ∈ strictWords) :
    fileStrictSigil
      (directiveText [] n1 typedKw m1 v ('\n' :: directiveText [] n2 typedKw m2 w [])) =
        .ok L := by
  have hlen : (directiveText [] n1 typedKw m1 v
      ('\n' :: directiveText [] n2 typedKw m2 w [])).length + 1 =
      ((directiveText [] n1 typedKw m1 v
        ('\n' :: directiveText [] n2 typedKw m2 w [])).length - 1) + 2 := by
    simp only [directiveText_length, List.length_cons, List.length_nil]
    omega
  have h := scanLoop_skips typedKw strictVocab n1 m1 n2 m2 v w L
    ((directiveText [] n1 typedKw m1 v ('\n' :: directiveText [] n2 typedKw m2 w [])).length - 1)
    (by decide) (by decide) hv1 hv2 hv3 (strictWords_plain hw).1 (strictWords_plain hw).2
  rw [← hlen] at h
  exact fileStrictSigil_of_directive h

/-- Witness of C3: `# typed: bogus` followed by `# typed: strict` gives `Strict`. -/
theorem malformed_directive_skipped_witness :
    fileStrictSigil "# typed: bogus\n# typed: strict".toList = .ok StrictLevel.Strict :=
  malformed_directive_skipped 1 1 1 1 "bogus".toList "strict".toList StrictLevel.Strict
    (by decide) (by decide) (by decide) (by decide)

/-! ### Construction -/

theorem compiledDirective_total (s : Text) : ∃ r, compiledDirective s = .ok r :=
  scanLoop_total compiledKw 9 compiledVocab s (by decide) (by decide) s.length 0 (by omega)

theorem packagedDirective_total (s : Text) : ∃ r, packagedDirective s = .ok r :=
  scanLoop_total packagedKw 9 packagedVocab s (by decide) (by decide) s.length 0 (by omega)

theorem fileStrictSigil_total (s : Text) : ∃ l, fileStrictSigil s = .ok l := by
  obtain ⟨r, hr⟩ := strictDirective_total s
  cases r with
  | none =>
    exact ⟨StrictLevel.None, by simp only [fileStrictSigil, strictSigilInfo, hr, Outcome.bind]⟩
  | some d => exact ⟨_, fileStrictSigil_of_directive hr⟩

theorem fileCompiledSigil_total (s : Text) : ∃ l, fileCompiledSigil s = .ok l := by
  obtain ⟨r, hr⟩ := compiledDirective_total s
  cases r with
  | none => exact ⟨CompiledLevel.None, by simp only [fileCompiledSigil, hr]⟩
  | some d => exact ⟨d.level, by simp only [fileCompiledSigil, hr]⟩

theorem filePackagedSigil_total (s : Text) : ∃ l, filePackagedSigil s = .ok l := by
  obtain ⟨r, hr⟩ := packagedDirective_total s
  cases r with
  | none => exact ⟨PackagedLevel.None, by simp only [filePackagedSigil, hr]⟩
  | some d => exact ⟨d.level, by simp only [filePackagedSigil, hr]⟩

theorem File.new_ok (H : Header) (path source : Text) (t : FileType) (epoch : Nat) :
    ∃ packaged sigil compiled,
      filePackagedSigil source = .ok packaged ∧ fileStrictSigil source = .ok sigil ∧
      fileCompiledSigil source = .ok compiled ∧
      File.new H path source t epoch =
        .ok { epoch := epoch, sourceType := t, flags := Flags.new path,
              packagedLevel := packaged, path_ := path, source_ := source,
              originalSigil := sigil, strictLevel := sigil, compiledLevel := compiled,
              hash_ := Option.none, lineBreaks_ := Option.none,
              minErrorLevel_ := H.minErrorLevelInit } := by
  obtain ⟨pk, hpk⟩ := filePackagedSigil_total source
  obtain ⟨sg, hsg⟩ := fileStrictSigil_total source
  obtain ⟨cp, hcp⟩ := fileCompiledSigil_total source
  exact ⟨pk, sg, cp, hpk, hsg, hcp, by simp only [File.new, hpk, hsg, hcp, Outcome.bind]⟩

/-! ### Where a directive is accepted (C5) -/

theorem lineStart_le_of_take (s pre : Text) (n i : Nat)
    (h : s.take i = pre ++ '#' :: List.replicate n ' ') (hi : i = pre.length + 1 + n) :
    lineStart s i ≤ pre.length := by
  unfold lineStart
  rw [h]
  have hrev : (pre ++ '#' :: List.replicate n ' ').reverse =
      (List.replicate n ' ' ++ ['#']) ++ pre.reverse := by
    simp
  rw [hrev, List.takeWhile_append_of_pos]
  · simp only [List.length_append, List.length_replicate, List.length_singleton]
    omega
  · intro c hc
    simp only [List.mem_append, List.mem_singleton] at hc
    rcases hc with hc | hc
    · rw [List.eq_of_mem_replicate hc]; decide
    · rw [hc]; decide

theorem accepted_keyword {α : Type} {kw : Text} {vocab : Text → Option α} {s : Text}
    {d : Directive α} (h : Accepted kw vocab s d) :
    ∃ pre n, s.take d.kwPos = pre ++ '#' :: List.replicate n ' ' ∧ kw <+: s.drop d.kwPos ∧
      lineStart s d.kwPos ≤ pre.length := by
  obtain ⟨pre, n, m, h1, h2, h3, h4, h5, h6, h7⟩ := h
  have hs : s = (pre ++ '#' :: List.replicate n ' ') ++
      (kw ++ (List.replicate m ' ' ++ s.drop d.tokBegin)) := by
    conv_lhs => rw [← List.take_append_drop d.tokBegin s, h1]
    simp
  have hl : (pre ++ '#' :: List.replicate n ' ').length = d.kwPos := by
    simp; omega
  have htake : s.take d.kwPos = pre ++ '#' :: List.replicate n ' ' := by
    conv_lhs => rw [hs, ← hl]
    rw [List.take_left]
  refine ⟨pre, n, htake, ?_, lineStart_le_of_take s pre n d.kwPos htake h2⟩
  conv_rhs => rw [hs, ← hl]
  rw [List.drop_left]
  exact List.prefix_append _ _

theorem compiledDirective_sound {s : Text} {d : Directive CompiledLevel}
    (h : compiledDirective s = .ok (some d)) : Accepted compiledKw compiledVocab s d :=
  scanLoop_sound compiledKw compiledVocab s (by decide) (by decide) (s.length + 1) 0 d h

theorem packagedDirective_sound {s : Text} {d : Directive PackagedLevel}
    (h : packagedDirective s = .ok (some d)) : Accepted packagedKw packagedVocab s d :=
  scanLoop_sound packagedKw packagedVocab s (by decide) (by decide) (s.length + 1) 0 d h

theorem strictDirective_of_level {s : Text} {L : StrictLevel} (h : fileStrictSigil s = .ok L)
    (hL : L ≠ StrictLevel.None) : ∃ d, strictDirective s = .ok (some d) ∧ d.level = L := by
  obtain ⟨r, hr⟩ := strictDirective_total s
  cases r with
  | none =>
    simp only [fileStrictSigil, strictSigilInfo, hr, Outcome.bind, Outcome.ok.injEq] at h
    exact absurd h.symm hL
  | some d =>
    rw [fileStrictSigil_of_directive hr] at h
    exact ⟨d, hr, by injection h⟩

theorem compiledDirective_of_level {s : Text} {L : CompiledLevel}
    (h : fileCompiledSigil s = .ok L) (hL : L ≠ CompiledLevel.None) :
    ∃ d, compiledDirective s = .ok (some d) ∧ d.level = L := by
  obtain ⟨r, hr⟩ := compiledDirective_total s
  cases r with
  | none =>
    simp only [fileCompiledSigil, hr, Outcome.ok.injEq] at h
    exact absurd h.symm hL
  | some d =>
    simp only [fileCompiledSigil, hr, Outcome.ok.injEq] at h
    exact ⟨d, hr, h⟩

theorem packagedDirective_of_level {s : Text} {L : PackagedLevel}
    (h : filePackagedSigil s = .ok L) (hL : L ≠ PackagedLevel.None) :
    ∃ d, packagedDirective s = .ok (some d) ∧ d.level = L := by
  obtain ⟨r, hr⟩ := packagedDirective_total s
  cases r with
  | none =>
    simp only [filePackagedSigil, hr, Outcome.ok.injEq] at h
    exact absurd h.symm hL
  | some d =>
    simp only [filePackagedSigil, hr, Outcome.ok.injEq] at h
    exact ⟨d, hr, h⟩

/-- C5, as stated, fails: a directive in a comment that follows code on its line is accepted.
In `x # typed: true`, `x # compiled: true` and `x # packaged: true` the scanners accept the
keyword at offset 4 and return `True`, and the first character of that line that is not a
space is `x`. -/
theorem directive_after_code_accepted :
    (strictDirective "x # typed: true".toList = .ok (some ⟨StrictLevel.True, 4, 11, 15⟩) ∧
      fileStrictSigil "x # typed: true".toList = .ok StrictLevel.True ∧
      firstNonSpaceOfLine "x # typed: true".toList 4 = some 'x') ∧
    (compiledDirective "x # compiled: true".toList =
        .ok (some ⟨CompiledLevel.True, 4, 14, 18⟩) ∧
      fileCompiledSigil "x # compiled: true".toList = .ok CompiledLevel.True ∧
      firstNonSpaceOfLine "x # compiled: true".toList 4 = some 'x') ∧
    (packagedDirective "x # packaged: true".toList =
        .ok (some ⟨PackagedLevel.True, 4, 14, 18⟩) ∧
      filePackagedSigil "x # packaged: true".toList = .ok PackagedLevel.True ∧
      firstNonSpaceOfLine "x # packaged: true".toList 4 = some 'x') := by
  decide

/-- C5 (amended: the `#` precedes the keyword on its line, it need not begin the line). When a
scanner returns a level other than `None`, it has accepted an occurrence of its keyword at an
offset `p` such that the text before `p` ends with `#` followed by zero or more spaces; the line
that contains `p` begins at or before that `#`. -/
theorem directive_after_hash (s : Text) :
    (∀ L, fileStrictSigil s = .ok L → L ≠ StrictLevel.None →
      ∃ d pre n, strictDirective s = .ok (some d) ∧ d.level = L ∧
        typedKw <+: s.drop d.kwPos ∧ s.take d.kwPos = pre ++ '#' :: List.replicate n ' ' ∧
        lineStart s d.kwPos ≤ pre.length) ∧
    (∀ L, fileCompiledSigil s = .ok L → L ≠ CompiledLevel.None →
      ∃ d pre n, compiledDirective s = .ok (some d) ∧ d.level = L ∧
        compiledKw <+: s.drop d.kwPos ∧ s.take d.kwPos = pre ++ '#' :: List.replicate n ' ' ∧
        lineStart s d.kwPos ≤ pre.length) ∧
    (∀ L, filePackagedSigil s = .ok L → L ≠ PackagedLevel.None →
      ∃ d pre n, packagedDirective s = .ok (some d) ∧ d.level = L ∧
        packagedKw <+: s.drop d.kwPos ∧ s.take d.kwPos = pre ++ '#' :: List.replicate n ' ' ∧
        lineStart s d.kwPos ≤ pre.length) := by
  refine ⟨?_, ?_, ?_⟩
  · intro L h hL
    obtain ⟨d, hd, hl⟩ := strictDirective_of_level h hL
    obtain ⟨pre, n, h1, h2, h3⟩ := accepted_keyword (strictDirective_sound hd)
    exact ⟨d, pre, n, hd, hl, h2, h1, h3⟩
  · intro L h hL
    obtain ⟨d, hd, hl⟩ := compiledDirective_of_level h hL
    obtain ⟨pre, n, h1, h2, h3⟩ := accepted_keyword (compiledDirective_sound hd)
    exact ⟨d, pre, n, hd, hl, h2, h1, h3⟩
  · intro L h hL
    obtain ⟨d, hd, hl⟩ := packagedDirective_of_level h hL
    obtain ⟨pre, n, h1, h2, h3⟩ := accepted_keyword (packagedDirective_sound hd)
    exact ⟨d, pre, n, hd, hl, h2, h1, h3⟩

/-- Witness of C5 on the texts `a`, newline, `  # typed: strict`, and the like for the other
two keywords. -/
theorem directive_after_hash_witness :
    (fileStrictSigil "a\n  # typed: strict".toList = .ok StrictLevel.Strict ∧
      ∃ d pre n, strictDirective "a\n  # typed: strict".toList = .ok (some d) ∧
        d.level = StrictLevel.Strict ∧
        typedKw <+: ("a\n  # typed: strict".toList).drop d.kwPos ∧
        ("a\n  # typed: strict".toList).take d.kwPos = pre ++ '#' :: List.replicate n ' ' ∧
        lineStart "a\n  # typed: strict".toList d.kwPos ≤ pre.length) ∧
    (fileCompiledSigil "# compiled: true".toList = .ok CompiledLevel.True ∧
      ∃ d pre n, compiledDirective "# compiled: true".toList = .ok (some d) ∧
        d.level = CompiledLevel.True ∧
        compiledKw <+: ("# compiled: true".toList).drop d.kwPos ∧
        ("# compiled: true".toList).take d.kwPos = pre ++ '#' :: List.replicate n ' ' ∧
        lineStart "# compiled: true".toList d.kwPos ≤ pre.length) ∧
    (filePackagedSigil "# packaged: false".toList = .ok PackagedLevel.False ∧
      ∃ d pre n, packagedDirective "# packaged: false".toList = .ok (some d) ∧
        d.level = PackagedLevel.False ∧
        packagedKw <+: ("# packaged: false".toList).drop d.kwPos ∧
        ("# packaged: false".toList).take d.kwPos = pre ++ '#' :: List.replicate n ' ' ∧
        lineStart "# packaged: false".toList d.kwPos ≤ pre.length) :=
  ⟨⟨by decide, (directive_after_hash "a\n  # typed: strict".toList).1 StrictLevel.Strict
      (by decide) (by decide)⟩,
   ⟨by decide, (directive_after_hash "# compiled: true".toList).2.1 CompiledLevel.True
      (by decide) (by decide)⟩,
   ⟨by decide, (directive_after_hash "# packaged: false".toList).2.2 PackagedLevel.False
      (by decide) (by decide)⟩⟩

/-! ### Handle dereference (C6) and the content hash (C7) -/

theorem dataAllowingUnsafe_ok_iff (gs : GlobalState) (r : FileRef) (f : File) :
    r.dataAllowingUnsafe gs = .ok f ↔
      r._id < gs.filesUsed ∧ gs.files[r._id]? = some (some f) := by
  unfold FileRef.dataAllowingUnsafe ENFORCE
  by_cases hlt : r._id < gs.filesUsed
  · simp only [hlt, decide_True, if_true, true_and]
    cases hs : gs.files[r._id]? with
    | none => simp
    | some slot =>
      cases slot with
      | none => simp
      | some g => simp
  · simp [hlt]

theorem data_ok_iff (gs : GlobalState) (r : FileRef) (f : File) :
    r.data gs = .ok f ↔
      r._id < gs.filesUsed ∧ gs.files[r._id]? = some (some f) ∧
        f.sourceType ≠ FileType.TombStone ∧ f.sourceType ≠ FileType.NotYetRead := by
  unfold FileRef.data
  cases hs : gs.files[r._id]? with
  | none => simp
  | some slot =>
    have hlt : r._id < gs.filesUsed := by
      unfold GlobalState.filesUsed
      by_contra hge
      rw [List.getElem?_eq_none (by omega)] at hs
      simp at hs
    cases slot with
    | none => simp [ENFORCE]
    | some g =>
      have hu : r.dataAllowingUnsafe gs = .ok g :=
        (dataAllowingUnsafe_ok_iff gs r g).mpr ⟨hlt, hs⟩
      by_cases h1 : g.sourceType = FileType.TombStone
      · simp [ENFORCE, h1]
        rintro - rfl
        exact absurd h1
      · by_cases h2 : g.sourceType = FileType.NotYetRead
        · simp [ENFORCE, h1, h2]
          rintro - rfl -
          exact h2
        · simp only [ENFORCE, Option.isSome_some, if_true, bne_iff_ne, ne_eq, h1,
            not_false_eq_true, h2, hu, Outcome.ok.injEq, hlt, Option.some.injEq, true_and]
          constructor
          · rintro rfl; exact ⟨rfl, h1, h2⟩
          · rintro ⟨rfl, -, -⟩; rfl

/-- C6, as stated, fails on an empty slot: with one slot that holds no entity the handle 0 is
in bounds, and the unchecked dereference does not succeed, it dereferences the null pointer.
Besides, on an empty arena the checked dereference of handle 0 indexes `files` outside its
bounds before any check is made. -/
theorem dereference_empty_slot :
    (0 < (GlobalState.mk [Option.none]).filesUsed ∧
      (FileRef.mk 0).dataAllowingUnsafe (GlobalState.mk [Option.none]) =
        .fail Failure.outOfRange) ∧
    (¬ 0 < (GlobalState.mk []).filesUsed ∧
      (FileRef.mk 0).data (GlobalState.mk []) = .fail Failure.outOfRange) := by
  decide

/-- C6 (amended: the unchecked dereference needs a slot that holds an entity, and the checked
dereference of an out-of-bounds handle is left out). `FileRef::data` succeeds exactly when the
handle is in bounds, its slot holds an entity and that entity is neither `TombStone` nor
`NotYetRead`; it then returns the entity that `FileRef::dataAllowingUnsafe` returns, and for an
in-bounds handle whose slot is empty or holds a `TombStone` or `NotYetRead` entity it is a
contract failure. `dataAllowingUnsafe` succeeds exactly when
the handle is in bounds and its slot holds an entity, whatever the lifecycle state, and returns
the content of the slot; for an out-of-bounds handle it is a contract failure. -/
theorem fileRef_dereference (gs : GlobalState) (r : FileRef) :
    (∀ f, r.data gs = .ok f ↔
      r._id < gs.filesUsed ∧ gs.files[r._id]? = some (some f) ∧
        f.sourceType ≠ FileType.TombStone ∧ f.sourceType ≠ FileType.NotYetRead) ∧
    (∀ f, r.data gs = .ok f → r.dataAllowingUnsafe gs = .ok f) ∧
    (gs.files[r._id]? = some Option.none → r.data gs = .fail Failure.contract) ∧
    (∀ f, gs.files[r._id]? = some (some f) →
      f.sourceType = FileType.TombStone ∨ f.sourceType = FileType.NotYetRead →
      r.data gs = .fail Failure.contract) ∧
    (∀ f, r.dataAllowingUnsafe gs = .ok f ↔
      r._id < gs.filesUsed ∧ gs.files[r._id]? = some (some f)) ∧
    (¬ r._id < gs.filesUsed → r.dataAllowingUnsafe gs = .fail Failure.contract) := by
  refine ⟨data_ok_iff gs r, ?_, ?_, ?_, dataAllowingUnsafe_ok_iff gs r, ?_⟩
  · intro f hf
    obtain ⟨h1, h2, -, -⟩ := (data_ok_iff gs r f).mp hf
    exact (dataAllowingUnsafe_ok_iff gs r f).mpr ⟨h1, h2⟩
  · intro hs
    simp [FileRef.data, hs, ENFORCE]
  · intro f hs hst
    rcases hst with h1 | h2
    · simp [FileRef.data, hs, ENFORCE, h1]
    · by_cases h1 : f.sourceType = FileType.TombStone
      · simp [FileRef.data, hs, ENFORCE, h1]
      · simp [FileRef.data, hs, ENFORCE, h1, h2]
  · intro hge
    simp [FileRef.dataAllowingUnsafe, ENFORCE, hge]

/-- Witness of C6 on an arena with an empty slot, a tombstone and a normal file. -/
theorem fileRef_dereference_witness :
    (FileRef.mk 2).data
        (GlobalState.mk [Option.none, some (plainFile [] FileType.TombStone),
          some (plainFile [] FileType.Normal)]) = .ok (plainFile [] FileType.Normal) ∧
    (FileRef.mk 2).dataAllowingUnsafe
        (GlobalState.mk [Option.none, some (plainFile [] FileType.TombStone),
          some (plainFile [] FileType.Normal)]) = .ok (plainFile [] FileType.Normal) ∧
    (FileRef.mk 1).data
        (GlobalState.mk [Option.none, some (plainFile [] FileType.TombStone),
          some (plainFile [] FileType.Normal)]) = .fail Failure.contract ∧
    (FileRef.mk 1).dataAllowingUnsafe
        (GlobalState.mk [Option.none, some (plainFile [] FileType.TombStone),
          some (plainFile [] FileType.Normal)]) = .ok (plainFile [] FileType.TombStone) ∧
    (FileRef.mk 3).dataAllowingUnsafe
        (GlobalState.mk [Option.none, some (plainFile [] FileType.TombStone),
          some (plainFile [] FileType.Normal)]) = .fail Failure.contract :=
  ⟨((fileRef_dereference _ (FileRef.mk 2)).1 _).mpr (by decide),
   (fileRef_dereference _ (FileRef.mk 2)).2.1 _ (by decide),
   (fileRef_dereference _ (FileRef.mk 1)).2.2.2.1 (plainFile [] FileType.TombStone)
      (by decide) (by decide),
   ((fileRef_dereference _ (FileRef.mk 1)).2.2.2.2.1 _).mpr (by decide),
   (fileRef_dereference _ (FileRef.mk 3)).2.2.2.2.2 (by decide)⟩

/-- C7. On a file without hash, `setFileHash(H1)` with a non-null `H1` stores `H1` and clears
the cached flag; on a file that has a hash, `setFileHash` returns the file unchanged, so a
following `setFileHash(H2)` changes no field, also when the cached flag was set in between, and
`setFileHash(H1); setFileHash(H2)` is `setFileHash(H1)`. -/
theorem setFileHash_set_once (f : File) (H1 : FileHash) (H2 : Option FileHash)
    (hnone : f.hash_ = Option.none) :
    (f.setFileHash (some H1)).getFileHash = some H1 ∧
    (f.setFileHash (some H1)).cached = false ∧
    (f.setFileHash (some H1)).setFileHash H2 = f.setFileHash (some H1) ∧
    ((f.setFileHash (some H1)).setFileHash H2).getFileHash = some H1 ∧
    (∀ b, ((f.setFileHash (some H1)).setCached b).setFileHash H2 =
      (f.setFileHash (some H1)).setCached b) ∧
    (∀ g : File, g.hash_ ≠ Option.none → g.setFileHash H2 = g) := by
  have h1 : f.setFileHash (some H1) =
      { f with flags := { f.flags with cached := false }, hash_ := some H1 } := by
    simp [File.setFileHash, hnone]
  have hno : ∀ g : File, g.hash_ ≠ Option.none → g.setFileHash H2 = g := by
    intro g hg
    simp [File.setFileHash, hg]
  refine ⟨?_, ?_, ?_, ?_, ?_, hno⟩
  · rw [h1]; rfl
  · rw [h1]; rfl
  · exact hno _ (by rw [h1]; simp)
  · rw [hno _ (by rw [h1]; simp), h1]; rfl
  · intro b
    exact hno _ (by rw [h1]; simp [File.setCached])

/-- Witness of C7 on a file without hash whose cached flag is set. -/
theorem setFileHash_set_once_witness :
    ((plainFile [] FileType.Normal).setCached true).hash_ = Option.none ∧
    ((((plainFile [] FileType.Normal).setCached true).setFileHash (some ⟨1⟩)).setFileHash
      (some ⟨2⟩)).getFileHash = some ⟨1⟩ ∧
    ((((plainFile [] FileType.Normal).setCached true).setFileHash (some ⟨1⟩)).setFileHash
      (some ⟨2⟩)).cached = false :=
  ⟨by decide,
   (setFileHash_set_once ((plainFile [] FileType.Normal).setCached true) ⟨1⟩ (some ⟨2⟩)
      (by decide)).2.2.2.1,
   by
    rw [(setFileHash_set_once ((plainFile [] FileType.Normal).setCached true) ⟨1⟩ (some ⟨2⟩)
      (by decide)).2.2.1]
    exact (setFileHash_set_once ((plainFile [] FileType.Normal).setCached true) ⟨1⟩ (some ⟨2⟩)
      (by decide)).2.1⟩

/-! ### The line index and the reachable states -/

theorem lineBreaks_unreadable (H : Header) (f : File)
    (h : f.sourceType = FileType.TombStone ∨ f.sourceType = FileType.NotYetRead) :
    f.lineBreaks H = .fail Failure.contract := by
  unfold File.lineBreaks File.lineBreaksAux ENFORCE
  rcases h with h | h
  · simp [h]
  · by_cases h1 : f.sourceType = FileType.TombStone
    · simp [h1]
    · simp [h1, h]

theorem lineBreaks_published (H : Header) (f : File) (hr : f.Readable) (v : List Int)
    (hv : f.lineBreaks_ = some v) : f.lineBreaks H = .ok (f, v) := by
  unfold File.lineBreaks File.lineBreaksAux ENFORCE
  simp [hr.1, hr.2, hv]

theorem lineBreaks_fresh (H : Header) (f : File) (hr : f.Readable)
    (hv : f.lineBreaks_ = Option.none) :
    f.lineBreaks H =
      .ok ({ f with lineBreaks_ := some (H.findLineBreaks f.source_) },
        H.findLineBreaks f.source_) := by
  unfold File.lineBreaks
  rw [File.lineBreaksAux]
  simp only [ENFORCE, bne_iff_ne, ne_eq, hr.1, not_false_eq_true, if_true, hr.2, hv]
  rw [File.lineBreaksAux]
  simp [ENFORCE, hr.1, hr.2]

theorem lineBreaks_ok {H : Header} {f g : File} {v : List Int}
    (h : f.lineBreaks H = .ok (g, v)) :
    f.Readable ∧ g = { f with lineBreaks_ := some v } ∧
      (f.lineBreaks_ = some v ∨
        (f.lineBreaks_ = Option.none ∧ v = H.findLineBreaks f.source_)) := by
  by_cases hr : f.Readable
  · cases hv : f.lineBreaks_ with
    | none =>
      rw [lineBreaks_fresh H f hr hv] at h
      simp only [Outcome.ok.injEq, Prod.mk.injEq] at h
      obtain ⟨h1, h2⟩ := h
      subst h2
      exact ⟨hr, h1.symm, Or.inr ⟨rfl, rfl⟩⟩
    | some w =>
      rw [lineBreaks_published H f hr w hv] at h
      simp only [Outcome.ok.injEq, Prod.mk.injEq] at h
      obtain ⟨h1, h2⟩ := h
      subst h1 h2
      refine ⟨hr, ?_, Or.inl rfl⟩
      cases f
      simp only at hv
      simp [hv]
  · have : f.sourceType = FileType.TombStone ∨ f.sourceType = FileType.NotYetRead := by
      unfold File.Readable at hr
      by_contra hcon
      push_neg at hcon
      exact hr hcon
    rw [lineBreaks_unreadable H f this] at h
    cases h

theorem lineCount_ok {H : Header} {f g : File} {n : Int} (h : f.lineCount H = .ok (g, n)) :
    ∃ v, f.lineBreaks H = .ok (g, v) := by
  unfold File.lineCount at h
  cases hl : f.lineBreaks H with
  | fail e => rw [hl] at h; cases h
  | ok r =>
    rw [hl] at h
    simp only [Outcome.bind, Outcome.ok.injEq, Prod.mk.injEq] at h
    exact ⟨r.2, by rw [← h.1]⟩

theorem getLine_ok {H : Header} {f g : File} {i : Int} {line : Text}
    (h : f.getLine H i = .ok (g, line)) : ∃ v, f.lineBreaks H = .ok (g, v) := by
  unfold File.getLine at h
  cases hl : f.lineBreaks H with
  | fail e => rw [hl] at h; cases h
  | ok r =>
    rw [hl] at h
    simp only [Outcome.bind, ENFORCE] at h
    refine ⟨r.2, ?_⟩
    split at h
    · split at h
      · split at h
        · rename_i a b _ _
          cases hs : r.1.source with
          | fail e => rw [hs] at h; cases h
          | ok src =>
            rw [hs] at h
            simp only at h
            cases hc : substrChecked src (toSizeT (a + 1)) (toSizeT (b - (a + 1))) with
            | fail e => rw [hc] at h; cases h
            | ok ln =>
              rw [hc] at h
              simp only [Outcome.ok.injEq, Prod.mk.injEq] at h
              rw [← h.1]
        · cases h
      · cases h
    · cases h

theorem deepCopy_eq (H : Header) (gs : GlobalState) (f : File) :
    ∃ packaged sigil compiled,
      filePackagedSigil f.source_ = .ok packaged ∧ fileStrictSigil f.source_ = .ok sigil ∧
      fileCompiledSigil f.source_ = .ok compiled ∧
      f.deepCopy H gs =
        .ok { epoch := f.epoch, sourceType := f.sourceType, flags := Flags.new f.path_,
              packagedLevel := packaged, path_ := f.path_, source_ := f.source_,
              originalSigil := sigil, strictLevel := f.strictLevel, compiledLevel := compiled,
              hash_ := Option.none, lineBreaks_ := f.lineBreaks_,
              minErrorLevel_ := f.minErrorLevel_ } := by
  obtain ⟨pk, sg, cp, hpk, hsg, hcp, hnew⟩ := File.new_ok H f.path_ f.source_ f.sourceType f.epoch
  exact ⟨pk, sg, cp, hpk, hsg, hcp, by simp only [File.deepCopy, hnew, Outcome.bind]⟩

theorem reachable_inv {H : Header} {f : File} (h : File.Reachable H f) :
    filePackagedSigil f.source_ = .ok f.packagedLevel ∧
    fileStrictSigil f.source_ = .ok f.originalSigil ∧
    fileCompiledSigil f.source_ = .ok f.compiledLevel ∧
    (f.lineBreaks_ = Option.none ∨ f.lineBreaks_ = some (H.findLineBreaks f.source_)) := by
  have hlb : ∀ {f g : File} {v : List Int}, f.lineBreaks H = .ok (g, v) →
      (filePackagedSigil f.source_ = .ok f.packagedLevel ∧
        fileStrictSigil f.source_ = .ok f.originalSigil ∧
        fileCompiledSigil f.source_ = .ok f.compiledLevel ∧
        (f.lineBreaks_ = Option.none ∨ f.lineBreaks_ = some (H.findLineBreaks f.source_))) →
      (filePackagedSigil g.source_ = .ok g.packagedLevel ∧
        fileStrictSigil g.source_ = .ok g.originalSigil ∧
        fileCompiledSigil g.source_ = .ok g.compiledLevel ∧
        (g.lineBreaks_ = Option.none ∨ g.lineBreaks_ = some (H.findLineBreaks g.source_))) := by
    intro f g v hl ih
    obtain ⟨-, hg, hv⟩ := lineBreaks_ok hl
    subst hg
    refine ⟨ih.1, ih.2.1, ih.2.2.1, Or.inr ?_⟩
    rcases hv with hv | ⟨-, hv⟩
    · rcases ih.2.2.2 with h0 | h0
      · rw [h0] at hv; cases hv
      · rw [h0] at hv; simp only [Option.some.injEq] at hv; rw [← hv]
    · rw [hv]
  induction h with
  | @construct path source t epoch f hnew =>
    obtain ⟨pk, sg, cp, hpk, hsg, hcp, hnew'⟩ := File.new_ok H path source t epoch
    rw [hnew'] at hnew
    simp only [Outcome.ok.injEq] at hnew
    subst hnew
    exact ⟨hpk, hsg, hcp, Or.inl rfl⟩
  | @setFileHash f hash _ ih =>
    unfold File.setFileHash
    split
    · exact ih
    · exact ih
  | setIsPackage b _ ih => exact ih
  | setIsOpenInClient b _ ih => exact ih
  | setHasParseErrors b _ ih => exact ih
  | setCached b _ ih => exact ih
  | overrideStrictLevel l _ ih => exact ih
  | raiseMinErrorLevel l _ ih => exact ih
  | lineBreaks _ hl ih => exact hlb hl ih
  | lineCount _ hl ih =>
    obtain ⟨v, hv⟩ := lineCount_ok hl
    exact hlb hv ih
  | getLine _ hl ih =>
    obtain ⟨v, hv⟩ := getLine_ok hl
    exact hlb hv ih
  | @deepCopy f g gs _ hc ih =>
    obtain ⟨pk, sg, cp, hpk, hsg, hcp, hcopy⟩ := deepCopy_eq H gs f
    rw [hcopy] at hc
    simp only [Outcome.ok.injEq] at hc
    subst hc
    exact ⟨hpk, hsg, hcp, ih.2.2.2⟩

/-! ### Deep copy (C8) and memoization of the line index (C9) -/

/-- C8. For a file `E` in any reachable state, `deepCopy(E)` succeeds with a file that has the
path, source text, lifecycle state, `originalSigil`, current `strictLevel`, `compiledLevel` and
`packagedLevel` of `E`, the line index and `minErrorLevel` of `E`, and no hash, also when `E`
has one. The copy is a file of its own, which no operation on `E` takes as argument or
returns: it takes whatever hash is attached to it, and it is the same file whether or not a
hash was attached to `E`. -/
theorem deepCopy_fields (H : Header) (gs : GlobalState) (E : File)
    (hE : File.Reachable H E) :
    ∃ c, E.deepCopy H gs = .ok c ∧
      c.path = E.path ∧ c.source_ = E.source_ ∧ c.sourceType = E.sourceType ∧
      c.originalSigil = E.originalSigil ∧ c.strictLevel = E.strictLevel ∧
      c.compiledLevel = E.compiledLevel ∧ c.packagedLevel = E.packagedLevel ∧
      c.lineBreaks_ = E.lineBreaks_ ∧ c.minErrorLevel = E.minErrorLevel ∧
      c.getFileHash = Option.none ∧
      (∀ h, (c.setFileHash h).getFileHash = h) ∧
      (∀ h, (E.setFileHash h).deepCopy H gs = .ok c) := by
  obtain ⟨hpk, hsg, hcp, -⟩ := reachable_inv hE
  obtain ⟨pk, sg, cp, hpk', hsg', hcp', hcopy⟩ := deepCopy_eq H gs E
  rw [hpk] at hpk'
  rw [hsg] at hsg'
  rw [hcp] at hcp'
  simp only [Outcome.ok.injEq] at hpk' hsg' hcp'
  subst hpk' hsg' hcp'
  refine ⟨_, hcopy, rfl, rfl, rfl, rfl, rfl, rfl, rfl, rfl, rfl, rfl, ?_, ?_⟩
  · intro h
    simp [File.setFileHash, File.getFileHash]
  · intro h
    rw [← hcopy]
    unfold File.deepCopy File.setFileHash
    split <;> rfl

/-- Witness of C8: the copy of the file built from the text `x`, after its strictness level was
overridden and a hash attached. -/
theorem deepCopy_fields_witness :
    File.new specHeader "a.rb".toList "x".toList FileType.Normal 0 =
      .ok (plainFile "x".toList FileType.Normal) ∧
    ∃ c, (({ plainFile "x".toList FileType.Normal with
          strictLevel := StrictLevel.Strict } : File).setFileHash
          (some ⟨7⟩)).deepCopy specHeader (GlobalState.mk []) = .ok c ∧
        c.strictLevel = StrictLevel.Strict ∧ c.originalSigil = StrictLevel.None ∧
        c.getFileHash = Option.none := by
  have hnew : File.new specHeader "a.rb".toList "x".toList FileType.Normal 0 =
      .ok (plainFile "x".toList FileType.Normal) := by decide
  refine ⟨hnew, ?_⟩
  obtain ⟨c, h1, -, -, -, h5, h6, -, -, -, -, h11, -, -⟩ :=
    deepCopy_fields specHeader (GlobalState.mk [])
      (({ plainFile "x".toList FileType.Normal with
          strictLevel := StrictLevel.Strict } : File).setFileHash (some ⟨7⟩))
      (File.Reachable.setFileHash (some ⟨7⟩)
        (File.Reachable.overrideStrictLevel StrictLevel.Strict (File.Reachable.construct hnew)))
  exact ⟨c, h1, h6, h5, h11⟩

/-- C9. In every reachable state of a file the published line index is absent or is
`findLineBreaks(source)`. On a readable file `lineBreaks()` returns `findLineBreaks(source)`;
the file after the call holds that value as its published index, it is the file before the
call when an index was already published, and a second call returns the same index and leaves
the file as it is. -/
theorem lineBreaks_memoized (H : Header) (f : File) (hf : File.Reachable H f) :
    (f.lineBreaks_ = Option.none ∨ f.lineBreaks_ = some (H.findLineBreaks f.source_)) ∧
    (f.Readable →
      ∃ g, f.lineBreaks H = .ok (g, H.findLineBreaks f.source_) ∧
        g = { f with lineBreaks_ := some (H.findLineBreaks f.source_) } ∧
        (f.lineBreaks_ ≠ Option.none → g = f) ∧
        g.lineBreaks H = .ok (g, H.findLineBreaks f.source_)) := by
  obtain ⟨-, -, -, hinv⟩ := reachable_inv hf
  refine ⟨hinv, ?_⟩
  intro hr
  rcases hinv with h0 | h0
  · refine ⟨_, lineBreaks_fresh H f hr h0, rfl, ?_, ?_⟩
    · intro hne; exact absurd h0 hne
    · exact lineBreaks_published H
        { f with lineBreaks_ := some (H.findLineBreaks f.source_) } hr _ rfl
  · have hsame : ({ f with lineBreaks_ := some (H.findLineBreaks f.source_) } : File) = f := by
      cases f
      simp only at h0
      simp [h0]
    refine ⟨_, ?_, rfl, fun _ => hsame, ?_⟩
    · rw [hsame]; exact lineBreaks_published H f hr _ h0
    · rw [hsame]; exact lineBreaks_published H f hr _ h0

/-- Witness of C9 on the file built from the text `a`, newline, `b`. -/
theorem lineBreaks_memoized_witness :
    File.new specHeader "a.rb".toList "a\nb".toList FileType.Normal 0 =
      .ok (plainFile "a\nb".toList FileType.Normal) ∧
    (plainFile "a\nb".toList FileType.Normal).Readable ∧
    ∃ g, (plainFile "a\nb".toList FileType.Normal).lineBreaks specHeader = .ok (g, [-1, 1]) ∧
      g = { plainFile "a\nb".toList FileType.Normal with lineBreaks_ := some [-1, 1] } ∧
      ((plainFile "a\nb".toList FileType.Normal).lineBreaks_ ≠ Option.none →
        g = plainFile "a\nb".toList FileType.Normal) ∧
      g.lineBreaks specHeader = .ok (g, [-1, 1]) :=
  ⟨by decide, by decide,
    (lineBreaks_memoized specHeader (plainFile "a\nb".toList FileType.Normal)
      (File.Reachable.construct
        (by decide : File.new specHeader "a.rb".toList "a\nb".toList FileType.Normal 0 =
          .ok (plainFile "a\nb".toList FileType.Normal)))).2 (by decide)⟩

/-! ### Line count and lines (C10) -/

theorem toSizeT_of_nonneg {x : Int} (h0 : 0 ≤ x) (h1 : x < 2 ^ 31) : toSizeT x = x.toNat := by
  unfold toSizeT
  rw [Int.emod_eq_of_lt h0 (by omega)]

theorem lineCount_eq {H : Header} {f g : File} {v : List Int}
    (h : f.lineBreaks H = .ok (g, v)) :
    f.lineCount H = .ok (g, toInt32 ((v.length + (2 ^ 64 - 1)) % 2 ^ 64)) := by
  simp only [File.lineCount, h, Outcome.bind]

theorem toInt32_pred (n : Nat) (h : n ≤ 2 ^ 31) :
    toInt32 ((n + (2 ^ 64 - 1)) % 2 ^ 64) = (n : Int) - 1 := by
  unfold toInt32
  norm_num at h ⊢
  split <;> omega

theorem newlineOffsets_replicate (N : Nat) : ∀ k, (newlineOffsets (List.replicate N '\n') k).length = N := by
  induction N with
  | zero => intro k; rfl
  | succ N ih =>
    intro k
    rw [List.replicate_succ, newlineOffsets]
    simp [ih]

theorem newlineOffsets_bounds : ∀ (t : Text) (k : Nat),
    (newlineOffsets t k).Pairwise (fun a b => a < b) ∧
      ∀ o ∈ newlineOffsets t k, (k : Int) ≤ o ∧ o < (k : Int) + t.length
  | [], k => by simp [newlineOffsets]
  | c :: cs, k => by
    obtain ⟨h1, h2⟩ := newlineOffsets_bounds cs (k + 1)
    have h3 : ∀ o ∈ newlineOffsets cs (k + 1), (k : Int) < o ∧ o < (k : Int) + (c :: cs).length := by
      intro o ho
      have := h2 o ho
      simp only [List.length_cons]
      push_cast at this ⊢
      omega
    rw [newlineOffsets]
    split
    · refine ⟨List.pairwise_cons.mpr ⟨fun o ho => (h3 o ho).1, h1⟩, ?_⟩
      intro o ho
      rcases List.mem_cons.mp ho with rfl | ho
      · simp only [List.length_cons]; push_cast; omega
      · have := h3 o ho; omega
    · exact ⟨h1, fun o ho => by have := h3 o ho; omega⟩

theorem isLineIndex_findLineBreaksSpec (t : Text) (ht : t.length < 2 ^ 31) :
    IsLineIndex t (findLineBreaksSpec t) := by
  obtain ⟨h1, h2⟩ := newlineOffsets_bounds t 0
  unfold IsLineIndex findLineBreaksSpec
  refine ⟨List.pairwise_cons.mpr ⟨fun o ho => by have := h2 o ho; omega, h1⟩, ?_⟩
  intro o ho
  rcases List.mem_cons.mp ho with rfl | ho
  · refine ⟨le_refl _, by omega, by norm_num⟩
  · have := h2 o ho
    have ht' : (t.length : Int) < 2 ^ 31 := by exact_mod_cast ht
    omega

theorem getLine_in_range (H : Header) (f g : File) (offsets : List Int)
    (hlb : f.lineBreaks H = .ok (g, offsets)) (hidx : IsLineIndex f.source_ offsets) (i : Int)
    (h1 : 1 ≤ i) (h2 : i ≤ (offsets.length : Int) - 1) (h3 : i < 2 ^ 31) :
    ∃ a b, offsets[(i - 1).toNat]? = some a ∧ offsets[i.toNat]? = some b ∧
      f.getLine H i = .ok (g, slice f.source_ (a + 1) b) := by
  obtain ⟨hr, hg, -⟩ := lineBreaks_ok hlb
  obtain ⟨hsorted, hbound⟩ := hidx
  have hi : i.toNat < offsets.length := by omega
  have hi' : (i - 1).toNat < offsets.length := by omega
  have hab : offsets[(i - 1).toNat] < offsets[i.toNat] :=
    List.pairwise_iff_getElem.mp hsorted _ _ hi' hi (by omega)
  obtain ⟨ha1, ha2, ha3⟩ := hbound _ (List.getElem_mem hi')
  obtain ⟨hb1, hb2, hb3⟩ := hbound _ (List.getElem_mem hi)
  refine ⟨offsets[(i - 1).toNat], offsets[i.toNat], List.getElem?_eq_getElem hi',
    List.getElem?_eq_getElem hi, ?_⟩
  have hsrc : g.source = .ok f.source_ := by
    subst hg
    simp [File.source, ENFORCE, hr.1, hr.2]
  have e1 : toSizeT i = i.toNat := toSizeT_of_nonneg (by omega) h3
  have e2 : toSizeT (i - 1) = (i - 1).toNat := toSizeT_of_nonneg (by omega) (by omega)
  have e3 : toSizeT (offsets[(i - 1).toNat] + 1) = (offsets[(i - 1).toNat] + 1).toNat :=
    toSizeT_of_nonneg (by omega) (by omega)
  have e4 : toSizeT (offsets[i.toNat] - (offsets[(i - 1).toNat] + 1)) =
      (offsets[i.toNat] - (offsets[(i - 1).toNat] + 1)).toNat :=
    toSizeT_of_nonneg (by omega) (by omega)
  have hpos : (offsets[(i - 1).toNat] + 1).toNat ≤ f.source_.length := by omega
  simp only [File.getLine, hlb, Outcome.bind, ENFORCE, e1, e2, hi, decide_True, if_true,
    show i > 0 from by omega, List.getElem?_eq_getElem hi', List.getElem?_eq_getElem hi, hsrc,
    e3, e4, substrChecked, hpos, slice, substr]

theorem getLine_out_of_range (H : Header) (f g : File) (offsets : List Int)
    (hlb : f.lineBreaks H = .ok (g, offsets)) (i : Int) (h3 : i < 2 ^ 31)
    (h : i ≤ 0 ∨ i > (offsets.length : Int) - 1) :
    f.getLine H i = .fail Failure.contract := by
  simp only [File.getLine, hlb, Outcome.bind, ENFORCE]
  by_cases hpos : i > 0
  · have e1 : toSizeT i = i.toNat := toSizeT_of_nonneg (by omega) h3
    have : ¬ i.toNat < offsets.length := by omega
    simp [e1, this]
  · by_cases hlt : toSizeT i < offsets.length
    · simp [hlt, hpos]
    · simp [hlt]

/-- C10, as stated, fails when the line index has more than `2 ^ 31` entries: for the file whose
text is `2 ^ 31` newlines, with the line index the specification describes, the index has
`2 ^ 31 + 1` entries and `lineCount()`, which narrows `size() - 1` to `int`, is `-2 ^ 31`. -/
theorem lineCount_wraps :
    (plainFile manyNewlines FileType.Normal).lineBreaks specHeader =
      .ok ({ plainFile manyNewlines FileType.Normal with
              lineBreaks_ := some (findLineBreaksSpec manyNewlines) },
        findLineBreaksSpec manyNewlines) ∧
    ((findLineBreaksSpec manyNewlines).length : Int) - 1 = 2 ^ 31 ∧
    (plainFile manyNewlines FileType.Normal).lineCount specHeader =
      .ok ({ plainFile manyNewlines FileType.Normal with
              lineBreaks_ := some (findLineBreaksSpec manyNewlines) }, -2 ^ 31) := by
  have hlb : (plainFile manyNewlines FileType.Normal).lineBreaks specHeader =
      .ok ({ plainFile manyNewlines FileType.Normal with
              lineBreaks_ := some (findLineBreaksSpec manyNewlines) },
        findLineBreaksSpec manyNewlines) :=
    lineBreaks_fresh specHeader (plainFile manyNewlines FileType.Normal)
      (by decide) rfl
  have hlen : (findLineBreaksSpec manyNewlines).length = 2 ^ 31 + 1 := by
    unfold findLineBreaksSpec manyNewlines
    rw [List.length_cons, newlineOffsets_replicate]
  refine ⟨hlb, ?_, ?_⟩
  · rw [hlen]; norm_num
  · rw [lineCount_eq hlb, hlen]
    have : toInt32 ((2 ^ 31 + 1 + (2 ^ 64 - 1)) % 2 ^ 64) = -2 ^ 31 := by
      unfold toInt32
      norm_num
    rw [this]

/-- C10 (amended: a line index of at most `2 ^ 31` entries for `lineCount`, an ordered index of
offsets into the text for `getLine`). Let `offsets` be what `lineBreaks()` returns on a
readable file with text `t`. If `offsets` has at most `2 ^ 31` entries, `lineCount()` is
`length(offsets) - 1`. If `offsets` is an ordered sequence of `int` offsets from `-1` to `|t|`,
then for every `int` `i` with `1 ≤ i ≤ length(offsets) - 1`, `getLine(i)` returns
`t[offsets[i-1]+1 .. offsets[i])`; the line index that the specification describes is such a
sequence when `t` is shorter than `2 ^ 31` bytes. For every `int` `i` with `i ≤ 0` or
`i > length(offsets) - 1`, `getLine(i)` is a contract failure. -/
theorem lineCount_getLine (H : Header) (f g : File) (offsets : List Int)
    (hlb : f.lineBreaks H = .ok (g, offsets)) :
    (offsets.length ≤ 2 ^ 31 → f.lineCount H = .ok (g, (offsets.length : Int) - 1)) ∧
    (IsLineIndex f.source_ offsets → ∀ i : Int, 1 ≤ i → i ≤ (offsets.length : Int) - 1 →
      i < 2 ^ 31 →
      ∃ a b, offsets[(i - 1).toNat]? = some a ∧ offsets[i.toNat]? = some b ∧
        f.getLine H i = .ok (g, slice f.source_ (a + 1) b)) ∧
    (f.source_.length < 2 ^ 31 → IsLineIndex f.source_ (findLineBreaksSpec f.source_)) ∧
    (∀ i : Int, i < 2 ^ 31 → (i ≤ 0 ∨ i > (offsets.length : Int) - 1) →
      f.getLine H i = .fail Failure.contract) := by
  refine ⟨?_, ?_, isLineIndex_findLineBreaksSpec f.source_, ?_⟩
  · intro hlen
    rw [lineCount_eq hlb, toInt32_pred _ hlen]
  · intro hidx i h1 h2 h3
    exact getLine_in_range H f g offsets hlb hidx i h1 h2 h3
  · intro i h3 h
    exact getLine_out_of_range H f g offsets hlb i h3 h

/-- Witness of C10 on the text `ab`, newline, `cd`, newline, whose line index is `-1, 2, 5`. -/
theorem lineCount_getLine_witness :
    (plainFile "ab\ncd\n".toList FileType.Normal).lineBreaks specHeader =
      .ok ({ plainFile "ab\ncd\n".toList FileType.Normal with lineBreaks_ := some [-1, 2, 5] },
        [-1, 2, 5]) ∧
    (plainFile "ab\ncd\n".toList FileType.Normal).lineCount specHeader =
      .ok ({ plainFile "ab\ncd\n".toList FileType.Normal with lineBreaks_ := some [-1, 2, 5] },
        2) ∧
    (∃ a b, [-1, 2, (5 : Int)][((2 : Int) - 1).toNat]? = some a ∧
        [-1, 2, (5 : Int)][(2 : Int).toNat]? = some b ∧
        (plainFile "ab\ncd\n".toList FileType.Normal).getLine specHeader 2 =
          .ok ({ plainFile "ab\ncd\n".toList FileType.Normal with
                  lineBreaks_ := some [-1, 2, 5] },
            slice "ab\ncd\n".toList (a + 1) b)) ∧
    (plainFile "ab\ncd\n".toList FileType.Normal).getLine specHeader 3 =
      .fail Failure.contract :=
  ⟨by decide,
   (lineCount_getLine specHeader (plainFile "ab\ncd\n".toList FileType.Normal)
      { plainFile "ab\ncd\n".toList FileType.Normal with lineBreaks_ := some [-1, 2, 5] }
      [-1, 2, 5]
      (by decide)).1 (by decide),
   (lineCount_getLine specHeader (plainFile "ab\ncd\n".toList FileType.Normal)
      { plainFile "ab\ncd\n".toList FileType.Normal with lineBreaks_ := some [-1, 2, 5] }
      [-1, 2, 5]
      (by decide)).2.1 (by decide) 2 (by decide) (by decide) (by decide),
   (lineCount_getLine specHeader (plainFile "ab\ncd\n".toList FileType.Normal)
      { plainFile "ab\ncd\n".toList FileType.Normal with lineBreaks_ := some [-1, 2, 5] }
      [-1, 2, 5]
      (by decide)).2.2.2 3 (by decide) (by decide)⟩

/-! ### Packaging (C4) -/

/-- C4. The file built from a source text `s` has `isPackaged()` false exactly when
`File::filePackagedSigil(s)` is `PackagedLevel::False`, and true when it is `None` or `True`;
this stays so in every state the file reaches afterwards. The files built from the empty text
and from `# packaged: true` are packaged, the file built from `# packaged: false` is not. -/
theorem isPackaged_unless_false (H : Header) (path s : Text) (t : FileType) (epoch : Nat) :
    (∃ f lvl, File.new H path s t epoch = .ok f ∧ filePackagedSigil s = .ok lvl ∧
      (f.isPackaged = false ↔ lvl = PackagedLevel.False) ∧
      (f.isPackaged = true ↔ lvl = PackagedLevel.None ∨ lvl = PackagedLevel.True)) ∧
    (∀ f, File.Reachable H f →
      (f.isPackaged = false ↔ filePackagedSigil f.source_ = .ok PackagedLevel.False) ∧
      (f.isPackaged = true ↔ filePackagedSigil f.source_ = .ok PackagedLevel.None ∨
        filePackagedSigil f.source_ = .ok PackagedLevel.True)) ∧
    (∃ f, File.new H path "".toList t epoch = .ok f ∧ f.isPackaged = true) ∧
    (∃ f, File.new H path "# packaged: true".toList t epoch = .ok f ∧ f.isPackaged = true) ∧
    (∃ f, File.new H path "# packaged: false".toList t epoch = .ok f ∧
      f.isPackaged = false) := by
  have key : ∀ src : Text, ∃ f lvl, File.new H path src t epoch = .ok f ∧
      filePackagedSigil src = .ok lvl ∧ f.packagedLevel = lvl := by
    intro src
    obtain ⟨pk, sg, cp, hpk, -, -, hnew⟩ := File.new_ok H path src t epoch
    exact ⟨_, pk, hnew, hpk, rfl⟩
  refine ⟨?_, ?_, ?_, ?_, ?_⟩
  · obtain ⟨f, lvl, hf, hl, hp⟩ := key s
    refine ⟨f, lvl, hf, hl, ?_, ?_⟩ <;>
      cases lvl <;> simp [File.isPackaged, hp]
  · intro f hf
    obtain ⟨hpk, -, -, -⟩ := reachable_inv hf
    rw [hpk]
    generalize hl : f.packagedLevel = lvl
    constructor <;> cases lvl <;> simp [File.isPackaged, hl]
  · obtain ⟨f, lvl, hf, hl, hp⟩ := key "".toList
    have : lvl = PackagedLevel.None := by
      have h2 : filePackagedSigil "".toList = .ok PackagedLevel.None := by decide
      rw [h2] at hl; injection hl with hl; exact hl.symm
    exact ⟨f, hf, by simp [File.isPackaged, hp, this]⟩
  · obtain ⟨f, lvl, hf, hl, hp⟩ := key "# packaged: true".toList
    have : lvl = PackagedLevel.True := by
      have h2 : filePackagedSigil "# packaged: true".toList = .ok PackagedLevel.True := by decide
      rw [h2] at hl; injection hl with hl; exact hl.symm
    exact ⟨f, hf, by simp [File.isPackaged, hp, this]⟩
  · obtain ⟨f, lvl, hf, hl, hp⟩ := key "# packaged: false".toList
    have : lvl = PackagedLevel.False := by
      have h2 : filePackagedSigil "# packaged: false".toList = .ok PackagedLevel.False := by
        decide
      rw [h2] at hl; injection hl with hl; exact hl.symm
    exact ⟨f, hf, by simp [File.isPackaged, hp, this]⟩

/-- Witness of C4: the file built from `# packaged: false`, after a hash was attached to it, is
not packaged. -/
theorem isPackaged_unless_false_witness :
    File.new specHeader "a.rb".toList "# packaged: false".toList FileType.Normal 0 =
      .ok { plainFile "# packaged: false".toList FileType.Normal with
              packagedLevel := PackagedLevel.False } ∧
    (({ plainFile "# packaged: false".toList FileType.Normal with
          packagedLevel := PackagedLevel.False } : File).setFileHash (some ⟨3⟩)).isPackaged =
      false :=
  ⟨by decide,
   (((isPackaged_unless_false specHeader [] [] FileType.Normal 0).2.1 _
      (File.Reachable.setFileHash (some ⟨3⟩)
        (File.Reachable.construct
          (by decide : File.new specHeader "a.rb".toList "# packaged: false".toList
            FileType.Normal 0 =
              .ok { plainFile "# packaged: false".toList FileType.Normal with
                      packagedLevel := PackagedLevel.False })))).1).mpr (by decide)⟩

/-! ### The first line (C11) -/

theorem firstLineEnd_le (t : Text) : firstLineEnd t ≤ t.length :=
  (List.takeWhile_prefix (fun c => c != '\n')).length_le

theorem rfindFrom_some {s kw : Text} : ∀ (n i : Nat), rfindFrom s kw n = some i →
    i ≤ n ∧ kw <+: s.drop i ∧ ∀ j, i < j → j ≤ n → ¬ kw <+: s.drop j
  | 0, i, h => by
    unfold rfindFrom at h
    split at h
    · rename_i hp
      simp only [Option.some.injEq] at h
      subst h
      exact ⟨le_refl _, by simpa [List.isPrefixOf_iff_prefix] using hp, fun j h1 h2 => by omega⟩
    · simp at h
  | n + 1, i, h => by
    unfold rfindFrom at h
    split at h
    · rename_i hp
      simp only [Option.some.injEq] at h
      subst h
      exact ⟨le_refl _, by simpa [List.isPrefixOf_iff_prefix] using hp, fun j h1 h2 => by omega⟩
    · rename_i hp
      obtain ⟨h1, h2, h3⟩ := rfindFrom_some n i h
      refine ⟨by omega, h2, ?_⟩
      intro j hj1 hj2
      rcases Nat.lt_or_ge j (n + 1) with hlt | hge
      · exact h3 j hj1 (by omega)
      · have : j = n + 1 := by omega
        subst this
        simpa [List.isPrefixOf_iff_prefix] using hp

theorem rfindFrom_none {s kw : Text} : ∀ (n : Nat), rfindFrom s kw n = none →
    ∀ j, j ≤ n → ¬ kw <+: s.drop j
  | 0, h, j, hj => by
    unfold rfindFrom at h
    split at h
    · simp at h
    · rename_i hp
      have : j = 0 := by omega
      subst this
      simpa [List.isPrefixOf_iff_prefix] using hp
  | n + 1, h, j, hj => by
    unfold rfindFrom at h
    split at h
    · simp at h
    · rename_i hp
      rcases Nat.lt_or_ge j (n + 1) with hlt | hge
      · exact rfindFrom_none n h j (by omega)
      · have : j = n + 1 := by omega
        subst this
        simpa [List.isPrefixOf_iff_prefix] using hp

theorem rfind_some {s kw : Text} {i : Nat} (hkw : kw ≠ []) (h : rfind s kw = some i) :
    kw <+: s.drop i ∧ ∀ j, i < j → ¬ kw <+: s.drop j := by
  have hpos : 0 < kw.length := List.length_pos.mpr hkw
  unfold rfind at h
  split at h
  · rename_i hle
    obtain ⟨h1, h2, h3⟩ := rfindFrom_some _ _ h
    refine ⟨h2, ?_⟩
    intro j hj hp
    rcases Nat.lt_or_ge (s.length - kw.length) j with hlt | hge
    · have := hp.length_le
      simp only [List.length_drop] at this
      omega
    · exact h3 j hj hge hp
  · simp at h

theorem rfind_none {s kw : Text} (hkw : kw ≠ []) (h : rfind s kw = none) :
    ∀ j, ¬ kw <+: s.drop j := by
  intro j hp
  have hpos : 0 < kw.length := List.length_pos.mpr hkw
  have hlen := hp.length_le
  simp only [List.length_drop] at hlen
  unfold rfind at h
  split at h
  · exact rfindFrom_none _ h j (by omega) hp
  · omega

theorem slash_prefix_drop_iff (s : Text) (j : Nat) :
    "/".toList <+: s.drop j ↔ s[j]? = some '/' := by
  constructor
  · rintro ⟨r, hr⟩
    have : (s.drop j)[0]? = some '/' := by rw [← hr]; simp
    simpa using this
  · intro h
    have hlt : j < s.length := by
      by_contra hge
      rw [List.getElem?_eq_none (by omega)] at h
      cases h
    rw [List.getElem?_eq_getElem hlt] at h
    simp only [Option.some.injEq] at h
    rw [List.drop_eq_getElem_cons hlt, h]
    exact ⟨s.drop (j + 1), rfl⟩

theorem takeWhile_append_stop (q : Char → Bool) (a r : Text) (c : Char)
    (ha : ∀ x ∈ a, q x = true) (hc : q c = false) : (a ++ c :: r).takeWhile q = a := by
  rw [List.takeWhile_append_of_pos ha]
  simp [List.takeWhile_cons, hc]

theorem lastSegment_eq_iff (p w : Text) (hw : '/' ∉ w) :
    lastSegment p = w ↔ p = w ∨ ('/' :: w) <:+ p := by
  have hwq : ∀ x ∈ w.reverse, (x != '/') = true := by
    intro x hx
    have hx' : x ∈ w := List.mem_reverse.mp hx
    simp only [bne_iff_ne, ne_eq]
    rintro rfl
    exact hw hx'
  unfold lastSegment
  constructor
  · intro h
    have hrev : p.reverse.takeWhile (fun c => c != '/') = w.reverse := by
      rw [← h, List.reverse_reverse]
    have hpre : p.reverse.takeWhile (fun c => c != '/') <+: p.reverse :=
      List.takeWhile_prefix _
    obtain ⟨r, hr⟩ := hpre
    rw [hrev] at hr
    cases r with
    | nil =>
      left
      simp only [List.append_nil] at hr
      exact List.reverse_injective hr.symm
    | cons c r =>
      right
      have hstop : (c != '/') = false := by
        have hget : p.reverse[(p.reverse.takeWhile (fun c => c != '/')).length]? = some c := by
          rw [hrev]
          conv_lhs => rw [← hr]
          rw [List.getElem?_append_right (le_refl _)]
          simp
        exact getElem?_length_takeWhile (fun c => c != '/') p.reverse c hget
      have hc : c = '/' := by simpa using hstop
      subst hc
      refine ⟨r.reverse, ?_⟩
      have := congrArg List.reverse hr
      simpa using this
  · rintro (rfl | ⟨x, rfl⟩)
    · have : p.reverse.takeWhile (fun c => c != '/') = p.reverse := by
        have := @List.takeWhile_append_of_pos Char (fun c => c != '/') p.reverse [] hwq
        simpa using this
      rw [this, List.reverse_reverse]
    · have hrev : (x ++ '/' :: w).reverse = w.reverse ++ '/' :: x.reverse := by simp
      rw [hrev, takeWhile_append_stop _ _ _ _ hwq (by decide), List.reverse_reverse]

theorem isPackagePath_iff (p : Text) :
    isPackagePath p = true ↔ p = "__package.rb".toList ∨ "/__package.rb".toList <:+ p := by
  have hw : '/' ∉ "__package.rb".toList := by decide
  unfold isPackagePath
  cases hr : rfind p "/".toList with
  | none =>
    have hno := rfind_none (by decide) hr
    simp only [decide_eq_true_eq]
    constructor
    · exact Or.inl
    · rintro (h | ⟨x, hx⟩)
      · exact h
      · exfalso
        apply hno x.length
        rw [← hx]
        simp only [List.drop_left']
        exact ⟨"__package.rb".toList, rfl⟩
  | some pos =>
    obtain ⟨hocc, hlast⟩ := rfind_some (by decide) hr
    have hget := (slash_prefix_drop_iff p pos).mp hocc
    have hlt : pos < p.length := by
      by_contra hge
      rw [List.getElem?_eq_none (by omega)] at hget
      cases hget
    have hsplit : p = p.take pos ++ '/' :: p.drop (pos + 1) := by
      conv_lhs => rw [← List.take_append_drop pos p]
      rw [List.getElem?_eq_getElem hlt] at hget
      simp only [Option.some.injEq] at hget
      rw [List.drop_eq_getElem_cons hlt, hget]
    simp only [decide_eq_true_eq]
    constructor
    · intro h
      right
      refine ⟨p.take pos, ?_⟩
      conv_rhs => rw [hsplit, h]
      rfl
    · rintro (h | ⟨x, hx⟩)
      · exfalso
        have : '/' ∈ p := by
          rw [hsplit]; simp
        rw [h] at this
        exact hw this
      · have hx' : p = x ++ '/' :: "__package.rb".toList := hx.symm
        have hpos : pos = x.length := by
          rcases Nat.lt_trichotomy pos x.length with h1 | h1 | h1
          · exfalso
            apply hlast x.length h1
            rw [slash_prefix_drop_iff, hx', List.getElem?_append_right (le_refl _)]
            simp
          · exact h1
          · exfalso
            rw [hx', List.getElem?_append_right (by omega)] at hget
            have h2 : pos - x.length = (pos - x.length - 1) + 1 := by omega
            rw [h2, List.getElem?_cons_succ] at hget
            have := List.getElem?_mem hget
            exact hw this
        rw [hpos, hx']
        simp

theorem strContains_iff (s needle : Text) (hn : needle ≠ []) :
    strContains s needle = true ↔ needle <:+: s := by
  unfold strContains
  constructor
  · intro h
    cases hf : find s needle 0 with
    | none => rw [hf] at h; cases h
    | some i =>
      obtain ⟨-, -, hp, -⟩ := find_some hf
      exact List.infix_iff_prefix_suffix.mpr ⟨s.drop i, hp, List.drop_suffix i s⟩
  · rintro ⟨a, b, rfl⟩
    cases hf : find (a ++ needle ++ b) needle 0 with
    | none =>
      exfalso
      apply find_none hn hf a.length (Nat.zero_le _)
      rw [List.append_assoc, List.drop_left]
      exact List.prefix_append _ _
    | some i => rfl

/-- C12. The file built with path `p` is a packaged test exactly when `p` ends with `.test.rb`
or contains `/test/`, a package stub exactly when `p` ends with `.package.rbi`, an interface file
exactly when `p` ends with `.rbi`, and a package root exactly when the final segment of `p`,
what follows its last `/` or the whole of `p` when it has none, is `__package.rb`, that is
when `p` is `__package.rb` or ends with `/__package.rb`. So `foo/bar.test.rb`,
`foo/__package.rb`, `x.package.rbi` and `x.rbi` are a packaged test, a package root, a package
stub and an interface file. -/
theorem path_classifiers (H : Header) (p s : Text) (t : FileType) (epoch : Nat) :
    (∃ f, File.new H p s t epoch = .ok f ∧
      (f.isPackagedTest = true ↔ ".test.rb".toList <:+ p ∨ "/test/".toList <:+: p) ∧
      (f.isPackageRBI = true ↔ ".package.rbi".toList <:+ p) ∧
      (f.isRBI = true ↔ ".rbi".toList <:+ p) ∧
      (f.isPackage = true ↔ lastSegment p = "__package.rb".toList) ∧
      (f.isPackage = true ↔ p = "__package.rb".toList ∨ "/__package.rb".toList <:+ p)) ∧
    (∃ f, File.new H "foo/bar.test.rb".toList s t epoch = .ok f ∧ f.isPackagedTest = true) ∧
    (∃ f, File.new H "foo/__package.rb".toList s t epoch = .ok f ∧ f.isPackage = true) ∧
    (∃ f, File.new H "x.package.rbi".toList s t epoch = .ok f ∧ f.isPackageRBI = true) ∧
    (∃ f, File.new H "x.rbi".toList s t epoch = .ok f ∧ f.isRBI = true) := by
  have key : ∀ q : Text, ∃ f, File.new H q s t epoch = .ok f ∧
      f.isPackagedTest = isTestPath q ∧ f.isPackageRBI = isPackageRBIPath q ∧
      f.isRBI = endsWith q ".rbi".toList ∧ f.isPackage = isPackagePath q := by
    intro q
    obtain ⟨pk, sg, cp, -, -, -, hnew⟩ := File.new_ok H q s t epoch
    exact ⟨_, hnew, rfl, rfl, rfl, rfl⟩
  refine ⟨?_, ?_, ?_, ?_, ?_⟩
  · obtain ⟨f, hf, h1, h2, h3, h4⟩ := key p
    refine ⟨f, hf, ?_, ?_, ?_, ?_, ?_⟩
    · rw [h1]
      unfold isTestPath endsWith
      rw [Bool.or_eq_true, List.isSuffixOf_iff_suffix, strContains_iff _ _ (by decide)]
    · rw [h2]
      unfold isPackageRBIPath endsWith
      exact List.isSuffixOf_iff_suffix
    · rw [h3]
      unfold endsWith
      exact List.isSuffixOf_iff_suffix
    · rw [h4, isPackagePath_iff, lastSegment_eq_iff _ _ (by decide)]
      rfl
    · rw [h4, isPackagePath_iff]
  · obtain ⟨f, hf, h1, -, -, -⟩ := key "foo/bar.test.rb".toList
    exact ⟨f, hf, by rw [h1]; decide⟩
  · obtain ⟨f, hf, -, -, -, h4⟩ := key "foo/__package.rb".toList
    exact ⟨f, hf, by rw [h4]; decide⟩
  · obtain ⟨f, hf, -, h2, -, -⟩ := key "x.package.rbi".toList
    exact ⟨f, hf, by rw [h2]; decide⟩
  · obtain ⟨f, hf, -, -, h3, -⟩ := key "x.rbi".toList
    exact ⟨f, hf, by rw [h3]; decide⟩

/-! ### Construction (C13), immutable fields (C14), gated text access (C15), flags of a copy (C19) -/

/-- C13. The file built from a path `p`, a text `s` and a source-kind tag `k` has path `p`,
source text `s`, lifecycle state `k`, `originalSigil = fileStrictSigil(s)`,
`strictLevel = originalSigil`, `compiledLevel = fileCompiledSigil(s)`,
`packagedLevel = filePackagedSigil(s)`, no hash, and the flags `cached`, `hasParseErrors` and
`isOpenInClient` false. `isStdlib()` holds exactly when `fileStrictSigil(s)` is `Stdlib`,
whatever the path; an override of `strictLevel` does not change it, and it is so in every
reachable state. -/
theorem construction (H : Header) (p s : Text) (k : FileType) (epoch : Nat) :
    (∃ f, File.new H p s k epoch = .ok f ∧
      f.path = p ∧ f.source_ = s ∧ f.sourceType = k ∧
      fileStrictSigil s = .ok f.originalSigil ∧ f.strictLevel = f.originalSigil ∧
      fileCompiledSigil s = .ok f.compiledLevel ∧ filePackagedSigil s = .ok f.packagedLevel ∧
      f.getFileHash = Option.none ∧
      f.cached = false ∧ f.hasParseErrors = false ∧ f.isOpenInClient = false ∧
      (f.isStdlib = true ↔ fileStrictSigil s = .ok StrictLevel.Stdlib) ∧
      (∀ l, ({ f with strictLevel := l } : File).isStdlib = f.isStdlib)) ∧
    (∀ g, File.Reachable H g →
      (g.isStdlib = true ↔ fileStrictSigil g.source_ = .ok StrictLevel.Stdlib)) := by
  constructor
  · obtain ⟨pk, sg, cp, hpk, hsg, hcp, hnew⟩ := File.new_ok H p s k epoch
    refine ⟨_, hnew, rfl, rfl, rfl, hsg, rfl, hcp, hpk, rfl, rfl, rfl, rfl, ?_, fun _ => rfl⟩
    rw [hsg]
    simp [File.isStdlib]
  · intro g hg
    obtain ⟨-, hsg, -, -⟩ := reachable_inv hg
    rw [hsg]
    simp [File.isStdlib]

/-- Witness of C13: the file built from `# typed: __STDLIB_INTERNAL` is standard library, also
after its strictness level was overridden. -/
theorem construction_witness :
    File.new specHeader "a.rb".toList "# typed: __STDLIB_INTERNAL".toList FileType.Normal 0 =
      .ok { plainFile "# typed: __STDLIB_INTERNAL".toList FileType.Normal with
              originalSigil := StrictLevel.Stdlib, strictLevel := StrictLevel.Stdlib } ∧
    ({ plainFile "# typed: __STDLIB_INTERNAL".toList FileType.Normal with
        originalSigil := StrictLevel.Stdlib, strictLevel := StrictLevel.False } : File).isStdlib =
      true :=
  ⟨by decide,
   ((construction specHeader [] [] FileType.Normal 0).2 _
      (File.Reachable.overrideStrictLevel StrictLevel.False
        (File.Reachable.construct
          (by decide : File.new specHeader "a.rb".toList "# typed: __STDLIB_INTERNAL".toList
            FileType.Normal 0 =
              .ok { plainFile "# typed: __STDLIB_INTERNAL".toList FileType.Normal with
                      originalSigil := StrictLevel.Stdlib,
                      strictLevel := StrictLevel.Stdlib })))).mpr (by decide)⟩

theorem sameCore_of_lineBreaks {H : Header} {f g : File} {v : List Int}
    (h : f.lineBreaks H = .ok (g, v)) : File.SameCore f g := by
  obtain ⟨-, hg, -⟩ := lineBreaks_ok h
  subst hg
  exact ⟨rfl, rfl, rfl, rfl, rfl, rfl⟩

/-- C14. Every mutating operation of a file leaves the path, the source text, the lifecycle
state, `originalSigil`, `compiledLevel` and `packagedLevel` as they are: `setFileHash`,
`setIsPackage`, `setIsOpenInClient`, `setHasParseErrors` and `setCached` with every argument,
and the publication of the line index by a call of `lineBreaks`, `lineCount` or `getLine` that
returns. -/
theorem immutable_fields (H : Header) (f : File) :
    (∀ h, File.SameCore f (f.setFileHash h)) ∧
    (∀ b, File.SameCore f (f.setIsPackage b)) ∧
    (∀ b, File.SameCore f (f.setIsOpenInClient b)) ∧
    (∀ b, File.SameCore f (f.setHasParseErrors b)) ∧
    (∀ b, File.SameCore f (f.setCached b)) ∧
    (∀ g v, f.lineBreaks H = .ok (g, v) → File.SameCore f g) ∧
    (∀ g n, f.lineCount H = .ok (g, n) → File.SameCore f g) ∧
    (∀ g i line, f.getLine H i = .ok (g, line) → File.SameCore f g) := by
  refine ⟨?_, fun _ => ⟨rfl, rfl, rfl, rfl, rfl, rfl⟩, fun _ => ⟨rfl, rfl, rfl, rfl, rfl, rfl⟩,
    fun _ => ⟨rfl, rfl, rfl, rfl, rfl, rfl⟩, fun _ => ⟨rfl, rfl, rfl, rfl, rfl, rfl⟩, ?_, ?_, ?_⟩
  · intro h
    unfold File.setFileHash
    split <;> exact ⟨rfl, rfl, rfl, rfl, rfl, rfl⟩
  · intro g v h
    exact sameCore_of_lineBreaks h
  · intro g n h
    obtain ⟨v, hv⟩ := lineCount_ok h
    exact sameCore_of_lineBreaks hv
  · intro g i line h
    obtain ⟨v, hv⟩ := getLine_ok h
    exact sameCore_of_lineBreaks hv

/-- Witness of C14: the calls `lineBreaks()`, `lineCount()` and `getLine(1)` on the file with
the text `ab`, newline, `cd` publish the line index and leave the six fields as they are. -/
theorem immutable_fields_witness :
    File.SameCore (plainFile "ab\ncd".toList FileType.Normal)
      { plainFile "ab\ncd".toList FileType.Normal with lineBreaks_ := some [-1, 2] } ∧
    (plainFile "ab\ncd".toList FileType.Normal).lineCount specHeader =
      .ok ({ plainFile "ab\ncd".toList FileType.Normal with lineBreaks_ := some [-1, 2] }, 1) ∧
    (plainFile "ab\ncd".toList FileType.Normal).getLine specHeader 1 =
      .ok ({ plainFile "ab\ncd".toList FileType.Normal with lineBreaks_ := some [-1, 2] },
        "ab".toList) :=
  ⟨(immutable_fields specHeader (plainFile "ab\ncd".toList FileType.Normal)).2.2.2.2.2.1
      { plainFile "ab\ncd".toList FileType.Normal with lineBreaks_ := some [-1, 2] } [-1, 2]
      (by decide),
   by decide, by decide⟩

/-- C15. On a file whose lifecycle state is `TombStone` or `NotYetRead`, `source()`,
`lineBreaks()`, `lineCount()` and `getLine(i)` are contract failures. On the file built from a
text `s` with the state `Normal`, `Payload` or `PayloadGeneration`, and on every file that has
its immutable fields, `source()` returns `s`. `path()` returns the path given at construction
in every state. -/
theorem text_access_gated (H : Header) (f : File) :
    (f.sourceType = FileType.TombStone ∨ f.sourceType = FileType.NotYetRead →
      f.source = .fail Failure.contract ∧ f.lineBreaks H = .fail Failure.contract ∧
      f.lineCount H = .fail Failure.contract ∧
      ∀ i, f.getLine H i = .fail Failure.contract) ∧
    (∀ p s k epoch,
      k = FileType.Normal ∨ k = FileType.Payload ∨ k = FileType.PayloadGeneration →
      ∃ g, File.new H p s k epoch = .ok g ∧ g.source = .ok s ∧
        ∀ g', File.SameCore g g' → g'.source = .ok s) ∧
    (∀ p s k epoch, ∃ g, File.new H p s k epoch = .ok g ∧ g.path = p ∧
      ∀ g', File.SameCore g g' → g'.path = p) := by
  refine ⟨?_, ?_, ?_⟩
  · intro h
    have hlb := lineBreaks_unreadable H f h
    refine ⟨?_, hlb, ?_, ?_⟩
    · unfold File.source ENFORCE
      rcases h with h | h
      · simp [h]
      · by_cases h1 : f.sourceType = FileType.TombStone
        · simp [h1]
        · simp [h1, h]
    · simp only [File.lineCount, hlb, Outcome.bind]
    · intro i
      simp only [File.getLine, hlb, Outcome.bind]
  · intro p s k epoch hk
    obtain ⟨pk, sg, cp, -, -, -, hnew⟩ := File.new_ok H p s k epoch
    have hsrc : ∀ g' : File, g'.source_ = s → g'.sourceType = k → g'.source = .ok s := by
      intro g' h1 h2
      unfold File.source ENFORCE
      rw [h2, h1]
      rcases hk with rfl | rfl | rfl <;> rfl
    refine ⟨_, hnew, hsrc _ rfl rfl, ?_⟩
    intro g' hg'
    exact hsrc g' hg'.2.1 hg'.2.2.1
  · intro p s k epoch
    obtain ⟨pk, sg, cp, -, -, -, hnew⟩ := File.new_ok H p s k epoch
    exact ⟨_, hnew, rfl, fun g' hg' => hg'.1⟩

/-- Witness of C15 on a tombstone and on a payload file. -/
theorem text_access_gated_witness :
    ((plainFile "x".toList FileType.TombStone).source = .fail Failure.contract ∧
      (plainFile "x".toList FileType.TombStone).lineBreaks specHeader =
        .fail Failure.contract ∧
      (plainFile "x".toList FileType.TombStone).lineCount specHeader =
        .fail Failure.contract ∧
      ∀ i, (plainFile "x".toList FileType.TombStone).getLine specHeader i =
        .fail Failure.contract) ∧
    (∃ g, File.new specHeader "a.rb".toList "x".toList FileType.Payload 0 = .ok g ∧
      g.source = .ok "x".toList ∧
      ∀ g', File.SameCore g g' → g'.source = .ok "x".toList) :=
  ⟨(text_access_gated specHeader (plainFile "x".toList FileType.TombStone)).1
      (Or.inl rfl),
   (text_access_gated specHeader (plainFile "x".toList FileType.TombStone)).2.1
      "a.rb".toList "x".toList FileType.Payload 0 (Or.inr (Or.inl rfl))⟩

/-- C19. The copy made by `deepCopy` does not carry the runtime flags: whatever `setCached`,
`setHasParseErrors`, `setIsOpenInClient` and `setIsPackage` gave to `E`, the copy has
`cached()`, `hasParseErrors()` and `isOpenInClient()` false and `isPackage()` equal to
`isPackagePath(E.path())`; it is the copy of `E` before those calls. The copy of the file
`a.rb` on which `setIsPackage(true)` was called is not a package. -/
theorem deepCopy_flags (H : Header) (gs : GlobalState) (E : File) :
    (∃ c, E.deepCopy H gs = .ok c ∧
      c.cached = false ∧ c.hasParseErrors = false ∧ c.isOpenInClient = false ∧
      c.isPackage = isPackagePath E.path ∧
      c.isPackagedTest = isTestPath E.path ∧ c.isPackageRBI = isPackageRBIPath E.path ∧
      ∀ a b o d, ((((E.setCached a).setHasParseErrors b).setIsOpenInClient o).setIsPackage
        d).deepCopy H gs = .ok c) ∧
    ((plainFile [] FileType.Normal).setIsPackage true).isPackage = true ∧
    (∃ c, ((plainFile [] FileType.Normal).setIsPackage true).deepCopy H gs = .ok c ∧
      c.isPackage = false) := by
  have key : ∀ F : File, ∃ c, F.deepCopy H gs = .ok c ∧ c.flags = Flags.new F.path_ := by
    intro F
    obtain ⟨pk, sg, cp, -, -, -, hcopy⟩ := deepCopy_eq H gs F
    exact ⟨_, hcopy, rfl⟩
  refine ⟨?_, rfl, ?_⟩
  · obtain ⟨pk, sg, cp, -, -, -, hcopy⟩ := deepCopy_eq H gs E
    refine ⟨_, hcopy, rfl, rfl, rfl, rfl, rfl, rfl, ?_⟩
    intro a b o d
    rw [← hcopy]
    rfl
  · obtain ⟨c, hc, hflags⟩ := key ((plainFile [] FileType.Normal).setIsPackage true)
    refine ⟨c, hc, ?_⟩
    unfold File.isPackage
    rw [hflags]
    decide

/-! ### Snapshot path censoring (C16) -/

theorem censor_eq (H : Header) (p : Text) :
    File.censorFilePathForSnapshotTests H p =
      if H.URL_PREFIX <+: p then
        H.URL_PREFIX ++
          (if H.URL_PREFIX <+: dropLeading EXTERNAL_PREFIX p then
            dropLeading EXTERNAL_PREFIX
              ((dropLeading EXTERNAL_PREFIX p).drop H.URL_PREFIX.length)
          else dropLeading EXTERNAL_PREFIX p)
      else
        (if H.URL_PREFIX <+: dropLeading EXTERNAL_PREFIX p then
          dropLeading EXTERNAL_PREFIX
            ((dropLeading EXTERNAL_PREFIX p).drop H.URL_PREFIX.length)
        else dropLeading EXTERNAL_PREFIX p) := by
  unfold File.censorFilePathForSnapshotTests dropLeading startsWith
  simp only [List.isPrefixOf_iff_prefix]

/-- C16, as stated, fails on a path made of the external-sandbox prefix, the URL marker and a
rest: with the marker `https://`, the path `external/com_stripe_ruby_typer/https://a.rb`
becomes `a.rb`, whereas the stated result is `https://a.rb`. The marker is put back only when
the path itself starts with it. -/
theorem censor_drops_url_marker :
    File.censorFilePathForSnapshotTests specHeader
      "external/com_stripe_ruby_typer/https://a.rb".toList = "a.rb".toList ∧
    censoredAsSpecified specHeader
      "external/com_stripe_ruby_typer/https://a.rb".toList = "https://a.rb".toList := by
  decide

/-- C16 (amended: `URL_PREFIX` is put back exactly when the path itself starts with it). The
censored path is the path without one leading external-sandbox prefix and, if what remains
starts with `URL_PREFIX`, without that prefix and without one external-sandbox prefix that
follows it; `URL_PREFIX` is put in front of it when the path itself starts with `URL_PREFIX`.
This is the stated result whenever the path starts with `URL_PREFIX` exactly when it does so
after removal of the external-sandbox prefix, in particular for every path that does not start
with the external-sandbox prefix; a path that starts with neither prefix is returned
unchanged. -/
theorem censor_spec (H : Header) (p : Text) :
    ((H.URL_PREFIX <+: dropLeading EXTERNAL_PREFIX p ↔ H.URL_PREFIX <+: p) →
      File.censorFilePathForSnapshotTests H p = censoredAsSpecified H p) ∧
    (¬ EXTERNAL_PREFIX <+: p →
      File.censorFilePathForSnapshotTests H p = censoredAsSpecified H p) ∧
    (H.URL_PREFIX <+: dropLeading EXTERNAL_PREFIX p → ¬ H.URL_PREFIX <+: p →
      File.censorFilePathForSnapshotTests H p =
        dropLeading EXTERNAL_PREFIX
          ((dropLeading EXTERNAL_PREFIX p).drop H.URL_PREFIX.length)) ∧
    (¬ H.URL_PREFIX <+: dropLeading EXTERNAL_PREFIX p → H.URL_PREFIX <+: p →
      File.censorFilePathForSnapshotTests H p = H.URL_PREFIX ++ dropLeading EXTERNAL_PREFIX p) ∧
    (¬ EXTERNAL_PREFIX <+: p → ¬ H.URL_PREFIX <+: p →
      File.censorFilePathForSnapshotTests H p = p) := by
  have hmain : (H.URL_PREFIX <+: dropLeading EXTERNAL_PREFIX p ↔ H.URL_PREFIX <+: p) →
      File.censorFilePathForSnapshotTests H p = censoredAsSpecified H p := by
    intro h
    rw [censor_eq]
    unfold censoredAsSpecified
    by_cases h1 : H.URL_PREFIX <+: p
    · simp [h1, h.mpr h1]
    · have h3 : ¬ H.URL_PREFIX <+: dropLeading EXTERNAL_PREFIX p := fun h2 => h1 (h.mp h2)
      simp [h1, h3]
  have hdrop : ¬ EXTERNAL_PREFIX <+: p → dropLeading EXTERNAL_PREFIX p = p := by
    intro h
    simp [dropLeading, h]
  refine ⟨hmain, ?_, ?_, ?_, ?_⟩
  · intro h
    exact hmain (by rw [hdrop h])
  · intro h1 h2
    rw [censor_eq]
    simp [h1, h2]
  · intro h1 h2
    rw [censor_eq]
    simp [h1, h2]
  · intro h1 h2
    rw [censor_eq, hdrop h1]
    simp [h2]

/-- Witness of C16 with the marker `https://`. -/
theorem censor_spec_witness :
    File.censorFilePathForSnapshotTests specHeader "https://external/com_stripe_ruby_typer/a.rbi".toList
      = censoredAsSpecified specHeader "https://external/com_stripe_ruby_typer/a.rbi".toList ∧
    censoredAsSpecified specHeader "https://external/com_stripe_ruby_typer/a.rbi".toList =
      "https://a.rbi".toList ∧
    File.censorFilePathForSnapshotTests specHeader "external/com_stripe_ruby_typer/a.rb".toList =
      censoredAsSpecified specHeader "external/com_stripe_ruby_typer/a.rb".toList ∧
    File.censorFilePathForSnapshotTests specHeader "external/com_stripe_ruby_typer/https://a".toList
      = "a".toList ∧
    File.censorFilePathForSnapshotTests specHeader "lib/a.rb".toList = "lib/a.rb".toList :=
  ⟨(censor_spec specHeader "https://external/com_stripe_ruby_typer/a.rbi".toList).2.1
      (by decide),
   by decide,
   (censor_spec specHeader "external/com_stripe_ruby_typer/a.rb".toList).1 (by decide),
   (censor_spec specHeader "external/com_stripe_ruby_typer/https://a".toList).2.2.1
      (by decide) (by decide),
   (censor_spec specHeader "lib/a.rb".toList).2.2.2.2 (by decide) (by decide)⟩

/-! ### Termination of the scanners (C17) -/

theorem scanStep_next {α : Type} (kw : Text) (skip : Nat) (vocab : Text → Option α)
    (s : Text) (hkw : kw ≠ []) (start start' : Nat)
    (h : scanStep kw skip vocab s start = .ok (Step.next start')) :
    ∃ st cs, find s kw start = some st ∧ start ≤ st ∧ st + kw.length ≤ s.length ∧
      commentStart s st = .ok cs ∧ cs ≤ st ∧
      (s[cs]? ≠ some '#' → start' = st + 1) ∧
      (s[cs]? = some '#' → st + skip ≤ start' ∧ start' ≤ s.length) := by
  unfold scanStep at h
  cases hf : find s kw start with
  | none => rw [hf] at h; cases h
  | some st =>
    obtain ⟨h1, _, h3, _⟩ := find_some hf
    have hst := prefix_drop_lt hkw h3
    obtain ⟨cs, hcs, hle, _⟩ := commentStart_total s st (by omega)
    have hget : s[cs]? = some s[cs] := List.getElem?_eq_getElem (by omega)
    refine ⟨st, cs, rfl, h1, hst.1, hcs, hle, ?_⟩
    simp only [hf, hcs, hget] at h
    rw [hget]
    split at h
    · rename_i hc
      simp only [Outcome.ok.injEq, Step.next.injEq] at h
      refine ⟨fun _ => h.symm, fun h' => ?_⟩
      simp only [Option.some.injEq] at h'
      exact absurd h' hc
    · rename_i hc
      have hc' : s[cs] = '#' := by simpa using hc
      have h2 := le_advanceWhile (fun c => c == ' ') s (st + skip)
      generalize advanceWhile (fun c => c == ' ') s (st + skip) = st2 at h h2
      split at h
      · cases h
      · rename_i hlt
        obtain ⟨e, he, hle1, hle2⟩ := tokenEnd_total s st2 (by omega)
        simp only [he] at h
        split at h
        · cases h
        · simp only [Outcome.ok.injEq, Step.next.injEq] at h
          subst h
          refine ⟨fun h' => ?_, fun _ => ⟨by omega, hle2⟩⟩
          simp [hc'] at h'

theorem scanLoop_mono {α : Type} (kw : Text) (skip : Nat) (vocab : Text → Option α)
    (s : Text) : ∀ (n start : Nat) (r : Option (Directive α)),
    scanLoop kw skip vocab s n start = .ok r →
    ∀ m, n ≤ m → scanLoop kw skip vocab s m start = .ok r := by
  intro n
  induction n with
  | zero =>
    intro start r h
    simp [scanLoop] at h
  | succ n ih =>
    intro start r h m hm
    obtain ⟨m', rfl⟩ : ∃ m', m = m' + 1 := ⟨m - 1, by omega⟩
    rw [scanLoop] at h ⊢
    cases hs : scanStep kw skip vocab s start with
    | fail e => rw [hs] at h; cases h
    | ok st =>
      cases st with
      | done r' => rw [hs] at h; exact h
      | next start' => rw [hs] at h; exact ih start' r h m' (by omega)

theorem scanLoop_bound {α : Type} (kw : Text) (skip : Nat) (vocab : Text → Option α)
    (s : Text) (hkw : kw ≠ []) (hskip : 0 < skip) : ∀ fuel start,
    s.length + 1 ≤ fuel + start + kw.length →
    ∃ r, scanLoop kw skip vocab s (fuel + 1) start = .ok r := by
  intro fuel
  induction fuel with
  | zero =>
    intro start h
    obtain ⟨r, hr, -, -⟩ := scanStep_total kw skip vocab s hkw hskip start
    rw [scanLoop, hr]
    cases r with
    | done r => exact ⟨_, rfl⟩
    | next start' =>
      obtain ⟨st, cs, -, h1, h2, -⟩ := scanStep_next kw skip vocab s hkw start start' hr
      omega
  | succ fuel ih =>
    intro start h
    obtain ⟨r, hr, hnext, -⟩ := scanStep_total kw skip vocab s hkw hskip start
    rw [scanLoop, hr]
    cases r with
    | done r => exact ⟨_, rfl⟩
    | next start' =>
      have := hnext start' rfl
      exact ih start' (by omega)

theorem scanProgress_of {α : Type} (kw : Text) (skip : Nat) (vocab : Text → Option α)
    (hkw : kw ≠ []) (hskip : skip = kw.length) : ScanProgress kw skip vocab := by
  intro s start start' h
  obtain ⟨st, cs, h1, h2, h3, h4, h5, h6, h7⟩ := scanStep_next kw skip vocab s hkw start start' h
  have hpos : 0 < kw.length := List.length_pos.mpr hkw
  refine ⟨st, cs, h1, h2, h4, h6, fun hc => by have := h7 hc; omega, ?_, ?_⟩
  · by_cases hc : s[cs]? = some '#'
    · have := h7 hc; omega
    · have := h6 hc; omega
  · by_cases hc : s[cs]? = some '#'
    · exact (h7 hc).2
    · have := h6 hc; omega

theorem scanBounded_of {α : Type} (kw : Text) (skip : Nat) (vocab : Text → Option α)
    (hkw : 2 ≤ kw.length) (hskip : 0 < skip) : ScanBounded kw skip vocab := by
  intro s
  have hne : kw ≠ [] := by
    intro h
    rw [h] at hkw
    simp at hkw
  obtain ⟨r, hr⟩ := scanLoop_bound kw skip vocab s hne hskip (max 1 s.length - 1) 0 (by omega)
  have hmax : max 1 s.length - 1 + 1 = max 1 s.length := by omega
  rw [hmax] at hr
  refine ⟨r, scanLoop_mono kw skip vocab s _ 0 r hr _ (by omega), ?_⟩
  intro n h1 h2
  exact scanLoop_mono kw skip vocab s _ 0 r hr n (by omega)

/-- C17. Each of the three directive scanners terminates on every text. Whenever an iteration
of the scan loop goes on to another keyword search, the cursor has strictly increased: to one
past the occurrence found when that occurrence is rejected as not being in a comment, and to at
least the occurrence plus the keyword length when the token is not recognised (to exactly that
when the token is empty after the carriage return is stripped, as in `# typed:\r`). The loop
returns within as many iterations as the text has bytes (within one iteration on the empty
text, whose only search fails), and the three scanners return a result on every text. -/
theorem scanners_terminate :
    (ScanProgress typedKw 6 strictVocab ∧ ScanBounded typedKw 6 strictVocab) ∧
    (ScanProgress compiledKw 9 compiledVocab ∧ ScanBounded compiledKw 9 compiledVocab) ∧
    (ScanProgress packagedKw 9 packagedVocab ∧ ScanBounded packagedKw 9 packagedVocab) ∧
    (∀ s : Text, (∃ i, strictSigilInfo s = .ok i) ∧ (∃ l, fileCompiledSigil s = .ok l) ∧
      ∃ l, filePackagedSigil s = .ok l) ∧
    scanStep typedKw 6 strictVocab "x typed: true".toList 0 = .ok (Step.next 3) ∧
    scanStep typedKw 6 strictVocab "# typed: bogus\n".toList 0 = .ok (Step.next 14) ∧
    scanStep typedKw 6 strictVocab "# typed:\r".toList 0 = .ok (Step.next 8) ∧
    scanStep compiledKw 9 compiledVocab "# compiled:\r".toList 0 = .ok (Step.next 11) ∧
    scanStep packagedKw 9 packagedVocab "# packaged:\r".toList 0 = .ok (Step.next 11) ∧
    scanLoop typedKw 6 strictVocab [] 1 0 = .ok none := by
  refine ⟨⟨scanProgress_of _ _ _ (by decide) (by decide), scanBounded_of _ _ _ (by decide)
      (by decide)⟩,
    ⟨scanProgress_of _ _ _ (by decide) (by decide), scanBounded_of _ _ _ (by decide)
      (by decide)⟩,
    ⟨scanProgress_of _ _ _ (by decide) (by decide), scanBounded_of _ _ _ (by decide)
      (by decide)⟩, ?_, by decide, by decide, by decide, by decide, by decide, by decide⟩
  intro s
  refine ⟨?_, fileCompiledSigil_total s, filePackagedSigil_total s⟩
  obtain ⟨r, hr⟩ := strictDirective_total s
  cases r with
  | none => exact ⟨⟨LocOffsets.none, StrictLevel.None⟩, by simp only [strictSigilInfo, hr]⟩
  | some d =>
    exact ⟨⟨LocOffsets.span (d.tokBegin % 2 ^ 32) (d.tokEnd % 2 ^ 32), d.level⟩,
      by simp only [strictSigilInfo, hr]⟩

/-! ### Safety of the scanners (C18) -/

theorem scanSafe_of {α : Type} (kw : Text) (skip : Nat) (vocab : Text → Option α)
    (hkw : kw ≠ []) (hskip : skip = kw.length) : ScanSafe kw skip vocab := by
  intro s start
  have hpos : 0 < kw.length := List.length_pos.mpr hkw
  obtain ⟨r, hr, -, -⟩ := scanStep_total kw skip vocab s hkw (by omega) start
  refine ⟨⟨r, hr⟩, ?_⟩
  intro st hf
  obtain ⟨h1, _, h3, _⟩ := find_some hf
  have hst := prefix_drop_lt hkw h3
  obtain ⟨cs, hcs, hle, _⟩ := commentStart_total s st (by omega)
  have hget : s[cs]? = some s[cs] := List.getElem?_eq_getElem (by omega)
  have h2 := advanceWhile_le (fun c => c == ' ') s (st + skip) (by omega)
  refine ⟨hst.2, ⟨cs, hcs, hle, by omega, by simp [hget]⟩, h2, ?_⟩
  generalize advanceWhile (fun c => c == ' ') s (st + skip) = st2 at h2
  intro hlt
  have h4 := le_advanceWhile (fun c => c != ' ' && c != '\n') s (st2 + 1)
  have h5 := advanceWhile_le (fun c => c != ' ' && c != '\n') s (st2 + 1) (by omega)
  obtain ⟨e, he, hle1, hle2⟩ := tokenEnd_total s st2 hlt
  refine ⟨h4, h5, ?_, e, he, hle1, hle2⟩
  generalize advanceWhile (fun c => c != ' ' && c != '\n') s (st2 + 1) = e0 at h4 h5
  have hlt2 : e0 - 1 < s.length := by omega
  simp [List.getElem?_eq_getElem hlt2]

/-- C18. The scanners never fail on malformed text. For each of the three scanners, every
iteration of the scan loop returns without a failure on every text and from every cursor; the
offsets read are offsets of the text (`source[comment_start]` at and after the backward walk,
`source[end - 1]`, and the guarded reads `source[start]` and `source[end]`), and the token
ends no earlier than it starts. Every text is given a level by each of the three scans, and
the strictness scan gives it a location. The empty text, a keyword at offset 0, a keyword
that ends the text, and a keyword followed only by spaces or by a lone carriage return all
give the level None. -/
theorem scanners_safe :
    ScanSafe typedKw 6 strictVocab ∧ ScanSafe compiledKw 9 compiledVocab ∧
    ScanSafe packagedKw 9 packagedVocab ∧
    (∀ s : Text, (∃ l, fileStrictSigil s = .ok l) ∧ (∃ loc, locStrictSigil s = .ok loc) ∧
      (∃ l, fileCompiledSigil s = .ok l) ∧ ∃ l, filePackagedSigil s = .ok l) ∧
    (fileStrictSigil [] = .ok StrictLevel.None ∧
      fileStrictSigil "typed: true".toList = .ok StrictLevel.None ∧
      fileStrictSigil "# typed:".toList = .ok StrictLevel.None ∧
      fileStrictSigil "# typed:   ".toList = .ok StrictLevel.None ∧
      fileStrictSigil "# typed:\r".toList = .ok StrictLevel.None) ∧
    (fileCompiledSigil [] = .ok CompiledLevel.None ∧
      fileCompiledSigil "compiled: true".toList = .ok CompiledLevel.None ∧
      fileCompiledSigil "# compiled:".toList = .ok CompiledLevel.None ∧
      fileCompiledSigil "# compiled:   ".toList = .ok CompiledLevel.None ∧
      fileCompiledSigil "# compiled:\r".toList = .ok CompiledLevel.None) ∧
    (filePackagedSigil [] = .ok PackagedLevel.None ∧
      filePackagedSigil "packaged: true".toList = .ok PackagedLevel.None ∧
      filePackagedSigil "# packaged:".toList = .ok PackagedLevel.None ∧
      filePackagedSigil "# packaged:   ".toList = .ok PackagedLevel.None ∧
      filePackagedSigil "# packaged:\r".toList = .ok PackagedLevel.None) := by
  refine ⟨scanSafe_of _ _ _ (by decide) (by decide), scanSafe_of _ _ _ (by decide) (by decide),
    scanSafe_of _ _ _ (by decide) (by decide), ?_, by decide, by decide, by decide⟩
  intro s
  refine ⟨fileStrictSigil_total s, ?_, fileCompiledSigil_total s, filePackagedSigil_total s⟩
  obtain ⟨r, hr⟩ := strictDirective_total s
  cases r with
  | none =>
    exact ⟨LocOffsets.none, by simp only [locStrictSigil, strictSigilInfo, hr, Outcome.bind]⟩
  | some d =>
    exact ⟨LocOffsets.span (d.tokBegin % 2 ^ 32) (d.tokEnd % 2 ^ 32),
      by simp only [locStrictSigil, strictSigilInfo, hr, Outcome.bind]⟩

/-! ### The DSL builder (C20) -/

theorem replaceDSL_of_args (E : DSLEnv) (ctx : E.Ctx) (send : Send E)
    (a0 a1 : E.Expression) (rest : List E.Expression) (sym : E.Literal) (klass : E.ConstantLit)
    (hfun : send.fun_ = E.dslOptional ∨ send.fun_ = E.dslRequired)
    (hargs : send.args = a0 :: a1 :: rest) (hsym : E.castLiteral a0 = some sym)
    (his : E.isSymbol sym ctx = true) (hklass : E.castConstantLit a1 = some klass) :
    DSLBuilder.replaceDSL E ctx send =
      ([E.Sig1 send.loc (E.Symbol send.loc (E.asSymbol sym ctx)) (E.dupType (E.dupType a1))
          (E.Ident send.loc E.NilClass),
        E.Method1 send.loc (E.asSymbol sym ctx)
          (if ((rest.head?.bind E.castHash).map (DSLBuilder.hasImplied E ctx)) = some true then
            E.OptionalArg send.loc (E.Local send.loc (E.asSymbol sym ctx))
              (E.Send0 send.loc (E.Ident send.loc E.T) E.untyped)
          else E.Local send.loc (E.asSymbol sym ctx))
          (E.EmptyTree send.loc) (E.SelfMethod ||| E.DSLSynthesized),
        E.Sig0 send.loc (E.dupType (E.dupType a1)),
        E.Method send.loc
          (E.enterNameUTF8 ctx ("get_".toList ++ E.toString (E.asSymbol sym ctx) ctx)).1
          E.noArgs (E.Unsafe send.loc (E.Nil send.loc)) (E.SelfMethod ||| E.DSLSynthesized),
        E.Sig0 send.loc (E.dupType (E.dupType a1)),
        E.Method send.loc (E.asSymbol sym ctx) E.noArgs (E.Unsafe send.loc (E.Nil send.loc))
          E.DSLSynthesized],
       (E.enterNameUTF8 ctx ("get_".toList ++ E.toString (E.asSymbol sym ctx) ctx)).2) := by
  unfold DSLBuilder.replaceDSL
  cases rest with
  | nil =>
    rcases hfun with hfun | hfun
    · simp [hfun, hargs, hsym, his, hklass]
    · by_cases ho : E.dslRequired = E.dslOptional
      · simp [hfun, ho, hargs, hsym, his, hklass]
      · simp [hfun, ho, hargs, hsym, his, hklass]
  | cons a2 tl =>
    cases hh : E.castHash a2 with
    | none =>
      rcases hfun with hfun | hfun
      · simp [hfun, hargs, hsym, his, hklass, hh]
      · by_cases ho : E.dslRequired = E.dslOptional
        · simp [hfun, ho, hargs, hsym, his, hklass, hh]
        · simp [hfun, ho, hargs, hsym, his, hklass, hh]
    | some h =>
      cases hi : (E.getHashValue ctx (E.getHashValue ctx h E.default_).2 E.implied).1.isSome
        <;> cases hd : (E.getHashValue ctx h E.default_).1.isSome
        <;> rcases hfun with hfun | hfun
        <;> by_cases ho : E.dslRequired = E.dslOptional
        <;> simp [hfun, ho, hargs, hsym, his, hklass, hh, hi, hd, DSLBuilder.hasImplied]

theorem replaceDSL_other_fun (E : DSLEnv) (ctx : E.Ctx) (send : Send E)
    (h1 : send.fun_ ≠ E.dslOptional) (h2 : send.fun_ ≠ E.dslRequired) :
    DSLBuilder.replaceDSL E ctx send = ([], ctx) := by
  unfold DSLBuilder.replaceDSL
  simp [h1, h2]

theorem replaceDSL_few_args (E : DSLEnv) (ctx : E.Ctx) (send : Send E)
    (h : send.args.length < 2) : DSLBuilder.replaceDSL E ctx send = ([], ctx) := by
  unfold DSLBuilder.replaceDSL
  rcases hargs : send.args with _ | ⟨a0, _ | ⟨a1, rest⟩⟩
  · simp only []
    split <;> rfl
  · simp only []
    split <;> rfl
  · rw [hargs] at h
    simp only [List.length_cons] at h
    omega

theorem replaceDSL_not_symbol (E : DSLEnv) (ctx : E.Ctx) (send : Send E) (a0 : E.Expression)
    (h0 : send.args[0]? = some a0)
    (h : ∀ l, E.castLiteral a0 = some l → E.isSymbol l ctx = false) :
    DSLBuilder.replaceDSL E ctx send = ([], ctx) := by
  rcases hargs : send.args with _ | ⟨b0, _ | ⟨a1, rest⟩⟩
  · exact replaceDSL_few_args E ctx send (by simp [hargs])
  · exact replaceDSL_few_args E ctx send (by simp [hargs])
  · rw [hargs] at h0
    simp only [List.getElem?_cons_zero, Option.some.injEq] at h0
    subst h0
    unfold DSLBuilder.replaceDSL
    simp only [hargs]
    split
    · rfl
    · cases hl : E.castLiteral b0 with
      | none => rfl
      | some l => simp [h l hl]

theorem replaceDSL_not_constant (E : DSLEnv) (ctx : E.Ctx) (send : Send E)
    (a1 : E.Expression) (h1 : send.args[1]? = some a1) (h : E.castConstantLit a1 = none) :
    DSLBuilder.replaceDSL E ctx send = ([], ctx) := by
  rcases hargs : send.args with _ | ⟨a0, _ | ⟨b1, rest⟩⟩
  · exact replaceDSL_few_args E ctx send (by simp [hargs])
  · exact replaceDSL_few_args E ctx send (by simp [hargs])
  · rw [hargs] at h1
    simp only [List.getElem?_cons_succ, List.getElem?_cons_zero, Option.some.injEq] at h1
    subst h1
    unfold DSLBuilder.replaceDSL
    simp only [hargs]
    split
    · rfl
    · cases hl : E.castLiteral a0 with
      | none => rfl
      | some l =>
        simp only []
        split
        · rfl
        · simp [h]

theorem replaceDSL_guard (E : DSLEnv) (ctx : E.Ctx) (send : Send E) :
    (∃ a0 a1 rest sym klass, send.args = a0 :: a1 :: rest ∧ E.castLiteral a0 = some sym ∧
      E.isSymbol sym ctx = true ∧ E.castConstantLit a1 = some klass) ∨
    (send.args.length < 2 ∨
      (∃ a0, send.args[0]? = some a0 ∧
        ∀ l, E.castLiteral a0 = some l → E.isSymbol l ctx = false) ∨
      (∃ a1, send.args[1]? = some a1 ∧ E.castConstantLit a1 = none)) := by
  rcases hargs : send.args with _ | ⟨a0, _ | ⟨a1, rest⟩⟩
  · right; left; simp
  · right; left; simp
  · cases hl : E.castLiteral a0 with
    | none =>
      right; right; left
      exact ⟨a0, by simp, fun l h => by rw [hl] at h; cases h⟩
    | some sym =>
      cases his : E.isSymbol sym ctx with
      | false =>
        right; right; left
        refine ⟨a0, by simp, fun l h => ?_⟩
        rw [hl] at h
        cases h
        exact his
      | true =>
        cases hk : E.castConstantLit a1 with
        | none =>
          right; right; right
          exact ⟨a1, by simp, hk⟩
        | some klass => exact Or.inl ⟨a0, a1, rest, sym, klass, rfl, hl, his, hk⟩

theorem replaceDSL_guard_fails (E : DSLEnv) (ctx : E.Ctx) (send : Send E)
    (h : send.args.length < 2 ∨
      (∃ a0, send.args[0]? = some a0 ∧
        ∀ l, E.castLiteral a0 = some l → E.isSymbol l ctx = false) ∨
      (∃ a1, send.args[1]? = some a1 ∧ E.castConstantLit a1 = none)) :
    DSLBuilder.replaceDSL E ctx send = ([], ctx) := by
  rcases h with h | ⟨a0, h0, h⟩ | ⟨a1, h1, h⟩
  · exact replaceDSL_few_args E ctx send h
  · exact replaceDSL_not_symbol E ctx send a0 h0 h
  · exact replaceDSL_not_constant E ctx send a1 h1 h

theorem replaceDSL_same_implied (E : DSLEnv) (ctx : E.Ctx) (s1 s2 : Send E)
    (a0 a1 : E.Expression) (rest1 rest2 : List E.Expression)
    (hf1 : s1.fun_ = E.dslOptional ∨ s1.fun_ = E.dslRequired)
    (hf2 : s2.fun_ = E.dslOptional ∨ s2.fun_ = E.dslRequired)
    (hloc : s1.loc = s2.loc)
    (h1 : s1.args = a0 :: a1 :: rest1) (h2 : s2.args = a0 :: a1 :: rest2)
    (himp : ((rest1.head?.bind E.castHash).map (DSLBuilder.hasImplied E ctx) = some true) ↔
      ((rest2.head?.bind E.castHash).map (DSLBuilder.hasImplied E ctx) = some true)) :
    DSLBuilder.replaceDSL E ctx s1 = DSLBuilder.replaceDSL E ctx s2 := by
  rcases replaceDSL_guard E ctx s1 with ⟨b0, b1, rest, sym, klass, hargs, hsym, his, hk⟩ | hg
  · rw [h1] at hargs
    simp only [List.cons.injEq] at hargs
    obtain ⟨rfl, rfl, rfl⟩ := hargs
    rw [replaceDSL_of_args E ctx s1 a0 a1 rest1 sym klass hf1 h1 hsym his hk,
      replaceDSL_of_args E ctx s2 a0 a1 rest2 sym klass hf2 h2 hsym his hk, hloc]
    simp only [himp]
  · have hg2 : s2.args.length < 2 ∨
        (∃ a0, s2.args[0]? = some a0 ∧
          ∀ l, E.castLiteral a0 = some l → E.isSymbol l ctx = false) ∨
        (∃ a1, s2.args[1]? = some a1 ∧ E.castConstantLit a1 = none) := by
      rw [h1] at hg
      rw [h2]
      rcases hg with hg | ⟨b0, hb, hg⟩ | ⟨b1, hb, hg⟩
      · simp only [List.length_cons] at hg
        omega
      · exact Or.inr (Or.inl ⟨b0, by simpa using hb, hg⟩)
      · exact Or.inr (Or.inr ⟨b1, by simpa using hb, hg⟩)
    rw [replaceDSL_guard_fails E ctx s1 hg, replaceDSL_guard_fails E ctx s2 hg2]

/-- C20. In `DSLBuilder::replaceDSL` the flag `nilable` never influences the result. For every
send node, the result with `fun` set to `dslOptional` equals the result with `fun` set to
`dslRequired`. The options hash enters only through whether the key `implied` is found in it:
replacing the options hash by any other hash with the same answer for `implied` (with or
without a `default` key) leaves the result unchanged, and a hash in which `implied` is not
found gives the same result as no third argument at all. The result is empty when `fun` is
neither of the two names, when there are fewer than two arguments, when the first argument is
not a symbol literal, and when the second is not a constant literal; otherwise it is exactly
six statements: a signature and a method definition for each of `self.<name>`,
`self.get_<name>` and `<name>`. -/
theorem replaceDSL_nilable_unused (E : DSLEnv) (ctx : E.Ctx) (send : Send E) :
    DSLBuilder.replaceDSL E ctx { send with fun_ := E.dslOptional } =
      DSLBuilder.replaceDSL E ctx { send with fun_ := E.dslRequired } ∧
    (∀ (a0 a1 a2 a2' : E.Expression) (rest rest' : List E.Expression) (h h' : E.Hash),
      send.args = a0 :: a1 :: a2 :: rest → E.castHash a2 = some h → E.castHash a2' = some h' →
      DSLBuilder.hasImplied E ctx h = DSLBuilder.hasImplied E ctx h' →
      DSLBuilder.replaceDSL E ctx send =
        DSLBuilder.replaceDSL E ctx { send with args := a0 :: a1 :: a2' :: rest' }) ∧
    (∀ (a0 a1 a2 : E.Expression) (rest : List E.Expression) (h : E.Hash),
      send.args = a0 :: a1 :: a2 :: rest → E.castHash a2 = some h →
      DSLBuilder.hasImplied E ctx h = false →
      DSLBuilder.replaceDSL E ctx send =
        DSLBuilder.replaceDSL E ctx { send with args := [a0, a1] }) ∧
    (send.fun_ ≠ E.dslOptional → send.fun_ ≠ E.dslRequired →
      DSLBuilder.replaceDSL E ctx send = ([], ctx)) ∧
    (send.args.length < 2 → DSLBuilder.replaceDSL E ctx send = ([], ctx)) ∧
    (∀ a0, send.args[0]? = some a0 →
      (∀ l, E.castLiteral a0 = some l → E.isSymbol l ctx = false) →
      DSLBuilder.replaceDSL E ctx send = ([], ctx)) ∧
    (∀ a1, send.args[1]? = some a1 → E.castConstantLit a1 = none →
      DSLBuilder.replaceDSL E ctx send = ([], ctx)) ∧
    (∀ (a0 a1 : E.Expression) (rest : List E.Expression) (sym : E.Literal)
        (klass : E.ConstantLit),
      (send.fun_ = E.dslOptional ∨ send.fun_ = E.dslRequired) →
      send.args = a0 :: a1 :: rest → E.castLiteral a0 = some sym →
      E.isSymbol sym ctx = true → E.castConstantLit a1 = some klass →
      (DSLBuilder.replaceDSL E ctx send).1.length = 6 ∧
      ∃ arg, (arg = E.Local send.loc (E.asSymbol sym ctx) ∨
          arg = E.OptionalArg send.loc (E.Local send.loc (E.asSymbol sym ctx))
            (E.Send0 send.loc (E.Ident send.loc E.T) E.untyped)) ∧
        DSLBuilder.replaceDSL E ctx send =
          ([E.Sig1 send.loc (E.Symbol send.loc (E.asSymbol sym ctx))
              (E.dupType (E.dupType a1)) (E.Ident send.loc E.NilClass),
            E.Method1 send.loc (E.asSymbol sym ctx) arg (E.EmptyTree send.loc)
              (E.SelfMethod ||| E.DSLSynthesized),
            E.Sig0 send.loc (E.dupType (E.dupType a1)),
            E.Method send.loc
              (E.enterNameUTF8 ctx ("get_".toList ++ E.toString (E.asSymbol sym ctx) ctx)).1
              E.noArgs (E.Unsafe send.loc (E.Nil send.loc))
              (E.SelfMethod ||| E.DSLSynthesized),
            E.Sig0 send.loc (E.dupType (E.dupType a1)),
            E.Method send.loc (E.asSymbol sym ctx) E.noArgs
              (E.Unsafe send.loc (E.Nil send.loc)) E.DSLSynthesized],
           (E.enterNameUTF8 ctx
              ("get_".toList ++ E.toString (E.asSymbol sym ctx) ctx)).2)) := by
  have hsame : ∀ s1 s2 : Send E, s1.loc = s2.loc →
      ((s1.fun_ = E.dslOptional ∨ s1.fun_ = E.dslRequired) ↔
        (s2.fun_ = E.dslOptional ∨ s2.fun_ = E.dslRequired)) →
      ∀ (a0 a1 : E.Expression) (rest1 rest2 : List E.Expression),
      s1.args = a0 :: a1 :: rest1 → s2.args = a0 :: a1 :: rest2 →
      (((rest1.head?.bind E.castHash).map (DSLBuilder.hasImplied E ctx) = some true) ↔
        ((rest2.head?.bind E.castHash).map (DSLBuilder.hasImplied E ctx) = some true)) →
      DSLBuilder.replaceDSL E ctx s1 = DSLBuilder.replaceDSL E ctx s2 := by
    intro s1 s2 hloc hfun a0 a1 rest1 rest2 h1 h2 himp
    by_cases hf : s1.fun_ = E.dslOptional ∨ s1.fun_ = E.dslRequired
    · exact replaceDSL_same_implied E ctx s1 s2 a0 a1 rest1 rest2 hf (hfun.mp hf) hloc h1 h2
        himp
    · have hf2 := fun h => hf (hfun.mpr h)
      rw [replaceDSL_other_fun E ctx s1 (fun h => hf (Or.inl h)) (fun h => hf (Or.inr h)),
        replaceDSL_other_fun E ctx s2 (fun h => hf2 (Or.inl h)) (fun h => hf2 (Or.inr h))]
  refine ⟨?_, ?_, ?_, replaceDSL_other_fun E ctx send, replaceDSL_few_args E ctx send,
    replaceDSL_not_symbol E ctx send, replaceDSL_not_constant E ctx send, ?_⟩
  · rcases hargs : send.args with _ | ⟨a0, _ | ⟨a1, rest⟩⟩
    · rw [replaceDSL_few_args E ctx _ (by simp [hargs]),
        replaceDSL_few_args E ctx _ (by simp [hargs])]
    · rw [replaceDSL_few_args E ctx _ (by simp [hargs]),
        replaceDSL_few_args E ctx _ (by simp [hargs])]
    · exact hsame _ _ rfl (by simp) a0 a1 rest rest rfl rfl Iff.rfl
  · intro a0 a1 a2 a2' rest rest' h h' hargs hh hh' himp
    exact hsame _ _ rfl Iff.rfl a0 a1 (a2 :: rest) (a2' :: rest') hargs rfl
      (by simp [hh, hh', himp])
  · intro a0 a1 a2 rest h hargs hh himp
    exact hsame _ _ rfl Iff.rfl a0 a1 (a2 :: rest) [] hargs rfl (by simp [hh, himp])
  · intro a0 a1 rest sym klass hfun hargs hsym his hklass
    have hres := replaceDSL_of_args E ctx send a0 a1 rest sym klass hfun hargs hsym his hklass
    refine ⟨by rw [hres]; rfl, _, ?_, hres⟩
    split
    · exact Or.inr rfl
    · exact Or.inl rfl

/-- Witness of C20 on the text instance: `dsl_optional :foo, String, \x7bdefault: 1\x7d`
gives the six statements for `foo`, the same as without the options hash; the guards
give the empty result. -/
theorem replaceDSL_nilable_unused_witness :
    (DSLBuilder.replaceDSL textDSL [] sampleSend).1.length = 6 ∧
    (DSLBuilder.replaceDSL textDSL [] sampleSend).1 =
      ["sig(:foo: String): NilClass".toList, "def self.foo(foo)".toList,
        "sig(): String".toList, "def self.get_foo() T.unsafe(nil)".toList,
        "sig(): String".toList, "def foo() T.unsafe(nil)".toList] ∧
    DSLBuilder.replaceDSL textDSL [] sampleSend =
      DSLBuilder.replaceDSL textDSL []
        { sampleSend with args := [":foo".toList, "String".toList] } ∧
    DSLBuilder.replaceDSL textDSL [] sampleSend =
      DSLBuilder.replaceDSL textDSL []
        { sampleSend with args := [":foo".toList, "String".toList, "\x7b\x7d".toList] } ∧
    DSLBuilder.replaceDSL textDSL [] { sampleSend with fun_ := "attr".toList } = ([], []) ∧
    DSLBuilder.replaceDSL textDSL [] { sampleSend with args := [":foo".toList] } = ([], []) ∧
    DSLBuilder.replaceDSL textDSL []
      { sampleSend with args := ["foo".toList, "String".toList] } = ([], []) ∧
    DSLBuilder.replaceDSL textDSL []
      { sampleSend with args := [":foo".toList, "string".toList] } = ([], []) :=
  ⟨((replaceDSL_nilable_unused textDSL [] sampleSend).2.2.2.2.2.2.2 ":foo".toList
      "String".toList ["\x7bdefault: 1\x7d".toList] ":foo".toList "String".toList
      (Or.inl rfl) rfl rfl rfl rfl).1,
   rfl,
   (replaceDSL_nilable_unused textDSL [] sampleSend).2.2.1 ":foo".toList "String".toList
      "\x7bdefault: 1\x7d".toList [] "\x7bdefault: 1\x7d".toList rfl rfl rfl,
   (replaceDSL_nilable_unused textDSL [] sampleSend).2.1 ":foo".toList "String".toList
      "\x7bdefault: 1\x7d".toList "\x7b\x7d".toList [] [] "\x7bdefault: 1\x7d".toList
      "\x7b\x7d".toList rfl rfl rfl rfl,
   (replaceDSL_nilable_unused textDSL [] { sampleSend with fun_ := "attr".toList }).2.2.2.1
      (by decide) (by decide),
   (replaceDSL_nilable_unused textDSL []
      { sampleSend with args := [":foo".toList] }).2.2.2.2.1 (by decide),
   (replaceDSL_nilable_unused textDSL []
      { sampleSend with args := ["foo".toList, "String".toList] }).2.2.2.2.2.1
      "foo".toList rfl (fun l h => by cases h),
   (replaceDSL_nilable_unused textDSL []
      { sampleSend with args := [":foo".toList, "string".toList] }).2.2.2.2.2.2.1
      "string".toList rfl rfl⟩

end Sorbet
